import Mathlib

/-
  Verification of the match-verification, line-assembly and relevance-scoring
  engine of a trigram-indexed code search service (packages `zoekt` and
  `codesearch` of the repository, file src/search.go).

  Machine integers (Go uint32) are modelled as Nat with an explicit
  `% 4294967296` at the places where the Go code can wrap.
-/

/-- One shifted u32 modulus constant, 2^32. -/
def u32Mod : Nat := 4294967296

namespace Codesearch

/-- NGRAM is the fixed trigram length used by the index. -/
def NGRAM : Nat := 3

/-- Modelled from the spec: `toLower` is the canonical ASCII lowercasing used
to build the lowered pattern (external byte utility, not in src/search.go). -/
def toLower (bs : List Nat) : List Nat :=
  bs.map (fun c => if 65 ≤ c ∧ c ≤ 90 then c + 32 else c)

/-- SubstringQuery: the part of the query consumed by this core — the pattern
bytes and the case-sensitivity flag. -/
structure SubstringQuery where
  Pattern : List Nat
  CaseSensitive : Bool
deriving DecidableEq, Repr

/-- candidateMatch from package codesearch: a structurally verified occurrence
of the pattern.  The derived `caseMask`/`caseBits` caches are recomputed on
demand rather than stored (they are a pure function of `substrBytes`). -/
structure candidateMatch where
  query : SubstringQuery
  substrBytes : List Nat
  lowered : List Nat
  file : Nat
  offset : Nat
deriving DecidableEq, Repr

/-- docIterator state: pattern length, the two trigram position lists and the
document cursor over the shard's `ends` table. -/
structure docIterator where
  query : SubstringQuery
  patLen : Nat
  first : List Nat
  last : List Nat
  fileIdx : Nat
  ends : List Nat
deriving DecidableEq, Repr

/-- The document-cursor advance loop of docIterator.next:
`for s.fileIdx < len(s.ends) && s.ends[s.fileIdx] <= p1 { s.fileIdx++ }`. -/
def advanceIdx (ends : List Nat) (idx p1 : Nat) : Nat :=
  idx + ((ends.drop idx).takeWhile (fun e => decide (e ≤ p1))).length

/-- Loop body of docIterator.next, with fuel bounding the number of
iterations; every iteration consumes at least one element of `first` or
`last`, so fuel `first.length + last.length` is sufficient. -/
def nextAux (q : SubstringQuery) (patLen : Nat) (ends : List Nat) :
    Nat → List Nat → List Nat → Nat → List candidateMatch
  | 0, _, _, _ => []
  | _ + 1, [], _, _ => []
  | _ + 1, _ :: _, [], _ => []
  | fuel + 1, p1 :: f', p2 :: l', idx =>
    let idx' := advanceIdx ends idx p1
    let distance := (patLen + u32Mod - NGRAM) % u32Mod
    if (p1 + distance) % u32Mod < p2 then
      nextAux q patLen ends fuel f' (p2 :: l') idx'
    else if p2 < (p1 + distance) % u32Mod then
      nextAux q patLen ends fuel (p1 :: f') l' idx'
    else
      -- equal adjusted heads: advance both, then boundary check
      if ends.getD idx' 0 ≤ (p1 + patLen) % u32Mod then
        nextAux q patLen ends fuel f' l' idx'
      else
        let fileStart := if 0 < idx' then ends.getD (idx' - 1) 0 else 0
        { query := q
          substrBytes := q.Pattern
          lowered := toLower q.Pattern
          file := idx'
          offset := p1 - fileStart } :: nextAux q patLen ends fuel f' l' idx'

/-- docIterator.next: drains both position lists, emitting the candidate
matches that fit inside a single document. -/
def docIterator.next (s : docIterator) : List candidateMatch :=
  nextAux s.query s.patLen s.ends (s.first.length + s.last.length)
    s.first s.last s.fileIdx

/-- True when the byte is an ASCII lowercase letter. -/
def isLowerByte (c : Nat) : Bool := decide (97 ≤ c ∧ c ≤ 122)

/-- True when the byte is an ASCII uppercase letter. -/
def isUpperByte (c : Nat) : Bool := decide (65 ≤ c ∧ c ≤ 90)

/-- True when the byte is an ASCII letter (the cased bytes). -/
def isLetterByte (c : Nat) : Bool := isLowerByte c || isUpperByte c

/-- Pack the first `n` values of a bit-valued function into a Nat,
least-significant bit first (bit k of the result is `f k` for `k < n`). -/
def packBits (f : Nat → Bool) : Nat → Nat
  | 0 => 0
  | n + 1 => (if f 0 then 1 else 0) + 2 * packBits (fun t => f (t + 1)) n

/-- Byte `i` of a packed 1-bit-per-position template whose bit at absolute
position `p` is `f p` (LSB-first inside each byte). -/
def templByte (f : Nat → Bool) (i : Nat) : Nat :=
  packBits (fun k => f (8 * i + k)) 8

/-- Modelled from the spec: the `mask` half of `findCaseMasks` for sub-byte
alignment `s` — a byte-aligned template covering `s + |P|` bits, whose bit
`s + i` is set exactly when pattern byte `P[i]` is a cased (ASCII letter)
byte.  `findCaseMasks` itself is an external collaborator not in src/search.go. -/
def caseMaskTempl (P : List Nat) (s : Nat) : List Nat :=
  (List.range ((s + P.length + 7) / 8)).map
    (templByte (fun p => decide (s ≤ p) && decide (p < s + P.length) && isLetterByte (P.getD (p - s) 0)))

/-- Modelled from the spec: the `bits` half of `findCaseMasks` for alignment
`s` — bit `s + i` is set exactly when pattern byte `P[i]` is uppercase
(the case bitmap records uppercase-origin bytes as set bits). -/
def caseBitsTempl (P : List Nat) (s : Nat) : List Nat :=
  (List.range ((s + P.length + 7) / 8)).map
    (templByte (fun p => decide (s ≤ p) && decide (p < s + P.length) && isUpperByte (P.getD (p - s) 0)))

/-- candidateMatch.caseMatches: case-insensitive queries match unconditionally;
otherwise the byte-aligned slice of the document's packed case bitmap is
compared bitwise against the pattern's (mask, bits) template for the
candidate's sub-byte alignment. -/
def candidateMatch.caseMatches (m : candidateMatch) (fileCaseBits : List Nat) : Bool :=
  if !m.query.CaseSensitive then true
  else
    let patLen := m.substrBytes.length
    let startExtend := m.offset % 8
    let patEnd := m.offset + patLen
    let endExtend := (8 - patEnd % 8) % 8
    let start := m.offset - startExtend
    let stop := m.offset + patLen + endExtend
    let fileBits := (fileCaseBits.drop (start / 8)).take (stop / 8 - start / 8)
    let mask := caseMaskTempl m.substrBytes startExtend
    let bits := caseBitsTempl m.substrBytes startExtend
    (List.range fileBits.length).all
      (fun i => fileBits.getD i 0 &&& mask.getD i 0 == bits.getD i 0)

/-- Bit `g` of a packed case bitmap (byte `g / 8`, LSB-first bit `g % 8`). -/
def bitAt (cb : List Nat) (g : Nat) : Bool :=
  (cb.getD (g / 8) 0).testBit (g % 8)

/-- A packed case bitmap encodes exactly the case pattern of `P` at offset
`o`: for every byte of `P`, the corresponding bit is set iff that byte is
uppercase. -/
def encodesCase (cb : List Nat) (o : Nat) (P : List Nat) : Prop :=
  ∀ i < P.length, bitAt cb (o + i) = isUpperByte (P.getD i 0)

/-- Flip bit `g` of a packed case bitmap. -/
def flipBit (cb : List Nat) (g : Nat) : List Nat :=
  cb.set (g / 8) (cb.getD (g / 8) 0 ^^^ 2 ^ (g % 8))

end Codesearch

namespace Zoekt

/-- DocumentSection: a [Start, End) byte range marking a named symbol span.
Modelled from the spec (the type is declared outside src/search.go). -/
structure DocumentSection where
  Start : Nat
  End : Nat
deriving DecidableEq, Repr

/-- MatchFragment: one sub-match within an assembled line.  Modelled from the
spec (the type is declared outside src/search.go).  `Offset` and `LineOff`
are non-negative in every record the engine builds, so Go's ints are
modelled as Nat. -/
structure MatchFragment where
  Offset : Nat
  LineOff : Nat
  MatchLength : Nat
deriving DecidableEq, Repr

/-- Match: the externally visible line-level match record.  Modelled from the
spec (the type is declared outside src/search.go).  Score is a float64 in Go;
every score the engine produces is a small multiple of 25, exactly
representable, so it is modelled as a rational. -/
structure Match where
  LineStart : Nat
  LineEnd : Nat
  LineNum : Nat
  Line : List Nat
  FileName : Bool
  Fragments : List MatchFragment
  Score : ℚ
deriving DecidableEq, Repr

/-- FileMatch: per-file aggregate carrying the Score used by file-level
sorting.  Modelled from the spec (declared outside src/search.go). -/
structure FileMatch where
  Score : ℚ
deriving DecidableEq, Repr

/-- Stats: accumulator of bytes/files loaded during content retrieval. -/
structure Stats where
  FilesLoaded : Nat
  BytesLoaded : Nat
deriving DecidableEq, Repr

/-- Modelled from the spec: `byteClass` classifies a byte into an
identifier-like class versus other, used only for boundary detection
(external byte utility, not in src/search.go; the exact class set is an
implementation detail that only needs to be stable). -/
def byteClass (c : Nat) : Nat :=
  if (97 ≤ c ∧ c ≤ 122) ∨ (65 ≤ c ∧ c ≤ 90) then 2
  else if 48 ≤ c ∧ c ≤ 57 then 1
  else 0

/-- Score constants of the scorer. -/
def scorePartialWordMatch : ℚ := 50

def scoreWordMatch : ℚ := 500

def scorePartialSymbol : ℚ := 4000

def scoreSymbol : ℚ := 7000

/-- sort.Search from Go's standard library (binary search for the least index
in [0, n) at which `f` is true, assuming `f` is monotone): invoked by
findSection.  The loop halves `j - i` each iteration, so fuel `n + 1`
is sufficient. -/
def goSearchAux (f : Nat → Bool) : Nat → Nat → Nat → Nat
  | 0, i, _ => i
  | fuel + 1, i, j =>
    if i < j then
      let h := i + (j - i) / 2
      if !f h then goSearchAux f fuel (h + 1) j
      else goSearchAux f fuel i h
    else i

/-- sort.Search entry point. -/
def goSearch (n : Nat) (f : Nat → Bool) : Nat :=
  goSearchAux f (n + 1) 0 n

/-- findSection: binary-search the ascending-by-End section table for the
first section whose End is at least `off + sz`, and return it when it fully
contains [off, off+sz). -/
def findSection (secs : List DocumentSection) (off sz : Nat) : Option DocumentSection :=
  let target := (off + sz) % u32Mod
  let j := goSearch secs.length (fun i => decide (target ≤ (secs.getD i ⟨0, 0⟩).End))
  if j = secs.length then none
  else if (secs.getD j ⟨0, 0⟩).Start ≤ off ∧ target ≤ (secs.getD j ⟨0, 0⟩).End then
    some (secs.getD j ⟨0, 0⟩)
  else none

/-- The fragment's start byte-class boundary test of matchScore:
`f.LineOff < len(m.Line) && (f.LineOff == 0 || byteClass(m.Line[f.LineOff-1]) != byteClass(m.Line[f.LineOff]))`. -/
def startBoundary (line : List Nat) (f : MatchFragment) : Bool :=
  decide (f.LineOff < line.length) &&
    (decide (f.LineOff = 0) ||
      decide (byteClass (line.getD (f.LineOff - 1) 0) ≠ byteClass (line.getD f.LineOff 0)))

/-- The fragment's end byte-class boundary test of matchScore, with
`end := f.LineOff + f.MatchLength`:
`end > 0 && (end == len(m.Line) || byteClass(m.Line[end-1]) != byteClass(m.Line[end]))`. -/
def endBoundary (line : List Nat) (f : MatchFragment) : Bool :=
  let e := f.LineOff + f.MatchLength
  decide (0 < e) &&
    (decide (e = line.length) ||
      decide (byteClass (line.getD (e - 1) 0) ≠ byteClass (line.getD e 0)))

/-- Score of one fragment of a Match: the loop body of matchScore. -/
def fragmentScore (secs : List DocumentSection) (line : List Nat) (f : MatchFragment) : ℚ :=
  let score : ℚ :=
    if startBoundary line f && endBoundary line f then scoreWordMatch
    else if startBoundary line f || endBoundary line f then scorePartialWordMatch
    else 0
  match findSection secs f.Offset f.MatchLength with
  | none => score
  | some sec =>
    let startMatch := decide (sec.Start = f.Offset)
    let endMatch := decide (sec.End = (f.Offset + f.MatchLength) % u32Mod)
    if startMatch && endMatch then score + scoreSymbol
    else if startMatch || endMatch then score + (scoreSymbol + scorePartialSymbol) / 2
    else score + scorePartialSymbol

/-- matchScore: folds the fragment scores, keeping the running maximum
(`if score > maxScore { maxScore = score }` starting from 0). -/
def matchScore (secs : List DocumentSection) (m : Match) : ℚ :=
  m.Fragments.foldl
    (fun maxScore f =>
      let score := fragmentScore secs m.Line f
      if maxScore < score then score else maxScore)
    0

/-- candidateMatch as used by the zoekt content provider: byte offset,
match length, and whether it is a filename or content match. -/
structure candidateMatch where
  offset : Nat
  matchSz : Nat
  fileName : Bool
deriving DecidableEq, Repr

/-- indexData: the external index-reader collaborator.  Each reader returns a
value together with a possible decode error (Go's `(v, err)` pair); the
filename tables are flattened byte arrays addressed through index tables,
exactly as the provider slices them. -/
structure indexData where
  fileEnds : List Nat
  readContents : Nat → List Nat × Option Unit
  readCaseBits : Nat → List Nat × Option Unit
  readNewlines : Nat → List Nat × Option Unit
  readDocSections : Nat → List DocumentSection × Option Unit
  fileNameContent : List Nat
  fileNameIndex : List Nat
  fileNameCaseBits : List Nat
  fileNameCaseBitsIndex : List Nat

/-- indexData.fileName: the name bytes of document `idx`
(`fileNameContent[fileNameIndex[idx]:fileNameIndex[idx+1]]`). -/
def indexData.fileName (id : indexData) (idx : Nat) : List Nat :=
  (id.fileNameContent.drop (id.fileNameIndex.getD idx 0)).take
    (id.fileNameIndex.getD (idx + 1) 0 - id.fileNameIndex.getD idx 0)

/-- contentProvider: per-document lazy accessor.  The `_`-prefixed fields are
the per-document caches (`none` plays the role of Go's nil slice); `err`
is the latched decode error. -/
structure contentProvider where
  id : indexData
  stats : Stats
  err : Option Unit
  idx : Nat
  cbCache : Option (List Nat)
  dataCache : Option (List Nat)
  nlCache : Option (List Nat)
  nlBuf : List Nat
  sectsCache : Option (List DocumentSection)
  fileSize : Nat

/-- contentProvider.setDocument: switch the provider to document `docID`,
recomputing fileSize and dropping the four per-document caches.  The latched
`err` field is left untouched. -/
def contentProvider.setDocument (p : contentProvider) (docID : Nat) : contentProvider :=
  let fileStart := if 0 < docID then p.id.fileEnds.getD (docID - 1) 0 else 0
  { p with
    idx := docID
    fileSize := p.id.fileEnds.getD docID 0 - fileStart
    nlCache := none
    sectsCache := none
    dataCache := none
    cbCache := none }

/-- contentProvider.docSections, threading the mutated provider state. -/
def contentProvider.docSections (p : contentProvider) : List DocumentSection × contentProvider :=
  match p.sectsCache with
  | some s => (s, p)
  | none =>
    let r := p.id.readDocSections p.idx
    (r.1, { p with sectsCache := some r.1, err := r.2 })

/-- contentProvider.newlines, threading the mutated provider state. -/
def contentProvider.newlines (p : contentProvider) : List Nat × contentProvider :=
  match p.nlCache with
  | some s => (s, p)
  | none =>
    let r := p.id.readNewlines p.idx
    (r.1, { p with nlCache := some r.1, nlBuf := r.1, err := r.2 })

/-- contentProvider.data: filename bytes are a zero-copy view through the
filename index tables; content bytes go through the lazy cache and update
the Stats counters. -/
def contentProvider.data (p : contentProvider) (fileName : Bool) : List Nat × contentProvider :=
  if fileName then
    ((p.id.fileNameContent.drop (p.id.fileNameIndex.getD p.idx 0)).take
      (p.id.fileNameIndex.getD (p.idx + 1) 0 - p.id.fileNameIndex.getD p.idx 0), p)
  else
    match p.dataCache with
    | some s => (s, p)
    | none =>
      let r := p.id.readContents p.idx
      let st : Stats := { FilesLoaded := p.stats.FilesLoaded + 1,
                          BytesLoaded := p.stats.BytesLoaded + r.1.length }
      (r.1, { p with dataCache := some r.1, err := r.2, stats := st })

/-- contentProvider.caseBits, threading the mutated provider state. -/
def contentProvider.caseBits (p : contentProvider) (fileName : Bool) : List Nat × contentProvider :=
  if fileName then
    ((p.id.fileNameCaseBits.drop (p.id.fileNameCaseBitsIndex.getD p.idx 0)).take
      (p.id.fileNameCaseBitsIndex.getD (p.idx + 1) 0 - p.id.fileNameCaseBitsIndex.getD p.idx 0), p)
  else
    match p.cbCache with
    | some s => (s, p)
    | none =>
      let r := p.id.readCaseBits p.idx
      (r.1, { p with cbCache := some r.1, err := r.2 })

/-- Modelled from the spec: `toOriginal` restores original letter casing over
lowercased indexed content for the byte range [start, stop), consuming the
packed case bitmap (external byte utility, not in src/search.go; the
caller-provided destination buffer is immaterial in a value model). -/
def toOriginal (content caseBits : List Nat) (start stop : Nat) : List Nat :=
  (List.range (stop - start)).map (fun k =>
    let c := content.getD (start + k) 0
    if Codesearch.bitAt caseBits (start + k) && Codesearch.isLowerByte c then c - 32 else c)

/-- Modelled from the spec: `candidateMatch.line` computes the 1-based line
number and the line's [start, end) byte bounds for the line containing the
match offset, by binary search on the ascending newline table — `lineStart`
is the offset after the previous terminator (or 0), `lineEnd` the next
terminator's offset (or the content length if none remains).  This zoekt-side
helper is declared outside src/search.go; the codesearch-side
`candidateMatch.line` in src computes the same bounds. -/
def lineBounds (newlines : List Nat) (fileSize : Nat) (offset : Nat) : Nat × Nat × Nat :=
  let idx := goSearch newlines.length (fun n => decide (offset ≤ newlines.getD n 0))
  let start := if 0 < idx then newlines.getD (idx - 1) 0 + 1 else 0
  let stop := if idx < newlines.length then newlines.getD idx 0 else fileSize
  (idx + 1, start, stop)

/-- bytes.IndexByte: index of the first occurrence of `b` in `data`, or -1. -/
def indexByte (data : List Nat) (b : Nat) : Int :=
  match data.findIdx? (fun c => c == b) with
  | none => -1
  | some i => (i : Int)

/-- The cross-line extension loop of fillContentMatches, exactly as written:
`for end < len(data) && endMatch > uint32(end) { end = bytes.IndexByte(data[end+1:], '\n'); if end == -1 { end = len(data) } }`.
Note the loop assigns the index *relative to* `data[end+1:]` back to `end`.
As written the loop need not terminate (the relative index can oscillate), so
fuel bounds the iteration count; every claim-relevant run terminates within
`data.length + 1` iterations. -/
def extendEnd (data : List Nat) (endMatch : Nat) : Nat → Nat → Nat
  | 0, e => e
  | fuel + 1, e =>
    if e < data.length ∧ e < endMatch then
      let e' := indexByte (data.drop (e + 1)) 10
      extendEnd data endMatch fuel (if e' = -1 then data.length else e'.toNat)
    else e

/-- The inner grouping loop of fillContentMatches: consume queued candidate
matches while their offset is below the current line end, tracking the last
consumed match's end offset (`endMatch`). -/
def takeLine (stop : Nat) (endMatch0 : Nat) :
    List candidateMatch → List candidateMatch × List candidateMatch × Nat
  | [] => ([], [], endMatch0)
  | m :: ms =>
    if m.offset < stop then
      let r := takeLine stop ((m.offset + m.matchSz) % u32Mod) ms
      (m :: r.1, r.2.1, r.2.2)
    else ([], m :: ms, endMatch0)

/-- fillContentMatches: group an ascending run of content candidate matches
into line-level Match records.  The outer loop consumes at least one
candidate per iteration in every terminating Go run, so fuel `ms.length`
is sufficient there (when a group consumes no candidate the Go loop would
not terminate). -/
def fillContentMatchesAux (p : contentProvider) :
    Nat → List candidateMatch → List Match × contentProvider
  | 0, _ => ([], p)
  | _ + 1, [] => ([], p)
  | fuel + 1, m :: msRest =>
    let nl := p.newlines
    let bounds := lineBounds nl.1 nl.2.fileSize m.offset
    let num := bounds.1
    let start := bounds.2.1
    let g := takeLine bounds.2.2 ((m.offset + m.matchSz) % u32Mod) (m :: msRest)
    let lineCands := g.1
    let ms' := g.2.1
    let endMatch := g.2.2
    let d := nl.2.data false
    let stop := extendEnd d.1 endMatch (d.1.length + 1) bounds.2.2
    let cb := (d.2.data false).2.caseBits false
    let finalMatch : Match :=
      { LineStart := start
        LineEnd := stop
        LineNum := num
        Line := toOriginal d.1 cb.1 start stop
        FileName := false
        Fragments := lineCands.map (fun c =>
          { Offset := c.offset, LineOff := c.offset - start, MatchLength := c.matchSz })
        Score := 0 }
    let rest := fillContentMatchesAux cb.2 fuel ms'
    (finalMatch :: rest.1, rest.2)

/-- fillContentMatches entry point. -/
def contentProvider.fillContentMatches (p : contentProvider) (ms : List candidateMatch) :
    List Match × contentProvider :=
  fillContentMatchesAux p ms.length ms

/-- fillMatches: filename candidates always become one Match (flagged
FileName) holding one fragment per candidate; content candidates go through
fillContentMatches; every produced Match is then scored against the
document's section table.  (Go indexes `ms[0]`, so the empty input is
outside its domain; the model returns no matches there.) -/
def contentProvider.fillMatches (p : contentProvider) (ms : List candidateMatch) :
    List Match × contentProvider :=
  match ms with
  | [] => ([], p)
  | m0 :: _ =>
    let r :=
      if m0.fileName then
        let res : Match :=
          { LineStart := 0, LineEnd := 0, LineNum := 0
            Line := p.id.fileName p.idx
            FileName := true
            Fragments := ms.map (fun m =>
              { LineOff := m.offset, MatchLength := m.matchSz, Offset := m.offset })
            Score := 0 }
        (([res] : List Match), p)
      else
        p.fillContentMatches ms
    let s := r.2.docSections
    (r.1.map (fun m => { m with Score := matchScore s.1 m }), s.2)

end Zoekt

namespace GoSort

/-- data.Swap(i, j) on a list-modelled slice (identity out of bounds, which
the sort never exercises). -/
def lswap (l : List α) (i j : Nat) : List α :=
  match l.get? i, l.get? j with
  | some a, some b => (l.set i b).set j a
  | _, _ => l

/-- data.Less(i, j) on a list-modelled slice (false out of bounds, which the
sort never exercises). -/
def ltAt (less : α → α → Bool) (l : List α) (i j : Nat) : Bool :=
  match l.get? i, l.get? j with
  | some a, some b => less a b
  | _, _ => false

/-- Inner loop of insertionSort: `for j := i; j > a && data.Less(j, j-1); j--
{ data.Swap(j, j-1) }`. -/
def insInner (less : α → α → Bool) (a : Nat) : Nat → List α → List α
  | 0, l => l
  | j + 1, l =>
    if a < j + 1 && ltAt less l (j + 1) j then
      insInner less a j (lswap l (j + 1) j)
    else l

/-- insertionSort from Go's sort package: sorts data[a:b]. -/
def insertionSortGo (less : α → α → Bool) (l : List α) (a b : Nat) : List α :=
  (List.range' (a + 1) (b - (a + 1))).foldl (fun l i => insInner less a i l) l

/-- The ShellSort pass with gap 6 that Go's quickSort applies to slices of at
most 12 elements before insertion sort. -/
def shellPass (less : α → α → Bool) (a b : Nat) (l : List α) : List α :=
  (List.range' (a + 6) (b - (a + 6))).foldl
    (fun l i => if ltAt less l i (i - 6) then lswap l i (i - 6) else l) l

/-- siftDown from Go's sort package, implementing the heap property on
data[lo, hi) rooted at `first`; each iteration at least doubles `root`, so
fuel `hi + 1` is sufficient. -/
def siftDown (less : α → α → Bool) (first hi : Nat) : Nat → Nat → List α → List α
  | 0, _, l => l
  | fuel + 1, root, l =>
    let child := 2 * root + 1
    if hi ≤ child then l
    else
      let child := if child + 1 < hi && ltAt less l (first + child) (first + child + 1)
                   then child + 1 else child
      if !ltAt less l (first + root) (first + child) then l
      else siftDown less first hi fuel child (lswap l (first + root) (first + child))

/-- heapSort from Go's sort package. -/
def heapSortGo (less : α → α → Bool) (l : List α) (a b : Nat) : List α :=
  let first := a
  let hi := b - a
  let l := (List.range ((hi - 1) / 2 + 1)).foldr
    (fun i l => siftDown less first hi (hi + 1) i l) l
  (List.range hi).foldr
    (fun i l => siftDown less first i (b + 1) 0 (lswap l first (first + i))) l

/-- medianOfThree from Go's sort package: moves the median of data[a],
data[b], data[c] into data[a] (m1) by a three-element bubble pass on
positions m0 = b, m1 = a, m2 = c. -/
def medianOfThree (less : α → α → Bool) (l : List α) (a b c : Nat) : List α :=
  let m0 := b
  let m1 := a
  let m2 := c
  let l := if ltAt less l m1 m0 then lswap l m1 m0 else l
  let l := if ltAt less l m2 m1 then lswap l m2 m1 else l
  if ltAt less l m1 m0 then lswap l m1 m0 else l

/-- Scan loop `for ; a < c && data.Less(a, pivot); a++`. -/
def scanUpLess (less : α → α → Bool) (l : List α) (pivot c : Nat) : Nat → Nat → Nat
  | 0, a => a
  | fuel + 1, a => if a < c && ltAt less l a pivot then scanUpLess less l pivot c fuel (a + 1) else a

/-- Scan loop `for ; b < c && !data.Less(pivot, b); b++`. -/
def scanUpNotLess (less : α → α → Bool) (l : List α) (pivot c : Nat) : Nat → Nat → Nat
  | 0, b => b
  | fuel + 1, b => if b < c && !ltAt less l pivot b then scanUpNotLess less l pivot c fuel (b + 1) else b

/-- Scan loop `for ; b < c && data.Less(pivot, c-1); c--`. -/
def scanDownLess (less : α → α → Bool) (l : List α) (pivot b : Nat) : Nat → Nat → Nat
  | 0, c => c
  | fuel + 1, c => if b < c && ltAt less l pivot (c - 1) then scanDownLess less l pivot b fuel (c - 1) else c

/-- The main partition loop of doPivot. -/
def partLoop (less : α → α → Bool) (pivot : Nat) : Nat → Nat → Nat → List α → Nat × Nat × List α
  | 0, b, c, l => (b, c, l)
  | fuel + 1, b, c, l =>
    let b := scanUpNotLess less l pivot c (c + 1) b
    let c := scanDownLess less l pivot b (c + 1) c
    if c ≤ b then (b, c, l)
    else partLoop less pivot fuel (b + 1) (c - 1) (lswap l b (c - 1))

/-- Scan loop `for ; a < b && !data.Less(b-1, pivot); b--`. -/
def scanDownNotLess (less : α → α → Bool) (l : List α) (pivot a : Nat) : Nat → Nat → Nat
  | 0, b => b
  | fuel + 1, b => if a < b && !ltAt less l (b - 1) pivot then scanDownNotLess less l pivot a fuel (b - 1) else b

/-- The duplicate-protection loop of doPivot. -/
def protLoop (less : α → α → Bool) (pivot : Nat) : Nat → Nat → Nat → List α → Nat × Nat × List α
  | 0, a, b, l => (a, b, l)
  | fuel + 1, a, b, l =>
    let b := scanDownNotLess less l pivot a (b + 1) b
    let a := scanUpLess less l pivot b (b + 1) a
    if b ≤ a then (a, b, l)
    else protLoop less pivot fuel (a + 1) (b - 1) (lswap l a (b - 1))

/-- doPivot from Go's sort package (Go 1.7, contemporary with the code):
median-of-three (or medians-of-nine on long ranges) pivot selection, the
main partition loop, the duplicate test, and the duplicate-protection pass.
Returns (midlo, midhi) and the permuted slice. -/
def doPivot (less : α → α → Bool) (l : List α) (lo hi : Nat) : Nat × Nat × List α :=
  let m := lo + (hi - lo) / 2
  let l :=
    if 40 < hi - lo then
      let s := (hi - lo) / 8
      let l := medianOfThree less l lo (lo + s) (lo + 2 * s)
      let l := medianOfThree less l m (m - s) (m + s)
      medianOfThree less l (hi - 1) (hi - 1 - s) (hi - 1 - 2 * s)
    else l
  let l := medianOfThree less l lo m (hi - 1)
  let pivot := lo
  let a := scanUpLess less l pivot (hi - 1) hi (lo + 1)
  let r := partLoop less pivot (hi + 1) a (hi - 1) l
  let b := r.1
  let c := r.2.1
  let l := r.2.2
  let protect := decide (hi - c < 5)
  let state :=
    if !protect && decide (hi - c < (hi - lo) / 4) then
      -- test some points for equality to pivot
      let s1 := if !ltAt less l pivot (hi - 1) then (c + 1, lswap l c (hi - 1), 1) else (c, l, 0)
      let c := s1.1
      let l := s1.2.1
      let dups := s1.2.2
      let s2 := if !ltAt less l (b - 1) pivot then (b - 1, dups + 1) else (b, dups)
      let b := s2.1
      let dups := s2.2
      let s3 := if !ltAt less l m pivot then (b - 1, lswap l m (b - 1), dups + 1) else (b, l, dups)
      (s3.1, c, s3.2.1, decide (1 < s3.2.2))
    else (b, c, l, protect)
  let b := state.1
  let c := state.2.1
  let l := state.2.2.1
  let protect := state.2.2.2
  let abl := if protect then protLoop less pivot (hi + 1) a b l else (a, b, l)
  let b := abl.2.1
  let l := abl.2.2
  ((b - 1, c, lswap l pivot (b - 1)) : Nat × Nat × List α)

/-- quickSort from Go's sort package (Go 1.7): introsort with a heapSort
fallback at depth 0 and a shell/insertion pass for ranges of at most 12
elements.  Each nesting level decrements maxDepth or is a leaf, so fuel
`maxDepth + 1` is sufficient. -/
def quickSortGo (less : α → α → Bool) : Nat → List α → Nat → Nat → Nat → List α
  | 0, l, _, _, _ => l
  | fuel + 1, l, a, b, maxDepth =>
    if 12 < b - a then
      if maxDepth = 0 then heapSortGo less l a b
      else
        let r := doPivot less l a b
        let mlo := r.1
        let mhi := r.2.1
        let l := r.2.2
        if mlo - a < b - mhi then
          let l := quickSortGo less fuel l a mlo (maxDepth - 1)
          quickSortGo less fuel l mhi b (maxDepth - 1)
        else
          let l := quickSortGo less fuel l mhi b (maxDepth - 1)
          quickSortGo less fuel l a mlo (maxDepth - 1)
    else if 1 < b - a then insertionSortGo less (shellPass less a b l) a b
    else l

/-- maxDepth from sort.Sort: `for i := n; i > 0; i >>= 1 { maxDepth++ };
maxDepth *= 2`, i.e. twice the bit length of n. -/
def goMaxDepth (n : Nat) : Nat := 2 * n.size

/-- sort.Sort from Go's standard library (Go 1.7, contemporary with the
code), on a list-modelled slice with comparison `less`.  The Go
documentation notes the sort is not guaranteed to be stable. -/
def sortGo (less : α → α → Bool) (l : List α) : List α :=
  quickSortGo less (goMaxDepth l.length + 1) l 0 l.length (goMaxDepth l.length)

end GoSort

namespace GoSort

/-- The score at index `i` of a list-modelled slice (0 out of bounds; every
use is in bounds). -/
def gV (sc : α → ℚ) (l : List α) (i : Nat) : ℚ := (l[i]?.map sc).getD 0

/-- Scores are non-increasing over the index range [a, b). -/
def gSorted (sc : α → ℚ) (l : List α) (a b : Nat) : Prop :=
  ∀ p q, a ≤ p → p ≤ q → q < b → gV sc l q ≤ gV sc l p

/-- The sub-slice data[a:b]. -/
def gSeg (l : List α) (a b : Nat) : List α := (l.take b).drop a

/-- Positions outside [a, b) agree between two lists. -/
def gFrame (l l' : List α) (a b : Nat) : Prop :=
  ∀ k, k < a ∨ b ≤ k → l'[k]? = l[k]?

/-- The min-heap order (in score) on heap positions [lo, hi) at offset
`first`: every parent at or beyond `lo` scores at most its children. -/
def heapOrd (sc : α → ℚ) (first : Nat) (l : List α) (lo hi : Nat) : Prop :=
  ∀ r c, lo ≤ r → c < hi → (c = 2 * r + 1 ∨ c = 2 * r + 2) →
    gV sc l (first + r) ≤ gV sc l (first + c)

end GoSort

namespace Zoekt

/-- matchScoreSlice.Less: `m[i].Score > m[j].Score` (descending by Score). -/
def matchLess (a b : Match) : Bool := decide (b.Score < a.Score)

/-- fileMatchSlice.Less: `m[i].Score > m[j].Score` (descending by Score). -/
def fileLess (a b : FileMatch) : Bool := decide (b.Score < a.Score)

/-- sortMatchesByScore: sort.Sort over matchScoreSlice. -/
def sortMatchesByScore (ms : List Match) : List Match :=
  GoSort.sortGo matchLess ms

/-- sortFilesByScore: sort.Sort over fileMatchSlice. -/
def sortFilesByScore (ms : List FileMatch) : List FileMatch :=
  GoSort.sortGo fileLess ms

/-- A concrete index over the single document "ab\ncdefg\nhi" (content bytes
[97,98,10,99,100,101,102,103,10,104,105], newlines at 2 and 8) with filename
"f.go"; the concrete input of several witnesses below. -/
def exampleIndex : indexData :=
  { fileEnds := [11]
    readContents := fun _ => ([97, 98, 10, 99, 100, 101, 102, 103, 10, 104, 105], none)
    readCaseBits := fun _ => ([0, 0], none)
    readNewlines := fun _ => ([2, 8], none)
    readDocSections := fun _ => ([], none)
    fileNameContent := [102, 46, 103, 111]
    fileNameIndex := [0, 4]
    fileNameCaseBits := [0]
    fileNameCaseBitsIndex := [0, 1] }

/-- A fresh provider over exampleIndex, positioned at document 0. -/
def exampleProvider : contentProvider :=
  { id := exampleIndex, stats := ⟨0, 0⟩, err := none, idx := 0, cbCache := none,
    dataCache := none, nlCache := none, nlBuf := [], sectsCache := none, fileSize := 11 }

/-- The content bytes of exampleIndex's document 0 ("ab\ncdefg\nhi"). -/
def exampleDoc : List Nat := [97, 98, 10, 99, 100, 101, 102, 103, 10, 104, 105]

/-- The two-filename-candidate input of the C8 counterexample. -/
def c8Cands : List candidateMatch := [⟨0, 2, true⟩, ⟨2, 2, true⟩]

/-- A concrete two-fragment match for the C7 witness. -/
def c7Match : Match :=
  { LineStart := 0, LineEnd := 8, LineNum := 1,
    Line := [97, 98, 32, 99, 100, 101, 102, 103], FileName := false,
    Fragments := [⟨1, 1, 1⟩, ⟨3, 3, 5⟩], Score := 0 }

/-- A section fully contains the byte range [off, off+sz). -/
def sectionContains (s : DocumentSection) (off sz : Nat) : Prop :=
  s.Start ≤ off ∧ off + sz ≤ s.End

instance (s : DocumentSection) (off sz : Nat) : Decidable (sectionContains s off sz) :=
  inferInstanceAs (Decidable (_ ∧ _))

/-- The sorted, non-overlapping section table of the C10 counterexample. -/
def c10Secs : List DocumentSection := [⟨0, 5⟩, ⟨5, 9⟩]

end Zoekt

namespace Codesearch

/-- The lexicographic (document, offset) order on candidate matches. -/
def candLex (c1 c2 : candidateMatch) : Prop :=
  c1.file < c2.file ∨ (c1.file = c2.file ∧ c1.offset ≤ c2.offset)

/-- The round-trip docIterator of the spec: pattern "cdefg" over the single
document [0, 11), with the boundary trigrams at 3 and 5. -/
def exampleIter : docIterator :=
  { query := { Pattern := [99, 100, 101, 102, 103], CaseSensitive := true },
    patLen := 5, first := [3], last := [5], fileIdx := 0, ends := [11] }

/-- The two-document iterator of the C4 witness: pattern of length 3 with
occurrences at 1, 6 and 12 over documents [0, 5) and [5, 20). -/
def exampleIter2 : docIterator :=
  { query := { Pattern := [99, 100, 101], CaseSensitive := false },
    patLen := 3, first := [1, 6, 12], last := [1, 6, 12], fileIdx := 0, ends := [5, 20] }

instance decEncodesCase (cb : List Nat) (o : Nat) (P : List Nat) :
    Decidable (encodesCase cb o P) := by
  unfold encodesCase
  infer_instance

/-- The pattern "aB" at offset 3 of the C5 witness. -/
def c5Cand : candidateMatch :=
  { query := { Pattern := [97, 66], CaseSensitive := true },
    substrBytes := [97, 66], lowered := [97, 98], file := 0, offset := 3 }

end Codesearch

namespace GoSort

open List in

/-- The comparison used by the score-descending sorts. -/
def scLess (sc : α → ℚ) : α → α → Bool := fun x y => decide (sc y < sc x)

/-- Scores are non-increasing over the index range [a, b). -/
def SortedRange (sc : α → ℚ) (l : List α) (a b : Nat) : Prop :=
  ∀ p q x y, a ≤ p → p ≤ q → q < b → l[p]? = some x → l[q]? = some y → sc y ≤ sc x

end GoSort

namespace Zoekt

/-- A minimal Match carrying only a score and an identifying line number. -/
def mkM (s : ℚ) (n : Nat) : Match :=
  { LineStart := 0, LineEnd := 0, LineNum := n, Line := [], FileName := false,
    Fragments := [], Score := s }

/-- The eight-element input of the C2 counterexample: scores
[5, 3, 9, 9, 9, 9, 3, 9] with line numbers recording input positions. -/
def ex8 : List Match :=
  [mkM 5 0, mkM 3 1, mkM 9 2, mkM 9 3, mkM 9 4, mkM 9 5, mkM 3 6, mkM 9 7]

end Zoekt


namespace Zoekt

/-- Claim C9: setDocument resets all four cached per-document fields to nil
and updates the document index and fileSize, but leaves the latched err
field (and everything else: the index handle and the stats) untouched, so a
decode error latched on one document survives a switch to another. -/
theorem setDocument_frame (p : contentProvider) (docID : Nat) :
    (p.setDocument docID).err = p.err ∧
    (p.setDocument docID).dataCache = none ∧
    (p.setDocument docID).cbCache = none ∧
    (p.setDocument docID).nlCache = none ∧
    (p.setDocument docID).sectsCache = none ∧
    (p.setDocument docID).idx = docID ∧
    (p.setDocument docID).fileSize =
      p.id.fileEnds.getD docID 0 -
        (if 0 < docID then p.id.fileEnds.getD (docID - 1) 0 else 0) ∧
    (p.setDocument docID).id = p.id ∧
    (p.setDocument docID).stats = p.stats :=
  ⟨rfl, rfl, rfl, rfl, rfl, rfl, rfl, rfl, rfl⟩

/-- Claim C1 (code bug witness): on "ab\ncdefg\nhi" with a single candidate
spanning bytes [1, 5) — across the terminator at offset 2 — the assembler
produces LineEnd = 5, although the next line terminator strictly after the
old line end 2 sits at offset 8 (no terminator lies in (2, 8)); byte 5 is
not a terminator at all.  The cross-line extension loop assigns the index
relative to data[end+1:] instead of an absolute offset. -/
theorem fillContentMatches_crossline_bug :
    ((exampleProvider.fillContentMatches [⟨1, 4, false⟩]).1.map Match.LineEnd = [5]) ∧
    (∀ k < 8, 2 < k → exampleDoc.getD k 0 ≠ 10) ∧
    exampleDoc.getD 8 0 = 10 ∧ (5 : Nat) ≠ 8 := by decide

/-- Claim C8 counterexample: two filename candidates produce one Match whose
Fragments list has two entries, not a single MatchFragment. -/
theorem fillMatches_not_single_fragment :
    ¬ ∀ m ∈ (exampleProvider.fillMatches c8Cands).1, m.Fragments.length = 1 := by
  decide

/-- Claim C8 (amended): a non-empty run of filename candidate matches yields
exactly one Match flagged as a filename match, holding one MatchFragment per
candidate (in input order), with no line splitting. -/
theorem fillMatches_filename (p : contentProvider) (m0 : candidateMatch)
    (ms : List candidateMatch) (h : m0.fileName = true) :
    (p.fillMatches (m0 :: ms)).1.length = 1 ∧
    ∀ m ∈ (p.fillMatches (m0 :: ms)).1,
      m.FileName = true ∧
      m.Fragments = (m0 :: ms).map (fun c =>
        { Offset := c.offset, LineOff := c.offset, MatchLength := c.matchSz }) := by
  simp only [contentProvider.fillMatches, h, if_true]
  refine ⟨rfl, ?_⟩
  intro m hm
  simp only [List.map_cons, List.map_nil, List.mem_cons, List.not_mem_nil, or_false] at hm
  subst hm
  exact ⟨rfl, rfl⟩

/-- Witness for the amended C8 theorem at the concrete two-candidate input. -/
theorem fillMatches_filename_witness :
    (exampleProvider.fillMatches c8Cands).1.length = 1 ∧
    ∀ m ∈ (exampleProvider.fillMatches c8Cands).1,
      m.FileName = true ∧
      m.Fragments = c8Cands.map (fun c =>
        { Offset := c.offset, LineOff := c.offset, MatchLength := c.matchSz }) :=
  fillMatches_filename exampleProvider ⟨0, 2, true⟩ [⟨2, 2, true⟩] rfl

/-- Helper: nonnegativity of every fragment score. -/
theorem fragmentScore_nonneg (secs : List DocumentSection) (line : List Nat)
    (f : MatchFragment) : 0 ≤ fragmentScore secs line f := by
  unfold fragmentScore
  cases h : findSection secs f.Offset f.MatchLength <;>
    simp only [] <;> split_ifs <;>
    norm_num [scoreWordMatch, scorePartialWordMatch, scoreSymbol, scorePartialSymbol]

/-- Helper: the fragment score decomposes into the word-boundary part and the
symbol-section part with the concrete constant values. -/
theorem fragmentScore_cases (secs : List DocumentSection) (line : List Nat)
    (f : MatchFragment) :
    fragmentScore secs line f =
      (if startBoundary line f ∧ endBoundary line f then 500
       else if startBoundary line f ∨ endBoundary line f then 50 else 0) +
      (match findSection secs f.Offset f.MatchLength with
       | none => 0
       | some sec =>
         if sec.Start = f.Offset ∧ sec.End = (f.Offset + f.MatchLength) % u32Mod then (7000 : ℚ)
         else if sec.Start = f.Offset ∨ sec.End = (f.Offset + f.MatchLength) % u32Mod then 5500
         else 4000) := by
  unfold fragmentScore
  cases h : findSection secs f.Offset f.MatchLength <;>
    simp only [h] <;> split_ifs <;>
    simp_all [scoreWordMatch, scorePartialWordMatch, scoreSymbol, scorePartialSymbol] <;>
    norm_num

/-- Claim C6: a fragment's score is the word part (500 when both bounds are
byte-class boundaries, 50 when exactly one is, 0 otherwise) plus the symbol
part (7000 when a containing section's bounds both coincide with the
fragment's, 5500 = (7000+4000)/2 when exactly one does, 4000 when contained
without a coinciding bound, nothing without a containing section); in
particular a double-boundary fragment exactly spanning a section scores
7500, and a no-boundary fragment with no containing section scores 0. -/
theorem fragmentScore_scoring_spec (secs : List DocumentSection) (line : List Nat)
    (f : MatchFragment) :
    (fragmentScore secs line f =
      (if startBoundary line f ∧ endBoundary line f then 500
       else if startBoundary line f ∨ endBoundary line f then 50 else 0) +
      (match findSection secs f.Offset f.MatchLength with
       | none => 0
       | some sec =>
         if sec.Start = f.Offset ∧ sec.End = (f.Offset + f.MatchLength) % u32Mod then (7000 : ℚ)
         else if sec.Start = f.Offset ∨ sec.End = (f.Offset + f.MatchLength) % u32Mod then 5500
         else 4000)) ∧
    (∀ sec, startBoundary line f = true → endBoundary line f = true →
      findSection secs f.Offset f.MatchLength = some sec →
      sec.Start = f.Offset → sec.End = (f.Offset + f.MatchLength) % u32Mod →
      fragmentScore secs line f = 7500) ∧
    (startBoundary line f = false → endBoundary line f = false →
      findSection secs f.Offset f.MatchLength = none →
      fragmentScore secs line f = 0) := by
  refine ⟨fragmentScore_cases secs line f, ?_, ?_⟩
  · intro sec hs he hf h1 h2
    rw [fragmentScore_cases, hf]
    simp [hs, he, h1, h2]
    norm_num
  · intro hs he hf
    rw [fragmentScore_cases, hf]
    simp [hs, he]

/-- Witness for C6: the fragment "cdefg" of line "ab cdefg" (space at index
2), spanning section [3, 8) with both word boundaries, scores 7500; the
interior fragment "b" of "abc" with no section scores 0. -/
theorem fragmentScore_scoring_spec_witness :
    fragmentScore [⟨3, 8⟩] [97, 98, 32, 99, 100, 101, 102, 103] ⟨3, 3, 5⟩ = 7500 ∧
    fragmentScore [] [97, 98, 99] ⟨1, 1, 1⟩ = 0 := by
  constructor
  · exact (fragmentScore_scoring_spec [⟨3, 8⟩] [97, 98, 32, 99, 100, 101, 102, 103]
      ⟨3, 3, 5⟩).2.1 ⟨3, 8⟩ (by decide) (by decide) (by decide) (by decide) (by decide)
  · exact (fragmentScore_scoring_spec [] [97, 98, 99] ⟨1, 1, 1⟩).2.2
      (by decide) (by decide) rfl

/-- Helper: the initial accumulator bounds a max-fold from below. -/
theorem foldl_max_le_acc (l : List ℚ) (a : ℚ) : a ≤ l.foldl max a := by
  induction l generalizing a with
  | nil => simp
  | cons x xs ih => exact le_trans (le_max_left a x) (ih (max a x))

/-- Helper: a max-fold is an upper bound of the list. -/
theorem foldl_max_ub (l : List ℚ) (a : ℚ) : ∀ x ∈ l, x ≤ l.foldl max a := by
  induction l generalizing a with
  | nil => simp
  | cons y ys ih =>
    intro x hx
    rcases List.mem_cons.1 hx with rfl | hx
    · exact le_trans (le_max_right a x) (foldl_max_le_acc ys (max a x))
    · exact ih (max a y) x hx

/-- Helper: a max-fold returns its accumulator or a list element. -/
theorem foldl_max_mem (l : List ℚ) (a : ℚ) : l.foldl max a = a ∨ l.foldl max a ∈ l := by
  induction l generalizing a with
  | nil => simp
  | cons y ys ih =>
    rcases ih (max a y) with h | h
    · rcases le_total a y with hy | hy
      · right; rw [List.foldl_cons, h, max_eq_right hy]; exact List.mem_cons_self _ _
      · left; rw [List.foldl_cons, h, max_eq_left hy]
    · right; exact List.mem_cons_of_mem _ h

/-- Helper: matchScore's running-maximum loop is a max-fold over the
fragment scores. -/
theorem matchScore_eq_foldl_max (secs : List DocumentSection) (m : Match) :
    matchScore secs m = (m.Fragments.map (fragmentScore secs m.Line)).foldl max 0 := by
  unfold matchScore
  rw [List.foldl_map]
  congr 1
  funext acc f
  dsimp only
  rcases lt_or_le acc (fragmentScore secs m.Line f) with h | h
  · rw [if_pos h, max_eq_right h.le]
  · rw [if_neg (not_lt.2 h), max_eq_left h]

/-- Claim C7: for a Match with at least one fragment, matchScore returns the
maximum of its fragments' scores (it is one of them and bounds all of them),
not their sum. -/
theorem matchScore_is_max (secs : List DocumentSection) (m : Match)
    (h : m.Fragments ≠ []) :
    matchScore secs m ∈ m.Fragments.map (fragmentScore secs m.Line) ∧
    ∀ f ∈ m.Fragments, fragmentScore secs m.Line f ≤ matchScore secs m := by
  constructor
  · rw [matchScore_eq_foldl_max]
    rcases foldl_max_mem (m.Fragments.map (fragmentScore secs m.Line)) 0 with h0 | hm
    · rcases List.exists_mem_of_ne_nil m.Fragments h with ⟨f0, hf0⟩
      have hub := foldl_max_ub (m.Fragments.map (fragmentScore secs m.Line)) 0
        (fragmentScore secs m.Line f0) (List.mem_map_of_mem _ hf0)
      have hnn := fragmentScore_nonneg secs m.Line f0
      rw [h0] at hub ⊢
      have h00 : fragmentScore secs m.Line f0 = 0 := le_antisymm hub hnn
      rw [← h00]
      exact List.mem_map_of_mem _ hf0
    · exact hm
  · intro f hf
    rw [matchScore_eq_foldl_max]
    exact foldl_max_ub _ 0 _ (List.mem_map_of_mem _ hf)

/-- Witness for C7 at a concrete two-fragment match. -/
theorem matchScore_is_max_witness :
    matchScore [] c7Match ∈ c7Match.Fragments.map (fragmentScore [] c7Match.Line) ∧
    ∀ f ∈ c7Match.Fragments, fragmentScore [] c7Match.Line f ≤ matchScore [] c7Match :=
  matchScore_is_max [] c7Match (by decide)

/-- Helper: sort.Search returns the least index satisfying a predicate that
is monotone below `n`, in the sense that everything below the result is
false and everything from the result up to `n` is true. -/
theorem goSearchAux_spec (f : Nat → Bool) (n : Nat)
    (mono : ∀ i j, i ≤ j → j < n → f i = true → f j = true) :
    ∀ fuel i j, j - i < fuel → i ≤ j → j ≤ n →
      (∀ k < i, f k = false) → (∀ k, j ≤ k → k < n → f k = true) →
      (∀ k < goSearchAux f fuel i j, f k = false) ∧
      (∀ k, goSearchAux f fuel i j ≤ k → k < n → f k = true) ∧
      goSearchAux f fuel i j ≤ n := by
  intro fuel
  induction fuel with
  | zero => intro i j h; omega
  | succ fuel ih =>
    intro i j hfuel hij hjn hlow hhigh
    unfold goSearchAux
    by_cases hlt : i < j
    · rw [if_pos hlt]
      by_cases hf : f (i + (j - i) / 2) = true
      · simp only [hf, Bool.not_true, Bool.false_eq_true, if_false]
        refine ih i (i + (j - i) / 2) (by omega) (by omega) (by omega) hlow ?_
        intro k hk hkn
        rcases Nat.lt_or_ge k j with hkj | hkj
        · exact mono _ k hk hkn hf
        · exact hhigh k hkj hkn
      · simp only [hf]
        simp only [Bool.not_eq_true] at hf
        simp only [hf, Bool.not_false, if_true]
        refine ih (i + (j - i) / 2 + 1) j (by omega) (by omega) hjn ?_ hhigh
        intro k hk
        rcases Nat.lt_or_ge k i with hki | hki
        · exact hlow k hki
        · by_cases hfk : f k = true
          · exact absurd (mono k (i + (j - i) / 2) (by omega) (by omega) hfk) (by simp [hf])
          · simpa using hfk
    · rw [if_neg hlt]
      have : i = j := by omega
      subst this
      exact ⟨hlow, fun k hk hkn => hhigh k hk hkn, hij.trans hjn⟩

/-- Helper: sort.Search on [0, n). -/
theorem goSearch_least (n : Nat) (f : Nat → Bool)
    (mono : ∀ i j, i ≤ j → j < n → f i = true → f j = true) :
    (∀ k < goSearch n f, f k = false) ∧
    (∀ k, goSearch n f ≤ k → k < n → f k = true) ∧
    goSearch n f ≤ n := by
  refine goSearchAux_spec f n mono (n + 1) 0 n (by omega) (by omega) (le_refl n) ?_ ?_
  · intro k hk; omega
  · intro k hk hkn; omega

/-- Helper: under the well-formedness and separation hypotheses the End
fields are monotone in the index. -/
theorem endMono (secs : List DocumentSection)
    (hwf : ∀ i < secs.length, (secs.getD i ⟨0, 0⟩).Start ≤ (secs.getD i ⟨0, 0⟩).End)
    (hsep : ∀ i, i + 1 < secs.length →
      (secs.getD i ⟨0, 0⟩).End ≤ (secs.getD (i + 1) ⟨0, 0⟩).Start) :
    ∀ i j, i ≤ j → j < secs.length →
      (secs.getD i ⟨0, 0⟩).End ≤ (secs.getD j ⟨0, 0⟩).End := by
  intro i j hij
  induction j with
  | zero =>
    intro _
    have : i = 0 := by omega
    subst this; exact le_refl _
  | succ j ihj =>
    intro hj
    rcases Nat.lt_or_ge i (j + 1) with hlt | hge
    · have hij' : i ≤ j := by omega
      have h1 := ihj hij' (by omega)
      have h2 := hsep j hj
      have h3 := hwf (j + 1) hj
      omega
    · have : i = j + 1 := by omega
      subst this; exact le_refl _

/-- Helper: a section strictly earlier in the table ends no later than a
later section starts. -/
theorem endLeStart (secs : List DocumentSection)
    (hwf : ∀ i < secs.length, (secs.getD i ⟨0, 0⟩).Start ≤ (secs.getD i ⟨0, 0⟩).End)
    (hsep : ∀ i, i + 1 < secs.length →
      (secs.getD i ⟨0, 0⟩).End ≤ (secs.getD (i + 1) ⟨0, 0⟩).Start) :
    ∀ i j, i < j → j < secs.length →
      (secs.getD i ⟨0, 0⟩).End ≤ (secs.getD j ⟨0, 0⟩).Start := by
  intro i j hij
  induction j with
  | zero => omega
  | succ j ihj =>
    intro hj
    rcases Nat.lt_or_ge i j with hlt | hge
    · have h1 := ihj hlt (by omega)
      have h2 := hwf j (by omega)
      have h3 := hsep j hj
      omega
    · have : i = j := by omega
      subst this; exact hsep i hj

theorem findSection_spec (secs : List DocumentSection) (off sz : Nat)
    (hwf : ∀ i < secs.length, (secs.getD i ⟨0, 0⟩).Start ≤ (secs.getD i ⟨0, 0⟩).End)
    (hsep : ∀ i, i + 1 < secs.length →
      (secs.getD i ⟨0, 0⟩).End ≤ (secs.getD (i + 1) ⟨0, 0⟩).Start)
    (hsz : 0 < sz) (hov : off + sz < u32Mod) :
    ((findSection secs off sz).isSome ↔ ∃ s ∈ secs, sectionContains s off sz) ∧
    (∀ s, findSection secs off sz = some s →
      s ∈ secs ∧ sectionContains s off sz ∧
      ∀ t ∈ secs, sectionContains t off sz → t = s) := by
  have htarget : (off + sz) % u32Mod = off + sz := Nat.mod_eq_of_lt hov
  have mono : ∀ i j, i ≤ j → j < secs.length →
      (fun i => decide (off + sz ≤ (secs.getD i ⟨0, 0⟩).End)) i = true →
      (fun i => decide (off + sz ≤ (secs.getD i ⟨0, 0⟩).End)) j = true := by
    intro i j hij hj hi
    simp only [decide_eq_true_eq] at hi ⊢
    exact le_trans hi (endMono secs hwf hsep i j hij hj)
  obtain ⟨hlow, hhigh, hle⟩ := goSearch_least secs.length
    (fun i => decide (off + sz ≤ (secs.getD i ⟨0, 0⟩).End)) mono
  have hfs : findSection secs off sz =
      (if goSearch secs.length (fun i => decide (off + sz ≤ (secs.getD i ⟨0, 0⟩).End)) = secs.length
       then none
       else if (secs.getD (goSearch secs.length (fun i => decide (off + sz ≤ (secs.getD i ⟨0, 0⟩).End)) ) ⟨0, 0⟩).Start ≤ off ∧
               off + sz ≤ (secs.getD (goSearch secs.length (fun i => decide (off + sz ≤ (secs.getD i ⟨0, 0⟩).End))) ⟨0, 0⟩).End
       then some (secs.getD (goSearch secs.length (fun i => decide (off + sz ≤ (secs.getD i ⟨0, 0⟩).End))) ⟨0, 0⟩)
       else none) := by
    unfold findSection
    simp only [htarget]
  set r := goSearch secs.length (fun i => decide (off + sz ≤ (secs.getD i ⟨0, 0⟩).End)) with hrdef
  -- index of any containing section is at least r, and any containing section sits exactly at r
  have hidx : ∀ k, (h : k < secs.length) → sectionContains (secs.getD k ⟨0, 0⟩) off sz →
      r ≤ k ∧ (r < secs.length → sectionContains (secs.getD r ⟨0, 0⟩) off sz → k = r) ∧ k = r := by
    intro k hk hc
    have hfk : decide (off + sz ≤ (secs.getD k ⟨0, 0⟩).End) = true := by
      simp only [decide_eq_true_eq]; exact hc.2
    have hrk : r ≤ k := by
      by_contra hcon
      have := hlow k (by omega)
      rw [hfk] at this; exact absurd this (by simp)
    have hkr : k = r := by
      rcases Nat.eq_or_lt_of_le hrk with h | h
      · omega
      · exfalso
        have hfr : off + sz ≤ (secs.getD r ⟨0, 0⟩).End := by
          have := hhigh r (le_refl r) (by omega)
          simpa using this
        have hes := endLeStart secs hwf hsep r k h hk
        have := hc.1
        omega
    exact ⟨hrk, fun _ _ => hkr, hkr⟩
  constructor
  · constructor
    · intro hsome
      rw [hfs] at hsome
      by_cases hr : r = secs.length
      · rw [if_pos hr] at hsome; simp at hsome
      · rw [if_neg hr] at hsome
        by_cases hcont : (secs.getD r ⟨0, 0⟩).Start ≤ off ∧ off + sz ≤ (secs.getD r ⟨0, 0⟩).End
        · refine ⟨secs.getD r ⟨0, 0⟩, ?_, hcont⟩
          have hrlen : r < secs.length := by omega
          rw [List.getD_eq_getElem?_getD, List.getElem?_eq_getElem hrlen]
          exact List.getElem_mem _
        · rw [if_neg hcont] at hsome; simp at hsome
    · rintro ⟨s, hs, hc⟩
      obtain ⟨⟨k, hk⟩, hgk⟩ := List.mem_iff_get.1 hs
      have hgd : secs.getD k ⟨0, 0⟩ = s := by
        rw [List.getD_eq_getElem?_getD, List.getElem?_eq_getElem hk]
        simpa using hgk
      have h1 := hidx k hk (by rw [hgd]; exact hc)
      have hrlen : r < secs.length := by omega
      have hrc : (secs.getD r ⟨0, 0⟩).Start ≤ off ∧ off + sz ≤ (secs.getD r ⟨0, 0⟩).End := by
        have hkr : k = r := h1.2.2
        subst hkr
        rw [hgd]; exact ⟨hc.1, hc.2⟩
      rw [hfs, if_neg (by omega), if_pos hrc]
      rfl
  · intro s hsome
    rw [hfs] at hsome
    by_cases hr : r = secs.length
    · rw [if_pos hr] at hsome; simp at hsome
    · rw [if_neg hr] at hsome
      by_cases hcont : (secs.getD r ⟨0, 0⟩).Start ≤ off ∧ off + sz ≤ (secs.getD r ⟨0, 0⟩).End
      · rw [if_pos hcont] at hsome
        have hseq : s = secs.getD r ⟨0, 0⟩ := by
          injection hsome with h; exact h.symm
        subst hseq
        have hrlen : r < secs.length := by omega
        refine ⟨?_, hcont, ?_⟩
        · rw [List.getD_eq_getElem?_getD, List.getElem?_eq_getElem hrlen]
          exact List.getElem_mem _
        · intro t ht htc
          obtain ⟨⟨k, hk⟩, hgk⟩ := List.mem_iff_get.1 ht
          have hgd : secs.getD k ⟨0, 0⟩ = t := by
            rw [List.getD_eq_getElem?_getD, List.getElem?_eq_getElem hk]
            simpa using hgk
          have h1 := hidx k hk (by rw [hgd]; exact htc)
          have : k = r := h1.2.2
          subst this
          rw [← hgd]
      · rw [if_neg hcont] at hsome; simp at hsome

/-- Claim C10 counterexample: with sz = 0, both [0,5) and [5,9) "fully
contain" the empty range [5, 5), so the section findSection returns is not
the unique containing one — the claim's uniqueness part fails at sz = 0
even though the table is ascending by End and non-overlapping. -/
theorem findSection_zero_size_not_unique :
    (∀ i < c10Secs.length,
      (c10Secs.getD i ⟨0, 0⟩).Start ≤ (c10Secs.getD i ⟨0, 0⟩).End) ∧
    (∀ i < c10Secs.length, i + 1 < c10Secs.length →
      (c10Secs.getD i ⟨0, 0⟩).End ≤ (c10Secs.getD (i + 1) ⟨0, 0⟩).Start) ∧
    ¬ (∀ s, findSection c10Secs 5 0 = some s →
        ∀ t ∈ c10Secs, sectionContains t 5 0 → t = s) := by decide

/-- Witness for the amended C10 theorem: on the table [[0,5), [7,12)] with
off = 8, sz = 3, findSection finds the unique containing section [7,12). -/
theorem findSection_spec_witness :
    ((findSection [⟨0, 5⟩, ⟨7, 12⟩] 8 3).isSome ↔
      ∃ s ∈ ([⟨0, 5⟩, ⟨7, 12⟩] : List DocumentSection), sectionContains s 8 3) ∧
    (∀ s, findSection [⟨0, 5⟩, ⟨7, 12⟩] 8 3 = some s →
      s ∈ ([⟨0, 5⟩, ⟨7, 12⟩] : List DocumentSection) ∧ sectionContains s 8 3 ∧
      ∀ t ∈ ([⟨0, 5⟩, ⟨7, 12⟩] : List DocumentSection), sectionContains t 8 3 → t = s) :=
  findSection_spec [⟨0, 5⟩, ⟨7, 12⟩] 8 3 (by decide)
    (by
      intro i hi
      simp only [List.length_cons, List.length_nil] at hi
      have h0 : i = 0 := by omega
      subst h0; decide)
    (by decide) (by decide)

end Zoekt

namespace Codesearch

theorem takeWhile_mem_true (p : Nat → Bool) :
    ∀ (l : List Nat) (k : Nat), k < (l.takeWhile p).length → p (l.getD k 0) = true := by
  intro l
  induction l with
  | nil => intro k hk; simp [List.takeWhile] at hk
  | cons x xs ih =>
    intro k hk
    by_cases hx : p x
    · rw [List.takeWhile_cons_of_pos hx] at hk
      cases k with
      | zero => simpa using hx
      | succ k =>
        simp only [List.length_cons, Nat.succ_lt_succ_iff] at hk
        simpa using ih k hk
    · rw [List.takeWhile_cons_of_neg hx] at hk
      simp at hk

theorem takeWhile_stop_false (p : Nat → Bool) :
    ∀ (l : List Nat), (l.takeWhile p).length < l.length →
      p (l.getD (l.takeWhile p).length 0) = false := by
  intro l
  induction l with
  | nil => intro h; simp at h
  | cons x xs ih =>
    intro h
    by_cases hx : p x
    · rw [List.takeWhile_cons_of_pos hx] at h ⊢
      simp only [List.length_cons, Nat.succ_lt_succ_iff] at h
      simpa using ih h
    · rw [List.takeWhile_cons_of_neg hx]
      simpa using hx

theorem advanceIdx_le (ends : List Nat) (idx p1 : Nat) :
    idx ≤ advanceIdx ends idx p1 :=
  Nat.le_add_right _ _

theorem advanceIdx_le_length (ends : List Nat) (idx p1 : Nat) (h : idx ≤ ends.length) :
    advanceIdx ends idx p1 ≤ ends.length := by
  unfold advanceIdx
  have h1 : ((ends.drop idx).takeWhile (fun e => decide (e ≤ p1))).length ≤ (ends.drop idx).length :=
    (List.takeWhile_sublist _).length_le
  simp only [List.length_drop] at h1
  omega

theorem getD_drop (ends : List Nat) (idx k : Nat) (h : idx + k < ends.length) :
    (ends.drop idx).getD k 0 = ends.getD (idx + k) 0 := by
  rw [List.getD_eq_getElem?_getD, List.getD_eq_getElem?_getD, List.getElem?_drop]

theorem advanceIdx_stop (ends : List Nat) (idx p1 : Nat)
    (h : advanceIdx ends idx p1 < ends.length) :
    p1 < ends.getD (advanceIdx ends idx p1) 0 := by
  have hadv : advanceIdx ends idx p1 =
      idx + ((ends.drop idx).takeWhile (fun e => decide (e ≤ p1))).length := rfl
  rw [hadv] at h ⊢
  have hlen : ((ends.drop idx).takeWhile (fun e => decide (e ≤ p1))).length <
      (ends.drop idx).length := by
    simp only [List.length_drop]; omega
  have hstop := takeWhile_stop_false (fun e => decide (e ≤ p1)) (ends.drop idx) hlen
  rw [getD_drop ends idx _ (by simp only [List.length_drop] at hlen; omega)] at hstop
  simpa using hstop

theorem advanceIdx_past (ends : List Nat) (idx p1 : Nat) (hidx : idx ≤ ends.length) :
    ∀ k, idx ≤ k → k < advanceIdx ends idx p1 → ends.getD k 0 ≤ p1 := by
  intro k hk1 hk2
  have hadv : advanceIdx ends idx p1 =
      idx + ((ends.drop idx).takeWhile (fun e => decide (e ≤ p1))).length := rfl
  rw [hadv] at hk2
  have hklen : k < ends.length := by
    have h1 := advanceIdx_le_length ends idx p1 hidx
    rw [hadv] at h1
    omega
  have hlt : k - idx < ((ends.drop idx).takeWhile (fun e => decide (e ≤ p1))).length := by
    omega
  have hmem := takeWhile_mem_true (fun e => decide (e ≤ p1)) (ends.drop idx) (k - idx) hlt
  rw [getD_drop ends idx (k - idx) (by omega)] at hmem
  have heq : idx + (k - idx) = k := by omega
  rw [heq] at hmem
  simpa using hmem

/-- Helper: the main invariant of the docIterator scan loop.  Starting from a
cursor below the table length whose preceding boundary (if any) lies at or
below every remaining head of `first`, every emitted candidate (a) carries a
document index at or beyond the cursor and inside the table, (b) decodes to
a global position taken from `first` whose pattern span ends strictly before
its document's end boundary, and (c) the emitted sequence is sorted in the
(document, offset) lexicographic order. -/
theorem nextAux_strong (q : SubstringQuery) (patLen : Nat) (ends : List Nat)
    (h3 : 3 ≤ patLen) (hPat : patLen < u32Mod) :
    ∀ fuel (first last : List Nat) (idx : Nat),
      List.Pairwise (· ≤ ·) first →
      (∀ p ∈ first, p + patLen < u32Mod) →
      idx ≤ ends.length →
      (0 < idx → ∀ p ∈ first, ends.getD (idx - 1) 0 ≤ p) →
      (∀ c ∈ nextAux q patLen ends fuel first last idx,
        idx ≤ c.file ∧ c.file < ends.length ∧
        ∃ p ∈ first, (if 0 < c.file then ends.getD (c.file - 1) 0 else 0) ≤ p ∧
          (if 0 < c.file then ends.getD (c.file - 1) 0 else 0) + c.offset = p ∧
          p + patLen < ends.getD c.file 0) ∧
      List.Pairwise candLex (nextAux q patLen ends fuel first last idx) := by
  intro fuel
  induction fuel with
  | zero =>
    intro first last idx _ _ _ _
    constructor
    · intro c hc; simp [nextAux] at hc
    · simp [nextAux]
  | succ fuel ih =>
    intro first last idx hsort hov hidx hinv
    rcases first with _ | ⟨p1, f'⟩
    · constructor
      · intro c hc; simp [nextAux] at hc
      · simp [nextAux]
    rcases last with _ | ⟨p2, l'⟩
    · constructor
      · intro c hc; simp [nextAux] at hc
      · simp [nextAux]
    -- head bounds with the wrap-arounds discharged
    have hPat' : patLen < 4294967296 := by simpa [u32Mod] using hPat
    have hop1' : p1 + patLen < 4294967296 := by
      simpa [u32Mod] using hov p1 (List.mem_cons_self _ _)
    have hdist : (patLen + u32Mod - NGRAM) % u32Mod = patLen - 3 := by
      simp only [NGRAM, u32Mod]; omega
    have haddd : (p1 + (patLen - 3)) % u32Mod = p1 + (patLen - 3) := by
      simp only [u32Mod]; omega
    have haddp : (p1 + patLen) % u32Mod = p1 + patLen := by
      simp only [u32Mod]; omega
    have hunf : nextAux q patLen ends (fuel + 1) (p1 :: f') (p2 :: l') idx =
        (if p1 + (patLen - 3) < p2 then
          nextAux q patLen ends fuel f' (p2 :: l') (advanceIdx ends idx p1)
        else if p2 < p1 + (patLen - 3) then
          nextAux q patLen ends fuel (p1 :: f') l' (advanceIdx ends idx p1)
        else if ends.getD (advanceIdx ends idx p1) 0 ≤ p1 + patLen then
          nextAux q patLen ends fuel f' l' (advanceIdx ends idx p1)
        else
          { query := q
            substrBytes := q.Pattern
            lowered := toLower q.Pattern
            file := advanceIdx ends idx p1
            offset := p1 - (if 0 < advanceIdx ends idx p1 then
              ends.getD (advanceIdx ends idx p1 - 1) 0 else 0) } ::
            nextAux q patLen ends fuel f' l' (advanceIdx ends idx p1)) := by
      simp only [nextAux, hdist, haddd, haddp]
    rw [hunf]
    set r := advanceIdx ends idx p1 with hrdef
    have hr1 : idx ≤ r := advanceIdx_le ends idx p1
    have hr2 : r ≤ ends.length := advanceIdx_le_length ends idx p1 hidx
    have hsort' : List.Pairwise (· ≤ ·) f' := (List.pairwise_cons.1 hsort).2
    have hhead : ∀ p ∈ f', p1 ≤ p := (List.pairwise_cons.1 hsort).1
    have hbound1 : 0 < r → ends.getD (r - 1) 0 ≤ p1 := by
      intro hr0
      rcases Nat.eq_or_lt_of_le hr1 with heq | hlt
      · rw [← heq]
        exact hinv (by omega) p1 (List.mem_cons_self _ _)
      · exact advanceIdx_past ends idx p1 hidx (r - 1) (by omega) (by omega)
    have hinvC : 0 < r → ∀ p ∈ (p1 :: f'), ends.getD (r - 1) 0 ≤ p := by
      intro hr0 p hp
      rcases List.mem_cons.1 hp with rfl | hp'
      · exact hbound1 hr0
      · exact le_trans (hbound1 hr0) (hhead p hp')
    have hinv' : 0 < r → ∀ p ∈ f', ends.getD (r - 1) 0 ≤ p := by
      intro hr0 p hp
      exact hinvC hr0 p (List.mem_cons_of_mem _ hp)
    have hov' : ∀ p ∈ f', p + patLen < u32Mod := by
      intro p hp; exact hov p (List.mem_cons_of_mem _ hp)
    by_cases hc1 : p1 + (patLen - 3) < p2
    · rw [if_pos hc1]
      obtain ⟨ihA, ihB⟩ := ih f' (p2 :: l') r hsort' hov' hr2 hinv'
      refine ⟨?_, ihB⟩
      intro c hc
      obtain ⟨ha, hb, p, hp, hrest⟩ := ihA c hc
      exact ⟨le_trans hr1 ha, hb, p, List.mem_cons_of_mem _ hp, hrest⟩
    rw [if_neg hc1]
    by_cases hc2 : p2 < p1 + (patLen - 3)
    · rw [if_pos hc2]
      obtain ⟨ihA, ihB⟩ := ih (p1 :: f') l' r hsort hov hr2 hinvC
      refine ⟨?_, ihB⟩
      intro c hc
      obtain ⟨ha, hb, p, hp, hrest⟩ := ihA c hc
      exact ⟨le_trans hr1 ha, hb, p, hp, hrest⟩
    rw [if_neg hc2]
    by_cases hc3 : ends.getD r 0 ≤ p1 + patLen
    · rw [if_pos hc3]
      obtain ⟨ihA, ihB⟩ := ih f' l' r hsort' hov' hr2 hinv'
      refine ⟨?_, ihB⟩
      intro c hc
      obtain ⟨ha, hb, p, hp, hrest⟩ := ihA c hc
      exact ⟨le_trans hr1 ha, hb, p, List.mem_cons_of_mem _ hp, hrest⟩
    rw [if_neg hc3]
    obtain ⟨ihA, ihB⟩ := ih f' l' r hsort' hov' hr2 hinv'
    have hemit : p1 + patLen < ends.getD r 0 := by omega
    have hrlen : r < ends.length := by
      by_contra hcon
      have h0 : ends.getD r 0 = 0 := List.getD_eq_default _ _ (by omega)
      omega
    have hfsle : (if 0 < r then ends.getD (r - 1) 0 else 0) ≤ p1 := by
      by_cases hr0 : 0 < r
      · rw [if_pos hr0]; exact hbound1 hr0
      · rw [if_neg hr0]; exact Nat.zero_le _
    have hsum : ∀ fs : Nat, fs ≤ p1 → fs + (p1 - fs) = p1 := by
      intro fs h; omega
    have hoffle : ∀ fs co p : Nat, fs ≤ p1 → fs + co = p → p1 ≤ p → p1 - fs ≤ co := by
      intro fs co p h1 h2 h3'; omega
    constructor
    · intro c hc
      rcases List.mem_cons.1 hc with rfl | hc'
      · exact ⟨hr1, hrlen, p1, List.mem_cons_self _ _, hfsle,
          hsum (if 0 < r then ends.getD (r - 1) 0 else 0) hfsle, hemit⟩
      · obtain ⟨ha, hb, p, hp, hrest⟩ := ihA c hc'
        exact ⟨le_trans hr1 ha, hb, p, List.mem_cons_of_mem _ hp, hrest⟩
    · rw [List.pairwise_cons]
      refine ⟨?_, ihB⟩
      intro c hc
      obtain ⟨ha, hb, p, hp, hple, hpeq, hplt⟩ := ihA c hc
      rcases Nat.eq_or_lt_of_le ha with heq | hlt
      · right
        refine ⟨heq, ?_⟩
        rw [← heq] at hpeq hple
        exact hoffle (if 0 < r then ends.getD (r - 1) 0 else 0) c.offset p hfsle hpeq (hhead p hp)
      · left; exact hlt

/-- Claim C3: at equal adjusted heads (p1 + distance = p2) the scanner
advances both lists and discards exactly when `p1 + patLen >= ends[fileIdx]`
(the current document's exclusive end), otherwise emitting the candidate
with document-local offset `p1 - documentStart`; consequently, for ascending
inputs, no emitted candidate's document-local end offset `offset + patLen`
exceeds its document's length `ends[file] - fileStart`. -/
theorem next_boundary_check (s : docIterator)
    (h3 : 3 ≤ s.patLen) (hPat : s.patLen < u32Mod) (hidx0 : s.fileIdx = 0)
    (hsort : List.Pairwise (· ≤ ·) s.first)
    (hov : ∀ p ∈ s.first, p + s.patLen < u32Mod) :
    (∀ fuel (f' l' : List Nat) (idx p1 p2 : Nat),
      p1 + s.patLen < u32Mod →
      p1 + (s.patLen - 3) = p2 →
      nextAux s.query s.patLen s.ends (fuel + 1) (p1 :: f') (p2 :: l') idx =
        (if s.ends.getD (advanceIdx s.ends idx p1) 0 ≤ p1 + s.patLen then
          nextAux s.query s.patLen s.ends fuel f' l' (advanceIdx s.ends idx p1)
        else
          { query := s.query, substrBytes := s.query.Pattern,
            lowered := toLower s.query.Pattern,
            file := advanceIdx s.ends idx p1,
            offset := p1 - (if 0 < advanceIdx s.ends idx p1 then
              s.ends.getD (advanceIdx s.ends idx p1 - 1) 0 else 0) } ::
            nextAux s.query s.patLen s.ends fuel f' l' (advanceIdx s.ends idx p1))) ∧
    (∀ c ∈ s.next,
      c.offset + s.patLen ≤
        s.ends.getD c.file 0 - (if 0 < c.file then s.ends.getD (c.file - 1) 0 else 0)) := by
  constructor
  · intro fuel f' l' idx p1 p2 hov1 heads
    have hPat' : s.patLen < 4294967296 := by simpa [u32Mod] using hPat
    have hov1' : p1 + s.patLen < 4294967296 := by simpa [u32Mod] using hov1
    have hdist : (s.patLen + u32Mod - NGRAM) % u32Mod = s.patLen - 3 := by
      simp only [NGRAM, u32Mod]; omega
    have haddd : (p1 + (s.patLen - 3)) % u32Mod = p1 + (s.patLen - 3) := by
      simp only [u32Mod]; omega
    have haddp : (p1 + s.patLen) % u32Mod = p1 + s.patLen := by
      simp only [u32Mod]; omega
    subst heads
    simp only [nextAux, hdist, haddd, haddp, lt_irrefl, if_false]
  · intro c hc
    have hstrong := (nextAux_strong s.query s.patLen s.ends h3 hPat
      (s.first.length + s.last.length) s.first s.last 0 hsort hov
      (Nat.zero_le _) (by intro h0; omega)).1
    unfold docIterator.next at hc
    rw [hidx0] at hc
    obtain ⟨_, hb, p, _, hple, hpeq, hplt⟩ := hstrong c hc
    omega

/-- Claim C4: over ascending position lists and an ascending end table, a
full run of docIterator.next emits its candidates in non-decreasing
document-index order and, within a document, non-decreasing offset order. -/
theorem next_monotone (s : docIterator)
    (h3 : 3 ≤ s.patLen) (hPat : s.patLen < u32Mod) (hidx0 : s.fileIdx = 0)
    (hsort : List.Pairwise (· ≤ ·) s.first)
    (hov : ∀ p ∈ s.first, p + s.patLen < u32Mod) :
    List.Pairwise candLex s.next := by
  have hstrong := (nextAux_strong s.query s.patLen s.ends h3 hPat
    (s.first.length + s.last.length) s.first s.last 0 hsort hov
    (Nat.zero_le _) (by intro h0; omega)).2
  unfold docIterator.next
  rw [hidx0]
  exact hstrong

/-- Witness for C3: on the round-trip iterator, the equal-heads step at
p1 = 3, p2 = 5 emits the candidate at document-local offset 3, and the one
emitted candidate's end offset 3 + 5 stays within the document length 11. -/
theorem next_boundary_check_witness :
    (nextAux exampleIter.query exampleIter.patLen exampleIter.ends 1 [3] [5] 0 =
      (if exampleIter.ends.getD (advanceIdx exampleIter.ends 0 3) 0 ≤ 3 + exampleIter.patLen then
        nextAux exampleIter.query exampleIter.patLen exampleIter.ends 0 [] [] (advanceIdx exampleIter.ends 0 3)
      else
        { query := exampleIter.query, substrBytes := exampleIter.query.Pattern,
          lowered := toLower exampleIter.query.Pattern,
          file := advanceIdx exampleIter.ends 0 3,
          offset := 3 - (if 0 < advanceIdx exampleIter.ends 0 3 then
            exampleIter.ends.getD (advanceIdx exampleIter.ends 0 3 - 1) 0 else 0) } ::
          nextAux exampleIter.query exampleIter.patLen exampleIter.ends 0 [] [] (advanceIdx exampleIter.ends 0 3))) ∧
    (∀ c ∈ exampleIter.next,
      c.offset + exampleIter.patLen ≤
        exampleIter.ends.getD c.file 0 -
          (if 0 < c.file then exampleIter.ends.getD (c.file - 1) 0 else 0)) :=
  ⟨(next_boundary_check exampleIter (by decide) (by decide) rfl (by decide) (by decide)).1
      0 [] [] 0 3 5 (by decide) (by decide),
   (next_boundary_check exampleIter (by decide) (by decide) rfl (by decide) (by decide)).2⟩

/-- Witness for C4: the three candidates of the two-document iterator come
out in (document, offset) lexicographic order. -/
theorem next_monotone_witness : List.Pairwise candLex exampleIter2.next :=
  next_monotone exampleIter2 (by decide) (by decide) rfl (by decide) (by decide)

theorem packBits_testBit : ∀ (n : Nat) (f : Nat → Bool) (k : Nat),
    (packBits f n).testBit k = (decide (k < n) && f k) := by
  intro n
  induction n with
  | zero => intro f k; simp [packBits]
  | succ n ih =>
    intro f k
    cases k with
    | zero =>
      rw [Nat.testBit_zero]
      cases hf : f 0 <;>
        simp [packBits, hf, Nat.add_mul_mod_self_left]
    | succ k =>
      rw [Nat.testBit_succ]
      have hdiv : (packBits f (n + 1)) / 2 = packBits (fun t => f (t + 1)) n := by
        cases hf : f 0 <;> simp [packBits, hf] <;> omega
      rw [hdiv, ih]
      simp [Nat.succ_lt_succ_iff]

theorem templByte_testBit (f : Nat → Bool) (i k : Nat) :
    (templByte f i).testBit k = (decide (k < 8) && f (8 * i + k)) := by
  unfold templByte
  rw [packBits_testBit]

theorem getD_map_range (M i : Nat) (g : Nat → Nat) :
    ((List.range M).map g).getD i 0 = if i < M then g i else 0 := by
  rw [List.getD_eq_getElem?_getD, List.getElem?_map]
  by_cases h : i < M
  · rw [List.getElem?_range h, if_pos h]; rfl
  · rw [if_neg h]
    have : (List.range M)[i]? = none := by
      rw [List.getElem?_eq_none_iff]
      simpa using Nat.le_of_not_lt h
    rw [this]; rfl

theorem getD_slice (cb : List Nat) (S L i : Nat) (hi : i < L) (hlen : S + L ≤ cb.length) :
    ((cb.drop S).take L).getD i 0 = cb.getD (S + i) 0 := by
  rw [List.getD_eq_getElem?_getD, List.getD_eq_getElem?_getD, List.getElem?_take,
    if_pos hi, List.getElem?_drop]

theorem length_slice (cb : List Nat) (S L : Nat) (hlen : S + L ≤ cb.length) :
    ((cb.drop S).take L).length = L := by
  rw [List.length_take, List.length_drop]
  omega

theorem allRange_congr (L : Nat) (f g : Nat → Bool) (h : ∀ i < L, f i = g i) :
    (List.range L).all f = (List.range L).all g := by
  rcases hf : (List.range L).all f with _ | _
  · rcases hg : (List.range L).all g with _ | _
    · rfl
    · exfalso
      rw [List.all_eq_true] at hg
      rw [Bool.eq_false_iff, ne_eq, List.all_eq_true] at hf
      refine hf ?_
      intro i hi
      rw [h i (List.mem_range.1 hi)]
      exact hg i hi
  · rcases hg : (List.range L).all g with _ | _
    · exfalso
      rw [List.all_eq_true] at hf
      rw [Bool.eq_false_iff, ne_eq, List.all_eq_true] at hg
      refine hg ?_
      intro i hi
      rw [← h i (List.mem_range.1 hi)]
      exact hf i hi
    · rfl

theorem upper_letter (c : Nat) (h : isUpperByte c = true) : isLetterByte c = true := by
  simp [isLetterByte, isUpperByte, isLowerByte] at *
  omega

/-- Helper: the byte-aligned (mask, bits) comparison over the window
[S, S + L) of the case bitmap holds exactly when, at every cased byte of the
pattern, the bitmap bit at the byte's global position records the byte's
case. -/
theorem caseCore (P cb : List Nat) (o n s S L : Nat)
    (hn : n = P.length) (hs : s = o % 8) (hS : S = o / 8)
    (hL : L = (s + n + 7) / 8) (hcb : S + L ≤ cb.length) :
    ((List.range L).all (fun i =>
      cb.getD (S + i) 0 &&& (caseMaskTempl P s).getD i 0 ==
        (caseBitsTempl P s).getD i 0)) = true
    ↔ ∀ j < n, isLetterByte (P.getD j 0) = true →
        bitAt cb (o + j) = isUpperByte (P.getD j 0) := by
  have hmask : ∀ i < L, (caseMaskTempl P s).getD i 0 =
      templByte (fun p => decide (s ≤ p) && decide (p < s + P.length) &&
        isLetterByte (P.getD (p - s) 0)) i := by
    intro i hi
    unfold caseMaskTempl
    rw [getD_map_range, if_pos (by omega)]
  have hbits : ∀ i < L, (caseBitsTempl P s).getD i 0 =
      templByte (fun p => decide (s ≤ p) && decide (p < s + P.length) &&
        isUpperByte (P.getD (p - s) 0)) i := by
    intro i hi
    unfold caseBitsTempl
    rw [getD_map_range, if_pos (by omega)]
  rw [List.all_eq_true]
  constructor
  · intro hall j hj hlet
    have hiL : (s + j) / 8 < L := by omega
    have h1 := hall ((s + j) / 8) (List.mem_range.2 hiL)
    rw [beq_iff_eq] at h1
    have h2 := congrArg (fun x => x.testBit ((s + j) % 8)) h1
    simp only [Nat.testBit_land] at h2
    rw [hmask _ hiL, hbits _ hiL, templByte_testBit, templByte_testBit] at h2
    have hw : 8 * ((s + j) / 8) + (s + j) % 8 = s + j := by omega
    rw [hw] at h2
    have hjj : s + j - s = j := by omega
    have hcond : (decide (s ≤ s + j) && decide (s + j < s + P.length) &&
        isLetterByte (P.getD (s + j - s) 0)) = true := by
      rw [hjj, hlet, decide_eq_true (by omega : s ≤ s + j),
        decide_eq_true (by omega : s + j < s + P.length)]
      rfl
    have hup : (decide (s ≤ s + j) && decide (s + j < s + P.length) &&
        isUpperByte (P.getD (s + j - s) 0)) = isUpperByte (P.getD j 0) := by
      rw [hjj, decide_eq_true (by omega : s ≤ s + j),
        decide_eq_true (by omega : s + j < s + P.length)]
      simp
    rw [hcond, hup] at h2
    have hk8 : (s + j) % 8 < 8 := by omega
    rw [decide_eq_true hk8, Bool.true_and, Bool.true_and, Bool.and_true] at h2
    have hgq : (o + j) / 8 = S + (s + j) / 8 := by omega
    have hgr : (o + j) % 8 = (s + j) % 8 := by omega
    unfold bitAt
    rw [hgq, hgr]
    exact h2
  · intro hbit i hi
    rw [beq_iff_eq]
    have hiL : i < L := List.mem_range.1 hi
    apply Nat.eq_of_testBit_eq
    intro k
    rw [Nat.testBit_land, hmask _ hiL, hbits _ hiL, templByte_testBit, templByte_testBit]
    by_cases hk : k < 8
    · rw [decide_eq_true hk, Bool.true_and, Bool.true_and]
      by_cases hin1 : s ≤ 8 * i + k
      · by_cases hin2 : 8 * i + k < s + P.length
        · rw [decide_eq_true hin1, decide_eq_true hin2, Bool.true_and, Bool.true_and]
          by_cases hlet : isLetterByte (P.getD (8 * i + k - s) 0) = true
          · rw [hlet, Bool.and_true]
            have hj := hbit (8 * i + k - s) (by omega) hlet
            unfold bitAt at hj
            have hgq : (o + (8 * i + k - s)) / 8 = S + i := by omega
            have hgr : (o + (8 * i + k - s)) % 8 = k := by omega
            rw [hgq, hgr] at hj
            exact hj
          · have hletf : isLetterByte (P.getD (8 * i + k - s) 0) = false := by
              rcases hl : isLetterByte (P.getD (8 * i + k - s) 0) with _ | _
              · rfl
              · exact absurd hl hlet
            have hupf : isUpperByte (P.getD (8 * i + k - s) 0) = false := by
              rcases hu : isUpperByte (P.getD (8 * i + k - s) 0) with _ | _
              · rfl
              · rw [upper_letter _ hu] at hletf
                exact absurd hletf (by simp)
            rw [hletf, hupf, Bool.and_false, Bool.and_false]
        · rw [decide_eq_false hin2]
          simp
      · rw [decide_eq_false hin1]
        simp
    · rw [decide_eq_false hk]
      simp

/-- Helper: for a case-sensitive candidate whose extended window fits the
bitmap, caseMatches succeeds exactly when every cased pattern byte's case
bit in the document bitmap records that byte's case. -/
theorem caseMatches_true_iff (m : candidateMatch) (cb : List Nat)
    (hcs : m.query.CaseSensitive = true)
    (hlen : (m.offset + m.substrBytes.length +
      ((8 - (m.offset + m.substrBytes.length) % 8) % 8)) / 8 ≤ cb.length) :
    m.caseMatches cb = true ↔
      ∀ j < m.substrBytes.length, isLetterByte (m.substrBytes.getD j 0) = true →
        bitAt cb (m.offset + j) = isUpperByte (m.substrBytes.getD j 0) := by
  unfold candidateMatch.caseMatches
  rw [if_neg (by simp [hcs])]
  dsimp only
  set P := m.substrBytes with hP
  set o := m.offset with ho
  set S0 := (o - o % 8) / 8 with hS0
  set L0 := (o + P.length + (8 - (o + P.length) % 8) % 8) / 8 - S0 with hL0
  have hcb2 : S0 + L0 ≤ cb.length := by omega
  rw [length_slice cb S0 L0 hcb2]
  have hcong := allRange_congr L0
    (fun i => (List.take L0 (List.drop S0 cb)).getD i 0 &&&
      (caseMaskTempl P (o % 8)).getD i 0 == (caseBitsTempl P (o % 8)).getD i 0)
    (fun i => cb.getD (S0 + i) 0 &&&
      (caseMaskTempl P (o % 8)).getD i 0 == (caseBitsTempl P (o % 8)).getD i 0)
    (by intro i hi; simp only [getD_slice cb S0 L0 i hi hcb2])
  rw [hcong]
  exact caseCore P cb o P.length (o % 8) S0 L0 rfl rfl (by omega) (by omega) hcb2

/-- Helper: flipping a bit of the packed bitmap flips exactly that bit. -/
theorem bitAt_flipBit_same (cb : List Nat) (g : Nat) (h : g / 8 < cb.length) :
    bitAt (flipBit cb g) g = !(bitAt cb g) := by
  unfold bitAt flipBit
  have hset : (cb.set (g / 8) (cb.getD (g / 8) 0 ^^^ 2 ^ (g % 8))).getD (g / 8) 0 =
      cb.getD (g / 8) 0 ^^^ 2 ^ (g % 8) := by
    rw [List.getD_eq_getElem?_getD, List.getElem?_set_self', List.getElem?_eq_getElem h]
    rfl
  rw [hset, Nat.testBit_xor]
  have hp : (2 ^ (g % 8)).testBit (g % 8) = true := Nat.testBit_two_pow_self
  rw [hp, Bool.xor_true]

/-- Claim C5: caseMatches returns true unconditionally for case-insensitive
queries; for case-sensitive queries it is true exactly when every byte of
the extracted byte-aligned bitmap slice satisfies
`slice[i] &&& mask[startExtend][i] = bits[startExtend][i]`; consequently,
when the document's case bitmap encodes exactly the pattern's case at the
candidate offset it returns true, and flipping the case bit of any single
cased byte inside the pattern's span makes it return false. -/
theorem caseMatches_spec (m : candidateMatch) (cb : List Nat) :
    (m.query.CaseSensitive = false → m.caseMatches cb = true) ∧
    (m.query.CaseSensitive = true →
      (m.caseMatches cb = true ↔
        ∀ i < ((cb.drop ((m.offset - m.offset % 8) / 8)).take
            ((m.offset + m.substrBytes.length +
              ((8 - (m.offset + m.substrBytes.length) % 8) % 8)) / 8 -
              (m.offset - m.offset % 8) / 8)).length,
          ((cb.drop ((m.offset - m.offset % 8) / 8)).take
            ((m.offset + m.substrBytes.length +
              ((8 - (m.offset + m.substrBytes.length) % 8) % 8)) / 8 -
              (m.offset - m.offset % 8) / 8)).getD i 0 &&&
            (caseMaskTempl m.substrBytes (m.offset % 8)).getD i 0 =
            (caseBitsTempl m.substrBytes (m.offset % 8)).getD i 0)) ∧
    (m.query.CaseSensitive = true →
      (m.offset + m.substrBytes.length +
        ((8 - (m.offset + m.substrBytes.length) % 8) % 8)) / 8 ≤ cb.length →
      encodesCase cb m.offset m.substrBytes →
      m.caseMatches cb = true) ∧
    (∀ j, m.query.CaseSensitive = true →
      (m.offset + m.substrBytes.length +
        ((8 - (m.offset + m.substrBytes.length) % 8) % 8)) / 8 ≤ cb.length →
      encodesCase cb m.offset m.substrBytes →
      j < m.substrBytes.length →
      isLetterByte (m.substrBytes.getD j 0) = true →
      m.caseMatches (flipBit cb (m.offset + j)) = false) := by
  refine ⟨?_, ?_, ?_, ?_⟩
  · intro h
    unfold candidateMatch.caseMatches
    rw [if_pos (by simp [h])]
  · intro hcs
    unfold candidateMatch.caseMatches
    rw [if_neg (by simp [hcs])]
    dsimp only
    simp only [List.all_eq_true, List.mem_range, beq_iff_eq]
  · intro hcs hw henc
    rw [caseMatches_true_iff m cb hcs hw]
    intro j hj _
    exact henc j hj
  · intro j hcs hw henc hj hlet
    have hflen : (flipBit cb (m.offset + j)).length = cb.length := by
      unfold flipBit
      exact List.length_set _ _ _
    have hiff := caseMatches_true_iff m (flipBit cb (m.offset + j)) hcs (by rw [hflen]; exact hw)
    rw [Bool.eq_false_iff]
    intro htrue
    have hinst := (hiff.1 htrue) j hj hlet
    have hbyte : (m.offset + j) / 8 < cb.length := by omega
    rw [bitAt_flipBit_same cb (m.offset + j) hbyte] at hinst
    rw [henc j hj] at hinst
    rcases hu : isUpperByte (m.substrBytes.getD j 0) with _ | _ <;>
      rw [hu] at hinst <;> simp at hinst

/-- Witness for C5: with the single case-bitmap byte 16 (bit 4 set for the
uppercase B at offset 4), the candidate "aB" at offset 3 case-matches, and
flipping the bit of the letter at pattern index 1 makes it fail. -/
theorem caseMatches_spec_witness :
    c5Cand.caseMatches [16] = true ∧
    c5Cand.caseMatches (flipBit [16] (c5Cand.offset + 1)) = false :=
  ⟨(caseMatches_spec c5Cand [16]).2.2.1 rfl (by decide) (by decide),
   (caseMatches_spec c5Cand [16]).2.2.2 1 rfl (by decide) (by decide) (by decide) (by decide)⟩

end Codesearch

namespace GoSort

theorem cons_set_perm : ∀ (xs : List α) (m : Nat) (a b : α),
    xs[m]? = some b → (b :: xs.set m a).Perm (a :: xs) := by
  intro xs
  induction xs with
  | nil => intro m a b h; simp at h
  | cons y ys ih =>
    intro m a b h
    cases m with
    | zero =>
      simp only [List.getElem?_cons_zero, Option.some.injEq] at h
      subst h
      exact List.Perm.swap _ _ _
    | succ k =>
      have h' : ys[k]? = some b := by simpa using h
      have step1 : (b :: y :: ys.set k a).Perm (y :: b :: ys.set k a) :=
        List.Perm.swap _ _ _
      have step2 : (y :: b :: ys.set k a).Perm (y :: a :: ys) :=
        List.Perm.cons y (ih k a b h')
      have step3 : (y :: a :: ys).Perm (a :: y :: ys) := List.Perm.swap _ _ _
      exact (step1.trans step2).trans step3

theorem set_set_perm : ∀ (l : List α) (i j : Nat) (a b : α),
    l[i]? = some a → l[j]? = some b → ((l.set i b).set j a).Perm l := by
  intro l
  induction l with
  | nil => intro i j a b hi; simp at hi
  | cons x xs ih =>
    intro i j a b hi hj
    cases i with
    | zero =>
      simp only [List.getElem?_cons_zero, Option.some.injEq] at hi
      subst hi
      cases j with
      | zero =>
        simp only [List.getElem?_cons_zero, Option.some.injEq] at hj
        subst hj
        exact List.Perm.refl _
      | succ m =>
        have hj' : xs[m]? = some b := by simpa using hj
        exact cons_set_perm xs m _ _ hj'
    | succ m =>
      have hi' : xs[m]? = some a := by simpa using hi
      cases j with
      | zero =>
        simp only [List.getElem?_cons_zero, Option.some.injEq] at hj
        subst hj
        exact cons_set_perm xs m _ _ hi'
      | succ k =>
        have hj' : xs[k]? = some b := by simpa using hj
        show (x :: (xs.set m b).set k a).Perm (x :: xs)
        exact List.Perm.cons x (ih m k a b hi' hj')

theorem lswap_perm (l : List α) (i j : Nat) : (lswap l i j).Perm l := by
  unfold lswap
  rcases hi : l.get? i with _ | a <;> rcases hj : l.get? j with _ | b
  · exact List.Perm.refl _
  · exact List.Perm.refl _
  · exact List.Perm.refl _
  · rw [List.get?_eq_getElem?] at hi hj
    exact set_set_perm l i j a b hi hj

theorem foldl_perm (f : List α → Nat → List α) (h : ∀ l i, (f l i).Perm l) :
    ∀ (idxs : List Nat) (l : List α), (idxs.foldl f l).Perm l := by
  intro idxs
  induction idxs with
  | nil => intro l; exact List.Perm.refl _
  | cons i is ih =>
    intro l
    exact (ih (f l i)).trans (h l i)

theorem foldr_perm (f : Nat → List α → List α) (h : ∀ i l, (f i l).Perm l) :
    ∀ (idxs : List Nat) (l : List α), (idxs.foldr f l).Perm l := by
  intro idxs
  induction idxs with
  | nil => intro l; exact List.Perm.refl _
  | cons i is ih =>
    intro l
    exact (h i (is.foldr f l)).trans (ih l)

theorem insInner_perm (less : α → α → Bool) (a : Nat) :
    ∀ (j : Nat) (l : List α), (insInner less a j l).Perm l := by
  intro j
  induction j with
  | zero => intro l; exact List.Perm.refl _
  | succ j ih =>
    intro l
    unfold insInner
    split
    · exact (ih _).trans (lswap_perm l (j + 1) j)
    · exact List.Perm.refl _

theorem insertionSortGo_perm (less : α → α → Bool) (l : List α) (a b : Nat) :
    (insertionSortGo less l a b).Perm l :=
  foldl_perm _ (fun l i => insInner_perm less a i l) _ l

theorem shellPass_perm (less : α → α → Bool) (a b : Nat) (l : List α) :
    (shellPass less a b l).Perm l := by
  refine foldl_perm _ ?_ _ l
  intro l i
  dsimp only
  split
  · exact lswap_perm l i (i - 6)
  · exact List.Perm.refl _

theorem siftDown_perm (less : α → α → Bool) (first hi : Nat) :
    ∀ (fuel root : Nat) (l : List α), (siftDown less first hi fuel root l).Perm l := by
  intro fuel
  induction fuel with
  | zero => intro root l; exact List.Perm.refl _
  | succ fuel ih =>
    intro root l
    unfold siftDown
    dsimp only
    split
    · exact List.Perm.refl _
    · split <;> split <;>
        first
        | exact List.Perm.refl _
        | exact (ih _ _).trans (lswap_perm l _ _)

theorem heapSortGo_perm (less : α → α → Bool) (l : List α) (a b : Nat) :
    (heapSortGo less l a b).Perm l := by
  unfold heapSortGo
  refine (foldr_perm _ ?_ _ _).trans (foldr_perm _ ?_ _ l)
  · intro i l
    exact (siftDown_perm less a i _ 0 _).trans (lswap_perm l a (a + i))
  · intro i l
    exact siftDown_perm less a (b - a) _ i l

theorem condSwap_perm (less : α → α → Bool) (l : List α) (i j : Nat) :
    (if ltAt less l i j then lswap l i j else l).Perm l := by
  split
  · exact lswap_perm l i j
  · exact List.Perm.refl _

theorem medianOfThree_perm (less : α → α → Bool) (l : List α) (a b c : Nat) :
    (medianOfThree less l a b c).Perm l := by
  unfold medianOfThree
  exact (condSwap_perm less _ _ _).trans
    ((condSwap_perm less _ _ _).trans (condSwap_perm less _ _ _))

theorem partLoop_perm (less : α → α → Bool) (pivot : Nat) :
    ∀ (fuel b c : Nat) (l : List α), (partLoop less pivot fuel b c l).2.2.Perm l := by
  intro fuel
  induction fuel with
  | zero => intro b c l; exact List.Perm.refl _
  | succ fuel ih =>
    intro b c l
    unfold partLoop
    dsimp only
    split
    · exact List.Perm.refl _
    · exact (ih _ _ _).trans (lswap_perm l _ _)

theorem protLoop_perm (less : α → α → Bool) (pivot : Nat) :
    ∀ (fuel a b : Nat) (l : List α), (protLoop less pivot fuel a b l).2.2.Perm l := by
  intro fuel
  induction fuel with
  | zero => intro a b l; exact List.Perm.refl _
  | succ fuel ih =>
    intro a b l
    unfold protLoop
    dsimp only
    split
    · exact List.Perm.refl _
    · exact (ih _ _ _).trans (lswap_perm l _ _)

theorem doPivot_perm (less : α → α → Bool) (l : List α) (lo hi : Nat) :
    (doPivot less l lo hi).2.2.Perm l := by
  unfold doPivot
  dsimp only
  have h1 : (medianOfThree less
      (if 40 < hi - lo then
        medianOfThree less
          (medianOfThree less (medianOfThree less l lo (lo + (hi - lo) / 8) (lo + 2 * ((hi - lo) / 8)))
            (lo + (hi - lo) / 2) (lo + (hi - lo) / 2 - (hi - lo) / 8) (lo + (hi - lo) / 2 + (hi - lo) / 8))
          (hi - 1) (hi - 1 - (hi - lo) / 8) (hi - 1 - 2 * ((hi - lo) / 8))
      else l) lo (lo + (hi - lo) / 2) (hi - 1)).Perm l := by
    refine (medianOfThree_perm less _ _ _ _).trans ?_
    split
    · exact (medianOfThree_perm less _ _ _ _).trans
        ((medianOfThree_perm less _ _ _ _).trans (medianOfThree_perm less _ _ _ _))
    · exact List.Perm.refl _
  generalize hg1 : medianOfThree less
      (if 40 < hi - lo then
        medianOfThree less
          (medianOfThree less (medianOfThree less l lo (lo + (hi - lo) / 8) (lo + 2 * ((hi - lo) / 8)))
            (lo + (hi - lo) / 2) (lo + (hi - lo) / 2 - (hi - lo) / 8) (lo + (hi - lo) / 2 + (hi - lo) / 8))
          (hi - 1) (hi - 1 - (hi - lo) / 8) (hi - 1 - 2 * ((hi - lo) / 8))
      else l) lo (lo + (hi - lo) / 2) (hi - 1) = L1 at h1 ⊢
  have h2 : (partLoop less lo (hi + 1)
      (scanUpLess less L1 lo (hi - 1) hi (lo + 1)) (hi - 1) L1).2.2.Perm L1 :=
    partLoop_perm less lo (hi + 1) _ (hi - 1) L1
  generalize hg2 : partLoop less lo (hi + 1)
      (scanUpLess less L1 lo (hi - 1) hi (lo + 1)) (hi - 1) L1 = PR at h2 ⊢
  obtain ⟨b0, c0, l0⟩ := PR
  dsimp only at h2 ⊢
  have base : l0.Perm l := h2.trans h1
  split <;>
    [skip;
     (refine (lswap_perm _ _ _).trans ?_
      split
      · exact (protLoop_perm less lo _ _ _ _).trans base
      · exact base)]
  dsimp only
  split <;> split <;>
    (refine (lswap_perm _ _ _).trans ?_
     split <;>
       first
       | exact (protLoop_perm less lo _ _ _ _).trans
           (((lswap_perm _ _ _).trans (lswap_perm _ _ _)).trans base)
       | exact (protLoop_perm less lo _ _ _ _).trans ((lswap_perm _ _ _).trans base)
       | exact (protLoop_perm less lo _ _ _ _).trans base
       | exact ((lswap_perm _ _ _).trans (lswap_perm _ _ _)).trans base
       | exact (lswap_perm _ _ _).trans base
       | exact base)

theorem quickSortGo_perm (less : α → α → Bool) :
    ∀ (fuel : Nat) (l : List α) (a b maxDepth : Nat),
      (quickSortGo less fuel l a b maxDepth).Perm l := by
  intro fuel
  induction fuel with
  | zero => intro l a b maxDepth; exact List.Perm.refl _
  | succ fuel ih =>
    intro l a b maxDepth
    unfold quickSortGo
    dsimp only
    split
    · split
      · exact heapSortGo_perm less l a b
      · split
        · exact (ih _ _ _ _).trans ((ih _ _ _ _).trans (doPivot_perm less l a b))
        · exact (ih _ _ _ _).trans ((ih _ _ _ _).trans (doPivot_perm less l a b))
    · split
      · exact (insertionSortGo_perm less _ a b).trans (shellPass_perm less a b l)
      · exact List.Perm.refl _

theorem sortGo_perm (less : α → α → Bool) (l : List α) : (sortGo less l).Perm l :=
  quickSortGo_perm less _ l 0 l.length (goMaxDepth l.length)

theorem lswap_length (l : List α) (i j : Nat) : (lswap l i j).length = l.length := by
  unfold lswap
  rcases hi : l.get? i <;> rcases hj : l.get? j <;> simp

theorem lswap_getElem? (l : List α) (i j k : Nat) (hi : i < l.length) (hj : j < l.length) :
    (lswap l i j)[k]? = if k = j then l[i]? else if k = i then l[j]? else l[k]? := by
  unfold lswap
  rw [List.get?_eq_getElem?, List.get?_eq_getElem?,
    List.getElem?_eq_getElem hi, List.getElem?_eq_getElem hj]
  dsimp only
  rw [List.getElem?_set]
  simp only [List.length_set]
  by_cases hkj : j = k
  · rw [if_pos hkj, if_pos hj, if_pos hkj.symm]
  · rw [if_neg hkj, if_neg (fun h => hkj h.symm), List.getElem?_set]
    by_cases hki : i = k
    · rw [if_pos hki, if_pos hi, if_pos hki.symm]
    · rw [if_neg hki, if_neg (fun h => hki h.symm)]

/-- Helper: one inner insertion pass turns "sorted except at j" into a
sorted window [a, T). -/
theorem insInner_correct (sc : α → ℚ) (a : Nat) :
    ∀ (j : Nat) (l : List α) (T : Nat), a ≤ j → j < T → T ≤ l.length →
      SortedRange sc l a j →
      SortedRange sc l j T →
      (∀ p q x y, a ≤ p → p < j → j < q → q < T →
        l[p]? = some x → l[q]? = some y → sc y ≤ sc x) →
      SortedRange sc (insInner (scLess sc) a j l) a T ∧
      (insInner (scLess sc) a j l).length = l.length := by
  intro j
  induction j with
  | zero =>
    intro l T ha hjT hT hpre hsuf hbr
    have ha0 : a = 0 := Nat.le_zero.1 ha
    subst ha0
    exact ⟨hsuf, rfl⟩
  | succ j ih =>
    intro l T ha hjT hT hpre hsuf hbr
    unfold insInner
    by_cases hguard : (decide (a < j + 1) && ltAt (scLess sc) l (j + 1) j) = true
    · rw [if_pos hguard]
      simp only [Bool.and_eq_true, decide_eq_true_eq] at hguard
      obtain ⟨haj, hlt⟩ := hguard
      have hj1 : j + 1 < l.length := by omega
      have hj0 : j < l.length := by omega
      have hxy : sc (l.get ⟨j, hj0⟩) < sc (l.get ⟨j + 1, hj1⟩) := by
        unfold ltAt at hlt
        rw [List.get?_eq_getElem?, List.get?_eq_getElem?,
          List.getElem?_eq_getElem hj1, List.getElem?_eq_getElem hj0] at hlt
        simpa [scLess, List.get_eq_getElem] using hlt
      have hget : ∀ (k : Nat),
          (lswap l (j + 1) j)[k]? =
            if k = j then l[j + 1]? else if k = j + 1 then l[j]? else l[k]? :=
        fun k => lswap_getElem? l (j + 1) j k hj1 hj0
      have hlen' : (lswap l (j + 1) j).length = l.length := lswap_length l (j + 1) j
      have hx1 : l[j + 1]? = some (l.get ⟨j + 1, hj1⟩) := by
        rw [List.getElem?_eq_getElem hj1]; rfl
      have hx0 : l[j]? = some (l.get ⟨j, hj0⟩) := by
        rw [List.getElem?_eq_getElem hj0]; rfl
      -- (A) the prefix [a, j) is unchanged and still sorted
      have hA : SortedRange sc (lswap l (j + 1) j) a j := by
        intro p q x y hap hpq hqj hp hq
        rw [hget p, if_neg (by omega), if_neg (by omega)] at hp
        rw [hget q, if_neg (by omega), if_neg (by omega)] at hq
        exact hpre p q x y hap hpq (by omega) hp hq
      -- (B) the suffix [j, T) is sorted after the swap
      have hB : SortedRange sc (lswap l (j + 1) j) j T := by
        intro p q x y hjp hpq hqT hp hq
        by_cases hpj : p = j
        · rw [hget p, if_pos hpj, hx1] at hp
          injection hp with hp
          subst hp
          by_cases hqj : q = j
          · rw [hget q, if_pos hqj, hx1] at hq
            injection hq with hq
            subst hq
            exact le_refl _
          · by_cases hqj1 : q = j + 1
            · rw [hget q, if_neg hqj, if_pos hqj1, hx0] at hq
              injection hq with hq
              subst hq
              exact le_of_lt hxy
            · rw [hget q, if_neg hqj, if_neg hqj1] at hq
              exact hsuf (j + 1) q _ y (by omega) (by omega) hqT hx1 hq
        · by_cases hpj2 : p = j + 1
          · rw [hget p, if_neg hpj, if_pos hpj2, hx0] at hp
            injection hp with hp
            subst hp
            by_cases hqj2 : q = j + 1
            · rw [hget q, if_neg (by omega), if_pos hqj2, hx0] at hq
              injection hq with hq
              subst hq
              exact le_refl _
            · rw [hget q, if_neg (by omega), if_neg hqj2] at hq
              exact hbr j q _ y (by omega) (by omega) (by omega) hqT hx0 hq
          · rw [hget p, if_neg hpj, if_neg hpj2] at hp
            rw [hget q, if_neg (by omega), if_neg (by omega)] at hq
            exact hsuf p q x y (by omega) hpq hqT hp hq
      -- (C) the bridge across j still holds
      have hC : ∀ p q x y, a ≤ p → p < j → j < q → q < T →
          (lswap l (j + 1) j)[p]? = some x → (lswap l (j + 1) j)[q]? = some y →
          sc y ≤ sc x := by
        intro p q x y hap hpj hjq hqT hp hq
        rw [hget p, if_neg (by omega), if_neg (by omega)] at hp
        by_cases hqj1 : q = j + 1
        · rw [hget q, if_neg (by omega), if_pos hqj1, hx0] at hq
          injection hq with hq
          subst hq
          exact hpre p j x _ hap (by omega) (by omega) hp hx0
        · rw [hget q, if_neg (by omega), if_neg hqj1] at hq
          exact hbr p q x y hap (by omega) (by omega) hqT hp hq
      obtain ⟨hres, hlen2⟩ := ih (lswap l (j + 1) j) T (by omega) (by omega)
        (by rw [hlen']; exact hT) hA hB hC
      exact ⟨hres, hlen2.trans hlen'⟩
    · rw [if_neg hguard]
      refine ⟨?_, rfl⟩
      by_cases haj : a < j + 1
      · -- the loop stopped on the comparison: l[j+1] ≤ l[j] glues the window
        have hstop : ltAt (scLess sc) l (j + 1) j = false := by
          rcases hb : ltAt (scLess sc) l (j + 1) j with _ | _
          · rfl
          · exact absurd (by simp [haj, hb]) hguard
        have hj1 : j + 1 < l.length := by omega
        have hj0 : j < l.length := by omega
        have hx1 : l[j + 1]? = some (l.get ⟨j + 1, hj1⟩) := by
          rw [List.getElem?_eq_getElem hj1]; rfl
        have hx0 : l[j]? = some (l.get ⟨j, hj0⟩) := by
          rw [List.getElem?_eq_getElem hj0]; rfl
        have hle : sc (l.get ⟨j + 1, hj1⟩) ≤ sc (l.get ⟨j, hj0⟩) := by
          unfold ltAt at hstop
          rw [List.get?_eq_getElem?, List.get?_eq_getElem?,
            List.getElem?_eq_getElem hj1, List.getElem?_eq_getElem hj0] at hstop
          simpa [scLess, List.get_eq_getElem] using hstop
        intro p q x y hap hpq hqT hp hq
        by_cases hqj : q ≤ j
        · exact hpre p q x y hap hpq (by omega) hp hq
        · by_cases hpj : j + 1 ≤ p
          · exact hsuf p q x y hpj hpq hqT hp hq
          · -- p ≤ j < j + 1 ≤ q
            by_cases hqj1 : q = j + 1
            · rw [hqj1, hx1] at hq
              injection hq with hq
              subst hq
              refine le_trans hle ?_
              exact hpre p j x _ hap (by omega) (by omega) hp hx0
            · exact hbr p q x y hap (by omega) (by omega) hqT hp hq
      · -- a = j + 1 : the window starts at j + 1 and the suffix is sorted
        have ha1 : a = j + 1 := by omega
        subst ha1
        exact hsuf

/-- Helper: windows of at most one element are trivially sorted. -/
theorem sortedRange_of_le (sc : α → ℚ) (l : List α) (a b : Nat) (h : b ≤ a + 1) :
    SortedRange sc l a b := by
  intro p q x y hap hpq hqb hp hq
  have hpq' : p = q := by omega
  rw [hpq'] at hp
  rw [hp] at hq
  injection hq with hq
  rw [hq]

/-- Helper: the outer insertion loop extends a sorted prefix across the
whole range. -/
theorem insOuter (sc : α → ℚ) (a : Nat) :
    ∀ (n s : Nat) (l : List α), a + 1 ≤ s → s + n ≤ l.length →
      SortedRange sc l a s →
      SortedRange sc ((List.range' s n).foldl
        (fun l i => insInner (scLess sc) a i l) l) a (s + n) ∧
      ((List.range' s n).foldl (fun l i => insInner (scLess sc) a i l) l).length =
        l.length := by
  intro n
  induction n with
  | zero =>
    intro s l hs hlen hsort
    exact ⟨hsort, rfl⟩
  | succ n ih =>
    intro s l hs hlen hsort
    rw [List.range'_succ]
    simp only [List.foldl_cons]
    obtain ⟨h1, hlen1⟩ := insInner_correct sc a s l (s + 1) (by omega) (by omega)
      (by omega) hsort (sortedRange_of_le sc l s (s + 1) (le_refl _))
      (by intro p q x y _ _ h1 h2 _ _; omega)
    obtain ⟨h2, hlen2⟩ := ih (s + 1) _ (by omega) (by rw [hlen1]; omega) h1
    constructor
    · have he : s + (n + 1) = s + 1 + n := by omega
      rw [he]
      exact h2
    · rw [hlen2, hlen1]

/-- Helper: insertionSort sorts the window [a, b) of any input. -/
theorem insertionSortGo_sorted (sc : α → ℚ) (l : List α) (a b : Nat)
    (hb : b ≤ l.length) :
    SortedRange sc (insertionSortGo (scLess sc) l a b) a b := by
  unfold insertionSortGo
  by_cases hab : a + 1 ≤ b
  · obtain ⟨h1, _⟩ := insOuter sc a (b - (a + 1)) (a + 1) l (le_refl _) (by omega)
      (sortedRange_of_le sc l a (a + 1) (le_refl _))
    have he : a + 1 + (b - (a + 1)) = b := by omega
    rw [he] at h1
    exact h1
  · have hempty : b - (a + 1) = 0 := by omega
    rw [hempty]
    exact sortedRange_of_le sc l a b (by omega)

/-- Helper: on at most 12 elements, sort.Sort runs the shell/insertion path
and fully sorts by the score ordering. -/
theorem sortGo_sorted_small (sc : α → ℚ) (l : List α) (h12 : l.length ≤ 12) :
    SortedRange sc (sortGo (scLess sc) l) 0 l.length := by
  unfold sortGo quickSortGo
  rw [if_neg (by omega)]
  by_cases h1 : 1 < l.length - 0
  · rw [if_pos h1]
    have hsh : (shellPass (scLess sc) 0 l.length l).length = l.length :=
      (shellPass_perm (scLess sc) 0 l.length l).length_eq
    exact insertionSortGo_sorted sc _ 0 l.length (by rw [hsh])
  · rw [if_neg h1]
    exact sortedRange_of_le sc l 0 l.length (by omega)

end GoSort

namespace GoSort

theorem gV_eq_of_getElem? (sc : α → ℚ) (l : List α) (i : Nat) (x : α)
    (h : l[i]? = some x) : gV sc l i = sc x := by
  unfold gV
  rw [h]
  rfl

theorem ltAt_eq_gV (sc : α → ℚ) (l : List α) (i j : Nat)
    (hi : i < l.length) (hj : j < l.length) :
    ltAt (scLess sc) l i j = decide (gV sc l j < gV sc l i) := by
  unfold ltAt gV scLess
  rw [List.get?_eq_getElem?, List.get?_eq_getElem?,
    List.getElem?_eq_getElem hi, List.getElem?_eq_getElem hj]
  rfl

theorem lswap_getElem?_ne (l : List α) (i j k : Nat) (hki : k ≠ i) (hkj : k ≠ j) :
    (lswap l i j)[k]? = l[k]? := by
  unfold lswap
  rcases hgi : l.get? i with _ | a
  · rfl
  rcases hgj : l.get? j with _ | b
  · rfl
  rw [List.get?_eq_getElem?] at hgi hgj
  rw [List.getElem?_set_ne (fun h => hkj h.symm), List.getElem?_set_ne (fun h => hki h.symm)]

theorem gV_lswap (sc : α → ℚ) (l : List α) (i j k : Nat)
    (hi : i < l.length) (hj : j < l.length) :
    gV sc (lswap l i j) k =
      if k = j then gV sc l i else if k = i then gV sc l j else gV sc l k := by
  unfold gV
  rw [lswap_getElem? l i j k hi hj]
  split
  · rfl
  · split <;> rfl

theorem gV_frame (sc : α → ℚ) (l l' : List α) (a b k : Nat)
    (h : gFrame l l' a b) (hk : k < a ∨ b ≤ k) : gV sc l' k = gV sc l k := by
  unfold gV
  rw [h k hk]

theorem gFrame_refl (l : List α) (a b : Nat) : gFrame l l a b := by
  intro k _; rfl

theorem gFrame_trans (l1 l2 l3 : List α) (a b : Nat)
    (h1 : gFrame l1 l2 a b) (h2 : gFrame l2 l3 a b) : gFrame l1 l3 a b := by
  intro k hk
  rw [h2 k hk, h1 k hk]

theorem gFrame_mono (l l' : List α) (a b a' b' : Nat)
    (h : gFrame l l' a' b') (ha : a ≤ a') (hb : b' ≤ b) : gFrame l l' a b := by
  intro k hk
  exact h k (by omega)

theorem gFrame_lswap (l : List α) (a b i j : Nat) (hi : a ≤ i) (hi2 : i < b)
    (hj : a ≤ j) (hj2 : j < b) : gFrame l (lswap l i j) a b := by
  intro k hk
  exact lswap_getElem?_ne l i j k (by omega) (by omega)

/-- Helper: a prefix is determined by pointwise getElem?. -/
theorem take_eq_of_agree (l l' : List α) (a : Nat)
    (h : ∀ k, k < a → l'[k]? = l[k]?) : l'.take a = l.take a := by
  apply List.ext_getElem?
  intro i
  rw [List.getElem?_take, List.getElem?_take]
  split
  · exact h i (by omega)
  · rfl

theorem drop_eq_of_agree (l l' : List α) (b : Nat)
    (h : ∀ k, b ≤ k → l'[k]? = l[k]?) : l'.drop b = l.drop b := by
  apply List.ext_getElem?
  intro i
  rw [List.getElem?_drop, List.getElem?_drop]
  exact h (b + i) (by omega)

/-- Helper: a list splits around a sub-slice. -/
theorem seg_decomp (l : List α) (a b : Nat) (hab : a ≤ b) :
    l = l.take a ++ gSeg l a b ++ l.drop b := by
  unfold gSeg
  conv_lhs => rw [← List.take_append_drop b l]
  congr 1
  conv_lhs => rw [← List.take_append_drop a (l.take b)]
  congr 1
  rw [List.take_take]
  congr 1
  omega

/-- Helper: a permutation that fixes everything outside [a, b) permutes the
sub-slice [a, b). -/
theorem seg_perm_of_frame (l l' : List α) (a b : Nat) (hab : a ≤ b)
    (hperm : l'.Perm l) (hframe : gFrame l l' a b) :
    (gSeg l' a b).Perm (gSeg l a b) := by
  have htake : l'.take a = l.take a :=
    take_eq_of_agree l l' a (fun k hk => hframe k (Or.inl hk))
  have hdrop : l'.drop b = l.drop b :=
    drop_eq_of_agree l l' b (fun k hk => hframe k (Or.inr hk))
  have hd1 := seg_decomp l a b hab
  have hd2 := seg_decomp l' a b hab
  rw [hd1, hd2, htake, hdrop] at hperm
  rw [List.append_assoc, List.append_assoc] at hperm
  have h2 : ((gSeg l' a b) ++ l.drop b).Perm ((gSeg l a b) ++ l.drop b) := by
    have := hperm
    rwa [List.perm_append_left_iff] at this
  rwa [List.perm_append_right_iff] at h2

/-- Helper: membership of an in-range position's element in the sub-slice. -/
theorem getElem?_mem_seg (l : List α) (a b k : Nat) (x : α)
    (hk1 : a ≤ k) (hk2 : k < b) (h : l[k]? = some x) : x ∈ gSeg l a b := by
  unfold gSeg
  have hkl : k < l.length := (List.getElem?_eq_some.1 h).1
  have : ((l.take b).drop a)[k - a]? = some x := by
    rw [List.getElem?_drop, List.getElem?_take]
    rw [if_pos (by omega)]
    rw [show a + (k - a) = k by omega]
    exact h
  obtain ⟨hlt, heq⟩ := List.getElem?_eq_some.1 this
  exact heq ▸ List.getElem_mem hlt

/-- Helper: every element of the sub-slice sits at an in-range position. -/
theorem mem_seg_getElem? (l : List α) (a b : Nat) (x : α) (hx : x ∈ gSeg l a b) :
    ∃ k, a ≤ k ∧ k < b ∧ l[k]? = some x := by
  unfold gSeg at hx
  obtain ⟨⟨i, hi⟩, hgi⟩ := List.mem_iff_get.1 hx
  rw [List.get_eq_getElem] at hgi
  have h1 : ((l.take b).drop a)[i]? = some x := by
    rw [List.getElem?_eq_getElem hi, hgi]
  rw [List.getElem?_drop, List.getElem?_take] at h1
  by_cases hib : a + i < b
  · exact ⟨a + i, by omega, hib, by rw [if_pos hib] at h1; exact h1⟩
  · rw [if_neg hib] at h1
    simp at h1

/-- Helper: a pointwise score bound over positions [a, b) transfers along a
permutation that fixes the outside. -/
theorem seg_bound_transfer (sc : α → ℚ) (P : ℚ → Prop) (l l' : List α) (a b : Nat)
    (hab : a ≤ b) (hb : b ≤ l.length)
    (hperm : l'.Perm l) (hframe : gFrame l l' a b)
    (hP : ∀ k, a ≤ k → k < b → P (gV sc l k)) :
    ∀ k, a ≤ k → k < b → P (gV sc l' k) := by
  intro k hk1 hk2
  have hlen : l'.length = l.length := hperm.length_eq
  have hkl : k < l'.length := by omega
  have hsome : l'[k]? = some (l'.get ⟨k, hkl⟩) := by
    rw [List.getElem?_eq_getElem hkl]; rfl
  have hmem : l'.get ⟨k, hkl⟩ ∈ gSeg l' a b := getElem?_mem_seg l' a b k _ hk1 hk2 hsome
  have hmem2 : l'.get ⟨k, hkl⟩ ∈ gSeg l a b :=
    (seg_perm_of_frame l l' a b hab hperm hframe).mem_iff.1 hmem
  obtain ⟨k', hk'1, hk'2, hk'⟩ := mem_seg_getElem? l a b _ hmem2
  rw [gV_eq_of_getElem? sc l' k _ hsome, ← gV_eq_of_getElem? sc l k' _ hk']
  exact hP k' hk'1 hk'2

theorem scanUpLess_spec (less : α → α → Bool) (l : List α) (pivot c : Nat) :
    ∀ fuel a, a ≤ c → c - a < fuel →
      a ≤ scanUpLess less l pivot c fuel a ∧ scanUpLess less l pivot c fuel a ≤ c ∧
      (∀ k, a ≤ k → k < scanUpLess less l pivot c fuel a → ltAt less l k pivot = true) ∧
      (scanUpLess less l pivot c fuel a < c →
        ltAt less l (scanUpLess less l pivot c fuel a) pivot = false) := by
  intro fuel
  induction fuel with
  | zero => intro a h1 h2; exact absurd h2 (by omega)
  | succ fuel ih =>
    intro a h1 h2
    have hexp : scanUpLess less l pivot c (fuel + 1) a =
        if a < c && ltAt less l a pivot then scanUpLess less l pivot c fuel (a + 1) else a := rfl
    by_cases hc : (decide (a < c) && ltAt less l a pivot) = true
    · rw [hexp, if_pos hc]
      rw [Bool.and_eq_true, decide_eq_true_iff] at hc
      obtain ⟨hac, hlt⟩ := hc
      obtain ⟨i1, i2, i3, i4⟩ := ih (a + 1) (by omega) (by omega)
      refine ⟨by omega, i2, ?_, i4⟩
      intro k hk1 hk2
      rcases Nat.eq_or_lt_of_le hk1 with h | h
      · rw [← h]; exact hlt
      · exact i3 k (by omega) hk2
    · rw [hexp, if_neg hc]
      refine ⟨le_refl a, h1, fun k hk1 hk2 => absurd (lt_of_le_of_lt hk1 hk2) (lt_irrefl a), ?_⟩
      intro hac
      rw [Bool.and_eq_true, decide_eq_true_iff] at hc
      rcases Bool.eq_false_or_eq_true (ltAt less l a pivot) with h | h
      · exact absurd ⟨hac, h⟩ hc
      · exact h

theorem scanUpNotLess_spec (less : α → α → Bool) (l : List α) (pivot c : Nat) :
    ∀ fuel b, b ≤ c → c - b < fuel →
      b ≤ scanUpNotLess less l pivot c fuel b ∧ scanUpNotLess less l pivot c fuel b ≤ c ∧
      (∀ k, b ≤ k → k < scanUpNotLess less l pivot c fuel b → ltAt less l pivot k = false) ∧
      (scanUpNotLess less l pivot c fuel b < c →
        ltAt less l pivot (scanUpNotLess less l pivot c fuel b) = true) := by
  intro fuel
  induction fuel with
  | zero => intro b h1 h2; exact absurd h2 (by omega)
  | succ fuel ih =>
    intro b h1 h2
    have hexp : scanUpNotLess less l pivot c (fuel + 1) b =
        if b < c && !ltAt less l pivot b then scanUpNotLess less l pivot c fuel (b + 1) else b := rfl
    by_cases hc : (decide (b < c) && !ltAt less l pivot b) = true
    · rw [hexp, if_pos hc]
      rw [Bool.and_eq_true, decide_eq_true_iff, Bool.not_eq_true'] at hc
      obtain ⟨hbc, hlt⟩ := hc
      obtain ⟨i1, i2, i3, i4⟩ := ih (b + 1) (by omega) (by omega)
      refine ⟨by omega, i2, ?_, i4⟩
      intro k hk1 hk2
      rcases Nat.eq_or_lt_of_le hk1 with h | h
      · rw [← h]; exact hlt
      · exact i3 k (by omega) hk2
    · rw [hexp, if_neg hc]
      refine ⟨le_refl b, h1, fun k hk1 hk2 => absurd (lt_of_le_of_lt hk1 hk2) (lt_irrefl b), ?_⟩
      intro hbc
      rw [Bool.and_eq_true, decide_eq_true_iff, Bool.not_eq_true'] at hc
      rcases Bool.eq_false_or_eq_true (ltAt less l pivot b) with h | h
      · exact h
      · exact absurd ⟨hbc, h⟩ hc

theorem scanDownLess_spec (less : α → α → Bool) (l : List α) (pivot b : Nat) :
    ∀ fuel c, b ≤ c → c - b < fuel →
      b ≤ scanDownLess less l pivot b fuel c ∧ scanDownLess less l pivot b fuel c ≤ c ∧
      (∀ k, scanDownLess less l pivot b fuel c ≤ k → k < c → ltAt less l pivot k = true) ∧
      (b < scanDownLess less l pivot b fuel c →
        ltAt less l pivot (scanDownLess less l pivot b fuel c - 1) = false) := by
  intro fuel
  induction fuel with
  | zero => intro c h1 h2; exact absurd h2 (by omega)
  | succ fuel ih =>
    intro c h1 h2
    have hexp : scanDownLess less l pivot b (fuel + 1) c =
        if b < c && ltAt less l pivot (c - 1) then scanDownLess less l pivot b fuel (c - 1) else c := rfl
    by_cases hc : (decide (b < c) && ltAt less l pivot (c - 1)) = true
    · rw [hexp, if_pos hc]
      rw [Bool.and_eq_true, decide_eq_true_iff] at hc
      obtain ⟨hbc, hlt⟩ := hc
      obtain ⟨i1, i2, i3, i4⟩ := ih (c - 1) (by omega) (by omega)
      refine ⟨i1, by omega, ?_, i4⟩
      intro k hk1 hk2
      by_cases hkc : k < c - 1
      · exact i3 k hk1 hkc
      · rw [show k = c - 1 by omega]; exact hlt
    · rw [hexp, if_neg hc]
      refine ⟨h1, le_refl c, fun k hk1 hk2 => absurd (lt_of_le_of_lt hk1 hk2) (lt_irrefl c), ?_⟩
      intro hbc
      rw [Bool.and_eq_true, decide_eq_true_iff] at hc
      rcases Bool.eq_false_or_eq_true (ltAt less l pivot (c - 1)) with h | h
      · exact absurd ⟨hbc, h⟩ hc
      · exact h

theorem scanDownNotLess_spec (less : α → α → Bool) (l : List α) (pivot a : Nat) :
    ∀ fuel b, a ≤ b → b - a < fuel →
      a ≤ scanDownNotLess less l pivot a fuel b ∧ scanDownNotLess less l pivot a fuel b ≤ b ∧
      (∀ k, scanDownNotLess less l pivot a fuel b ≤ k → k < b → ltAt less l k pivot = false) ∧
      (a < scanDownNotLess less l pivot a fuel b →
        ltAt less l (scanDownNotLess less l pivot a fuel b - 1) pivot = true) := by
  intro fuel
  induction fuel with
  | zero => intro b h1 h2; exact absurd h2 (by omega)
  | succ fuel ih =>
    intro b h1 h2
    have hexp : scanDownNotLess less l pivot a (fuel + 1) b =
        if a < b && !ltAt less l (b - 1) pivot then scanDownNotLess less l pivot a fuel (b - 1) else b := rfl
    by_cases hc : (decide (a < b) && !ltAt less l (b - 1) pivot) = true
    · rw [hexp, if_pos hc]
      rw [Bool.and_eq_true, decide_eq_true_iff, Bool.not_eq_true'] at hc
      obtain ⟨hab, hlt⟩ := hc
      obtain ⟨i1, i2, i3, i4⟩ := ih (b - 1) (by omega) (by omega)
      refine ⟨i1, by omega, ?_, i4⟩
      intro k hk1 hk2
      by_cases hkb : k < b - 1
      · exact i3 k hk1 hkb
      · rw [show k = b - 1 by omega]; exact hlt
    · rw [hexp, if_neg hc]
      refine ⟨h1, le_refl b, fun k hk1 hk2 => absurd (lt_of_le_of_lt hk1 hk2) (lt_irrefl b), ?_⟩
      intro hab
      rw [Bool.and_eq_true, decide_eq_true_iff, Bool.not_eq_true'] at hc
      rcases Bool.eq_false_or_eq_true (ltAt less l (b - 1) pivot) with h | h
      · exact h
      · exact absurd ⟨hab, h⟩ hc

theorem condSwap_gV (sc : α → ℚ) (l : List α) (x y : Nat)
    (hx : x < l.length) (hy : y < l.length) :
    (if ltAt (scLess sc) l x y then lswap l x y else l).length = l.length ∧
    (∀ k, k ≠ x → k ≠ y →
      gV sc (if ltAt (scLess sc) l x y then lswap l x y else l) k = gV sc l k) ∧
    gV sc (if ltAt (scLess sc) l x y then lswap l x y else l) x
      = min (gV sc l x) (gV sc l y) ∧
    gV sc (if ltAt (scLess sc) l x y then lswap l x y else l) y
      = max (gV sc l x) (gV sc l y) := by
  by_cases h : ltAt (scLess sc) l x y = true
  · rw [if_pos h]
    rw [ltAt_eq_gV sc l x y hx hy, decide_eq_true_iff] at h
    have hxy : x ≠ y := fun he => absurd h (by rw [he]; exact lt_irrefl _)
    refine ⟨lswap_length l x y, ?_, ?_, ?_⟩
    · intro k hk1 hk2
      rw [gV_lswap sc l x y k hx hy, if_neg hk2, if_neg hk1]
    · rw [gV_lswap sc l x y x hx hy, if_neg hxy, if_pos rfl]
      rw [min_eq_right (le_of_lt h)]
    · rw [gV_lswap sc l x y y hx hy, if_pos rfl]
      rw [max_eq_left (le_of_lt h)]
  · rw [if_neg h]
    rw [ltAt_eq_gV sc l x y hx hy] at h
    have h2 : gV sc l x ≤ gV sc l y := by
      rcases Decidable.em (gV sc l y < gV sc l x) with h3 | h3
      · exact absurd (decide_eq_true h3) h
      · exact le_of_not_lt h3
    exact ⟨rfl, fun k _ _ => rfl, by rw [min_eq_left h2], by rw [max_eq_right h2]⟩

theorem condSwap_frame (less : α → α → Bool) (l : List α) (x y k : Nat)
    (hk1 : k ≠ x) (hk2 : k ≠ y) :
    (if ltAt less l x y then lswap l x y else l)[k]? = l[k]? := by
  split
  · exact lswap_getElem?_ne l x y k hk1 hk2
  · rfl

theorem medianOfThree_frame (less : α → α → Bool) (l : List α) (a b c k : Nat)
    (h1 : k ≠ a) (h2 : k ≠ b) (h3 : k ≠ c) :
    (medianOfThree less l a b c)[k]? = l[k]? := by
  unfold medianOfThree
  dsimp only
  rw [condSwap_frame less _ a b k h1 h2, condSwap_frame less _ c a k h3 h1,
    condSwap_frame less l a b k h1 h2]

theorem condSwap_length (less : α → α → Bool) (l : List α) (x y : Nat) :
    (if ltAt less l x y then lswap l x y else l).length = l.length := by
  split
  · exact lswap_length l x y
  · rfl

theorem medianOfThree_length (less : α → α → Bool) (l : List α) (a b c : Nat) :
    (medianOfThree less l a b c).length = l.length := by
  unfold medianOfThree
  dsimp only
  rw [condSwap_length, condSwap_length, condSwap_length]

/-- After `medianOfThree less l a b c` the value at `c` is a score
lower bound for the value at `a` (the "data[hi-1] >= pivot" sentinel that
doPivot's partition relies on). -/
theorem medianOfThree_post (sc : α → ℚ) (l : List α) (a b c : Nat)
    (hab : a ≠ b) (hac : a ≠ c) (hbc : b ≠ c)
    (ha : a < l.length) (hb : b < l.length) (hc : c < l.length) :
    gV sc (medianOfThree (scLess sc) l a b c) c
      ≤ gV sc (medianOfThree (scLess sc) l a b c) a := by
  unfold medianOfThree
  dsimp only
  obtain ⟨len1, oth1, hx1, hy1⟩ := condSwap_gV sc l a b ha hb
  set l1 := if ltAt (scLess sc) l a b then lswap l a b else l with hl1
  obtain ⟨len2, oth2, hx2, hy2⟩ := condSwap_gV sc l1 c a (by rw [len1]; exact hc) (by rw [len1]; exact ha)
  set l2 := if ltAt (scLess sc) l1 c a then lswap l1 c a else l1 with hl2
  obtain ⟨len3, oth3, hx3, hy3⟩ := condSwap_gV sc l2 a b (by rw [len2, len1]; exact ha) (by rw [len2, len1]; exact hb)
  rw [oth3 c (Ne.symm hac) (Ne.symm hbc), hx3]
  rw [hx2, hy2, oth2 b hbc (Ne.symm hab), hy1]
  apply le_min
  · exact min_le_max
  · exact le_trans (min_le_right _ _) (by rw [hx1]; exact le_trans (min_le_right _ _) (le_max_right _ _))

theorem partLoop_spec (sc : α → ℚ) (lo hi : Nat) (pv : ℚ) :
    ∀ fuel b c l bF cF lF,
      partLoop (scLess sc) lo fuel b c l = (bF, cF, lF) →
      hi ≤ l.length → lo + 2 ≤ hi → lo + 1 ≤ b → b ≤ c → c ≤ hi - 1 → c - b < fuel →
      gV sc l lo = pv →
      (∀ k, lo + 1 ≤ k → k < b → pv ≤ gV sc l k) →
      (∀ k, c ≤ k → k < hi - 1 → gV sc l k < pv) →
      b ≤ bF ∧ bF = cF ∧ cF ≤ c ∧ lF.length = l.length ∧ gFrame l lF b c ∧
      gV sc lF lo = pv ∧
      (∀ k, lo + 1 ≤ k → k < bF → pv ≤ gV sc lF k) ∧
      (∀ k, cF ≤ k → k < hi - 1 → gV sc lF k < pv) := by
  intro fuel
  induction fuel with
  | zero => intro b c l bF cF lF heq h1 h2 h3 h4 h5 h6; exact absurd h6 (by omega)
  | succ fuel ih =>
    intro b c l bF cF lF heq hlen hlohi hb hbc hc hfuel hpv hB hC
    have hlolen : lo < l.length := by omega
    set b1 := scanUpNotLess (scLess sc) l lo c (c + 1) b with hb1def
    set c1 := scanDownLess (scLess sc) l lo b1 (c + 1) c with hc1def
    obtain ⟨hb1a, hb1b, hb1scan, hb1stop⟩ :=
      scanUpNotLess_spec (scLess sc) l lo c (c + 1) b hbc (by omega)
    obtain ⟨hc1a, hc1b, hc1scan, hc1stop⟩ :=
      scanDownLess_spec (scLess sc) l lo b1 (c + 1) c hb1b (by omega)
    have hexp : partLoop (scLess sc) lo (fuel + 1) b c l =
        if c1 ≤ b1 then (b1, c1, l)
        else partLoop (scLess sc) lo fuel (b1 + 1) (c1 - 1) (lswap l b1 (c1 - 1)) := rfl
    -- converted scan facts
    have hscanB : ∀ k, b ≤ k → k < b1 → pv ≤ gV sc l k := by
      intro k hk1 hk2
      have hkl : k < l.length := by omega
      have hf := hb1scan k hk1 hk2
      rw [ltAt_eq_gV sc l lo k hlolen hkl] at hf
      rw [← hpv]
      exact le_of_not_lt (of_decide_eq_false hf)
    have hscanC : ∀ k, c1 ≤ k → k < c → gV sc l k < pv := by
      intro k hk1 hk2
      have hkl : k < l.length := by omega
      have hf := hc1scan k hk1 hk2
      rw [ltAt_eq_gV sc l lo k hlolen hkl] at hf
      rw [← hpv]
      exact of_decide_eq_true hf
    by_cases hle : c1 ≤ b1
    · rw [hexp, if_pos hle] at heq
      rw [Prod.mk.injEq, Prod.mk.injEq] at heq
      obtain ⟨e1, e2, e3⟩ := heq
      subst e1; subst e2; subst e3
      refine ⟨hb1a, by omega, hc1b, rfl, gFrame_refl l b c, hpv, ?_, ?_⟩
      · intro k hk1 hk2
        by_cases hkb : k < b
        · exact hB k hk1 hkb
        · exact hscanB k (by omega) hk2
      · intro k hk1 hk2
        by_cases hkc : k < c
        · exact hscanC k hk1 hkc
        · exact hC k (by omega) hk2
    · rw [hexp, if_neg hle] at heq
      have hb1c1 : b1 < c1 := by omega
      have hstopb : gV sc l b1 < pv := by
        have hf := hb1stop (by omega)
        have hkl : b1 < l.length := by omega
        rw [ltAt_eq_gV sc l lo b1 hlolen hkl] at hf
        rw [← hpv]
        exact of_decide_eq_true hf
      have hstopc : pv ≤ gV sc l (c1 - 1) := by
        have hf := hc1stop hb1c1
        have hkl : c1 - 1 < l.length := by omega
        rw [ltAt_eq_gV sc l lo (c1 - 1) hlolen hkl] at hf
        rw [← hpv]
        exact le_of_not_lt (of_decide_eq_false hf)
      have hsep : b1 + 2 ≤ c1 := by
        by_contra hcon
        have : c1 = b1 + 1 := by omega
        rw [this] at hstopc
        simp only [Nat.add_sub_cancel] at hstopc
        exact absurd (lt_of_le_of_lt hstopc hstopb) (lt_irrefl pv)
      have hbb1 : b1 < l.length := by omega
      have hcc1 : c1 - 1 < l.length := by omega
      obtain ⟨j1, j2, j3, j4, j5, j6, j7, j8⟩ :=
        ih (b1 + 1) (c1 - 1) (lswap l b1 (c1 - 1)) bF cF lF heq
          (by rw [lswap_length]; exact hlen) hlohi (by omega) (by omega) (by omega) (by omega)
          (by rw [gV_lswap sc l b1 (c1 - 1) lo hbb1 hcc1, if_neg (by omega : lo ≠ c1 - 1),
                if_neg (by omega : lo ≠ b1)]; exact hpv)
          (by
            intro k hk1 hk2
            rw [gV_lswap sc l b1 (c1 - 1) k hbb1 hcc1]
            by_cases hkb : k = b1
            · rw [if_neg (by omega : k ≠ c1 - 1), if_pos hkb]
              exact hstopc
            · rw [if_neg (by omega : k ≠ c1 - 1), if_neg hkb]
              by_cases hkb2 : k < b
              · exact hB k hk1 hkb2
              · exact hscanB k (by omega) (by omega))
          (by
            intro k hk1 hk2
            rw [gV_lswap sc l b1 (c1 - 1) k hbb1 hcc1]
            by_cases hkc : k = c1 - 1
            · rw [if_pos hkc]
              exact hstopb
            · rw [if_neg hkc, if_neg (by omega : k ≠ b1)]
              by_cases hkc2 : k < c
              · exact hscanC k (by omega) hkc2
              · exact hC k (by omega) hk2)
      refine ⟨by omega, j2, by omega, by rw [j4, lswap_length], ?_, j6, j7, j8⟩
      exact gFrame_trans l (lswap l b1 (c1 - 1)) lF b c
        (gFrame_lswap l b c b1 (c1 - 1) (by omega) (by omega) (by omega) (by omega))
        (gFrame_mono (lswap l b1 (c1 - 1)) lF b c (b1 + 1) (c1 - 1) j5 (by omega) (by omega))

theorem protLoop_spec (sc : α → ℚ) (lo : Nat) (pv : ℚ) :
    ∀ fuel a b l aF bF lF,
      protLoop (scLess sc) lo fuel a b l = (aF, bF, lF) →
      b ≤ l.length → lo < a →
      a ≤ b → b - a < fuel →
      gV sc l lo = pv →
      (∀ k, a ≤ k → k < b → pv ≤ gV sc l k) →
      a ≤ aF ∧ aF = bF ∧ bF ≤ b ∧ lF.length = l.length ∧ gFrame l lF a b ∧
      gV sc lF lo = pv ∧
      (∀ k, a ≤ k → k < aF → pv < gV sc lF k) ∧
      (∀ k, bF ≤ k → k < b → gV sc lF k = pv) := by
  intro fuel
  induction fuel with
  | zero => intro a b l aF bF lF heq h1 h2 h3 h4; exact absurd h4 (by omega)
  | succ fuel ih =>
    intro a b l aF bF lF heq hlen hloa hab hfuel hpv hS
    have hlolen : lo < l.length := by omega
    set b1 := scanDownNotLess (scLess sc) l lo a (b + 1) b with hb1def
    set a1 := scanUpLess (scLess sc) l lo b1 (b1 + 1) a with ha1def
    obtain ⟨hb1a, hb1b, hb1scan, hb1stop⟩ :=
      scanDownNotLess_spec (scLess sc) l lo a (b + 1) b hab (by omega)
    obtain ⟨ha1a, ha1b, ha1scan, ha1stop⟩ :=
      scanUpLess_spec (scLess sc) l lo b1 (b1 + 1) a hb1a (by omega)
    have hexp : protLoop (scLess sc) lo (fuel + 1) a b l =
        if b1 ≤ a1 then (a1, b1, l)
        else protLoop (scLess sc) lo fuel (a1 + 1) (b1 - 1) (lswap l a1 (b1 - 1)) := rfl
    have hscanA : ∀ k, a ≤ k → k < a1 → pv < gV sc l k := by
      intro k hk1 hk2
      have hkl : k < l.length := by omega
      have hf := ha1scan k hk1 hk2
      rw [ltAt_eq_gV sc l k lo hkl hlolen] at hf
      rw [← hpv]
      exact of_decide_eq_true hf
    have hscanBdown : ∀ k, b1 ≤ k → k < b → gV sc l k = pv := by
      intro k hk1 hk2
      have hkl : k < l.length := by omega
      have hf := hb1scan k hk1 hk2
      rw [ltAt_eq_gV sc l k lo hkl hlolen] at hf
      have h1 : gV sc l k ≤ pv := by
        rw [← hpv]
        exact le_of_not_lt (of_decide_eq_false hf)
      exact le_antisymm h1 (hS k (by omega) hk2)
    by_cases hle : b1 ≤ a1
    · rw [hexp, if_pos hle] at heq
      rw [Prod.mk.injEq, Prod.mk.injEq] at heq
      obtain ⟨e1, e2, e3⟩ := heq
      subst e1; subst e2; subst e3
      exact ⟨ha1a, by omega, hb1b, rfl, gFrame_refl l a b, hpv, hscanA, hscanBdown⟩
    · rw [hexp, if_neg hle] at heq
      have ha1b1 : a1 < b1 := by omega
      have hstopa : gV sc l a1 = pv := by
        have hf := ha1stop ha1b1
        have hkl : a1 < l.length := by omega
        rw [ltAt_eq_gV sc l a1 lo hkl hlolen] at hf
        have h1 : gV sc l a1 ≤ pv := by
          rw [← hpv]
          exact le_of_not_lt (of_decide_eq_false hf)
        exact le_antisymm h1 (hS a1 (by omega) (by omega))
      have hstopb : pv < gV sc l (b1 - 1) := by
        have hf := hb1stop (by omega)
        have hkl : b1 - 1 < l.length := by omega
        rw [ltAt_eq_gV sc l (b1 - 1) lo hkl hlolen] at hf
        rw [← hpv]
        exact of_decide_eq_true hf
      have hsep : a1 + 2 ≤ b1 := by
        by_contra hcon
        have hbe : b1 = a1 + 1 := by omega
        rw [hbe] at hstopb
        simp only [Nat.add_sub_cancel] at hstopb
        rw [hstopa] at hstopb
        exact absurd hstopb (lt_irrefl pv)
      have haal : a1 < l.length := by omega
      have hbbl : b1 - 1 < l.length := by omega
      obtain ⟨j1, j2, j3, j4, j5, j6, j7, j8⟩ :=
        ih (a1 + 1) (b1 - 1) (lswap l a1 (b1 - 1)) aF bF lF heq
          (by rw [lswap_length]; omega) (by omega) (by omega) (by omega)
          (by rw [gV_lswap sc l a1 (b1 - 1) lo haal hbbl, if_neg (by omega : lo ≠ b1 - 1),
                if_neg (by omega : lo ≠ a1)]; exact hpv)
          (by
            intro k hk1 hk2
            rw [gV_lswap sc l a1 (b1 - 1) k haal hbbl,
              if_neg (by omega : k ≠ b1 - 1), if_neg (by omega : k ≠ a1)]
            exact hS k (by omega) (by omega))
      have hframe2 : gFrame l lF a b :=
        gFrame_trans l (lswap l a1 (b1 - 1)) lF a b
          (gFrame_lswap l a b a1 (b1 - 1) (by omega) (by omega) (by omega) (by omega))
          (gFrame_mono (lswap l a1 (b1 - 1)) lF a b (a1 + 1) (b1 - 1) j5 (by omega) (by omega))
      refine ⟨by omega, j2, by omega, by rw [j4, lswap_length], hframe2, j6, ?_, ?_⟩
      · intro k hk1 hk2
        by_cases hka : k < a1 + 1
        · have hout : lF[k]? = (lswap l a1 (b1 - 1))[k]? := j5 k (by omega)
          have : gV sc lF k = gV sc (lswap l a1 (b1 - 1)) k := by unfold gV; rw [hout]
          rw [this, gV_lswap sc l a1 (b1 - 1) k haal hbbl, if_neg (by omega : k ≠ b1 - 1)]
          by_cases hka2 : k = a1
          · rw [if_pos hka2]
            exact hstopb
          · rw [if_neg hka2]
            exact hscanA k hk1 (by omega)
        · exact j7 k (by omega) hk2
      · intro k hk1 hk2
        by_cases hkb : k < b1 - 1
        · exact j8 k (by omega) hkb
        · have hout : lF[k]? = (lswap l a1 (b1 - 1))[k]? := j5 k (by omega)
          have hgv : gV sc lF k = gV sc (lswap l a1 (b1 - 1)) k := by unfold gV; rw [hout]
          rw [hgv, gV_lswap sc l a1 (b1 - 1) k haal hbbl]
          by_cases hkb2 : k = b1 - 1
          · rw [if_pos hkb2]
            exact hstopa
          · rw [if_neg hkb2, if_neg (by omega : k ≠ a1)]
            exact hscanBdown k (by omega) hk2

theorem doPivot_final (sc : α → ℚ) (lo hi a0 b3 c3 : Nat) (l3 : List α) (protB : Bool) (pv : ℚ) :
    ∀ aX b4 l4,
      (if protB then protLoop (scLess sc) lo (hi + 1) a0 b3 l3 else (a0, b3, l3)) = (aX, b4, l4) →
      hi ≤ l3.length → lo + 1 ≤ a0 → a0 ≤ b3 → b3 ≤ c3 → c3 ≤ hi →
      (∀ k, lo + 1 ≤ k → k < b3 → pv ≤ gV sc l3 k) →
      (∀ k, b3 ≤ k → k < c3 → gV sc l3 k = pv) →
      (∀ k, c3 ≤ k → k < hi → gV sc l3 k ≤ pv) →
      gV sc l3 lo = pv →
      lo ≤ b4 - 1 ∧ b4 - 1 ≤ c3 ∧ a0 ≤ b4 ∧
      (lswap l4 lo (b4 - 1)).length = l3.length ∧
      gFrame l3 (lswap l4 lo (b4 - 1)) lo hi ∧
      (∀ k, lo ≤ k → k < b4 - 1 → pv ≤ gV sc (lswap l4 lo (b4 - 1)) k) ∧
      (∀ k, b4 - 1 ≤ k → k < c3 → gV sc (lswap l4 lo (b4 - 1)) k = pv) ∧
      (∀ k, c3 ≤ k → k < hi → gV sc (lswap l4 lo (b4 - 1)) k ≤ pv) := by
  intro aX b4 l4 heq hlen hlo h0 h1 h2 hQ2 hQ3 hQ4 hQ5
  -- facts about (b4, l4) in the two protect cases, unified:
  have hmain : a0 ≤ b4 ∧ b4 ≤ b3 ∧ l4.length = l3.length ∧ gFrame l3 l4 a0 b3 ∧
      gV sc l4 lo = pv ∧
      (∀ k, lo + 1 ≤ k → k < b4 → pv ≤ gV sc l4 k) ∧
      (∀ k, b4 ≤ k → k < c3 → gV sc l4 k = pv) := by
    cases protB with
    | false =>
      rw [if_neg (by simp)] at heq
      rw [Prod.mk.injEq, Prod.mk.injEq] at heq
      obtain ⟨e1, e2, e3⟩ := heq
      subst e2; subst e3
      exact ⟨h0, le_refl _, rfl, gFrame_refl _ _ _, hQ5, hQ2, hQ3⟩
    | true =>
      rw [if_pos rfl] at heq
      obtain ⟨j1, j2, j3, j4, j5, j6, j7, j8⟩ :=
        protLoop_spec sc lo pv (hi + 1) a0 b3 l3 aX b4 l4 heq
          (by omega) (by omega) h0 (by omega) hQ5
          (fun k hk1 hk2 => hQ2 k (by omega) hk2)
      refine ⟨by omega, by omega, j4, j5, j6, ?_, ?_⟩
      · intro k hk1 hk2
        by_cases hka : k < a0
        · have : gV sc l4 k = gV sc l3 k := gV_frame sc l3 l4 a0 b3 k j5 (Or.inl hka)
          rw [this]
          exact hQ2 k hk1 (by omega)
        · exact le_of_lt (j7 k (by omega) (by omega))
      · intro k hk1 hk2
        by_cases hkb : k < b3
        · exact j8 k (by omega) hkb
        · have : gV sc l4 k = gV sc l3 k := gV_frame sc l3 l4 a0 b3 k j5 (Or.inr (by omega))
          rw [this]
          exact hQ3 k (by omega) hk2
  obtain ⟨m1, m2, m3, m4, m5, m6, m7⟩ := hmain
  have hlol : lo < l4.length := by omega
  have hb41 : b4 - 1 < l4.length := by omega
  have hswlen : (lswap l4 lo (b4 - 1)).length = l3.length := by rw [lswap_length]; exact m3
  refine ⟨by omega, by omega, m1, hswlen, ?_, ?_, ?_, ?_⟩
  · -- frame on [lo, hi)
    apply gFrame_trans l3 l4 (lswap l4 lo (b4 - 1)) lo hi
      (gFrame_mono l3 l4 lo hi a0 b3 m4 (by omega) (by omega))
    exact gFrame_lswap l4 lo hi lo (b4 - 1) (by omega) (by omega) (by omega) (by omega)
  · -- left region of the result
    intro k hk1 hk2
    rw [gV_lswap sc l4 lo (b4 - 1) k hlol hb41, if_neg (by omega : k ≠ b4 - 1)]
    by_cases hklo : k = lo
    · rw [if_pos hklo]
      -- value from position b4 - 1, which is > lo here since k = lo < b4 - 1
      exact m6 (b4 - 1) (by omega) (by omega)
    · rw [if_neg hklo]
      exact m6 k (by omega) (by omega)
  · -- middle region of the result
    intro k hk1 hk2
    rw [gV_lswap sc l4 lo (b4 - 1) k hlol hb41]
    by_cases hkb : k = b4 - 1
    · rw [if_pos hkb]
      exact m5
    · rw [if_neg hkb, if_neg (by omega : k ≠ lo)]
      exact m7 k (by omega) hk2
  · -- right region of the result
    intro k hk1 hk2
    rw [gV_lswap sc l4 lo (b4 - 1) k hlol hb41,
      if_neg (by omega : k ≠ b4 - 1), if_neg (by omega : k ≠ lo)]
    rw [gV_frame sc l3 l4 a0 b3 k m4 (Or.inr (by omega))]
    exact hQ4 k hk1 hk2

theorem doPivot_assemble (sc : α → ℚ) (l l3 : List α) (lo hi a0 b3 c3 : Nat)
    (protB : Bool) (pv : ℚ) :
    ∀ aX b4 l4 mlo mhi (lF : List α),
      (if protB then protLoop (scLess sc) lo (hi + 1) a0 b3 l3 else (a0, b3, l3)) = (aX, b4, l4) →
      ((b4 - 1, c3, lswap l4 lo (b4 - 1)) : Nat × Nat × List α) = (mlo, mhi, lF) →
      hi ≤ l3.length → l3.length = l.length → lo + 1 ≤ a0 → a0 ≤ b3 → b3 ≤ c3 → c3 ≤ hi →
      gFrame l l3 lo hi →
      (∀ k, lo + 1 ≤ k → k < b3 → pv ≤ gV sc l3 k) →
      (∀ k, b3 ≤ k → k < c3 → gV sc l3 k = pv) →
      (∀ k, c3 ≤ k → k < hi → gV sc l3 k ≤ pv) →
      gV sc l3 lo = pv →
      lo ≤ mlo ∧ mlo ≤ mhi ∧ mhi ≤ hi ∧ lF.length = l.length ∧ gFrame l lF lo hi ∧
      ∃ pv2 : ℚ,
        (∀ k, lo ≤ k → k < mlo → pv2 ≤ gV sc lF k) ∧
        (∀ k, mlo ≤ k → k < mhi → gV sc lF k = pv2) ∧
        (∀ k, mhi ≤ k → k < hi → gV sc lF k ≤ pv2) := by
  intro aX b4 l4 mlo mhi lF habl htrip hl3 hl3l hloa h0 h1 h2 hfr hQ2 hQ3 hQ4 hQ5
  rw [Prod.mk.injEq, Prod.mk.injEq] at htrip
  obtain ⟨e1, e2, e3⟩ := htrip
  subst e1; subst e2; subst e3
  obtain ⟨g1, g2, g3, g4, g5, g6, g7, g8⟩ :=
    doPivot_final sc lo hi a0 b3 c3 l3 protB pv aX b4 l4 habl hl3 hloa h0 h1 h2 hQ2 hQ3 hQ4 hQ5
  exact ⟨g1, by omega, by omega, by rw [g4, hl3l], gFrame_trans l l3 _ lo hi hfr g5,
    pv, g6, g7, g8⟩

set_option maxHeartbeats 2000000 in
theorem doPivot_spec (sc : α → ℚ) (l : List α) (lo hi mlo mhi : Nat) (lF : List α)
    (heq : doPivot (scLess sc) l lo hi = (mlo, mhi, lF))
    (hlen : hi ≤ l.length) (hrange : 12 < hi - lo) :
    lo ≤ mlo ∧ mlo ≤ mhi ∧ mhi ≤ hi ∧ lF.length = l.length ∧
    gFrame l lF lo hi ∧
    ∃ pv : ℚ,
      (∀ k, lo ≤ k → k < mlo → pv ≤ gV sc lF k) ∧
      (∀ k, mlo ≤ k → k < mhi → gV sc lF k = pv) ∧
      (∀ k, mhi ≤ k → k < hi → gV sc lF k ≤ pv) := by
  unfold doPivot at heq
  simp only [] at heq
  set m := lo + (hi - lo) / 2 with hm
  set l0 := (if 40 < hi - lo then
      medianOfThree (scLess sc)
        (medianOfThree (scLess sc)
          (medianOfThree (scLess sc) l lo (lo + (hi - lo) / 8) (lo + 2 * ((hi - lo) / 8)))
          m (m - (hi - lo) / 8) (m + (hi - lo) / 8))
        (hi - 1) (hi - 1 - (hi - lo) / 8) (hi - 1 - 2 * ((hi - lo) / 8))
    else l) with hl0
  set l1 := medianOfThree (scLess sc) l0 lo m (hi - 1) with hl1
  set a0 := scanUpLess (scLess sc) l1 lo (hi - 1) hi (lo + 1) with ha0
  -- pivot-selection lengths and frame
  have hl0len : l0.length = l.length := by
    rw [hl0]
    split
    · rw [medianOfThree_length, medianOfThree_length, medianOfThree_length]
    · rfl
  have hl1len : l1.length = l.length := by
    rw [hl1, medianOfThree_length, hl0len]
  have hf0 : ∀ k, k < lo ∨ hi ≤ k → l0[k]? = l[k]? := by
    intro k hk
    rw [hl0]
    split
    · rename_i hnin
      rw [medianOfThree_frame _ _ _ _ _ k (by omega) (by omega) (by omega),
        medianOfThree_frame _ _ _ _ _ k (by omega) (by omega) (by omega),
        medianOfThree_frame _ _ _ _ _ k (by omega) (by omega) (by omega)]
    · rfl
  have hframe1 : gFrame l l1 lo hi := by
    intro k hk
    rw [hl1, medianOfThree_frame _ _ _ _ _ k (by omega) (by omega) (by omega)]
    exact hf0 k hk
  have hmed0 : gV sc l1 (hi - 1) ≤ gV sc l1 lo := by
    rw [hl1]
    exact medianOfThree_post sc l0 lo m (hi - 1) (by omega) (by omega) (by omega)
      (by omega) (by omega) (by omega)
  set pv := gV sc l1 lo with hpvdef
  obtain ⟨hs1, hs2, hs3, _⟩ :=
    scanUpLess_spec (scLess sc) l1 lo (hi - 1) hi (lo + 1) (by omega) (by omega)
  have hstrict1 : ∀ k, lo + 1 ≤ k → k < a0 → pv < gV sc l1 k := by
    intro k hk1 hk2
    have hf := hs3 k hk1 hk2
    rw [ltAt_eq_gV sc l1 k lo (by omega) (by omega)] at hf
    exact of_decide_eq_true hf
  rcases hr : partLoop (scLess sc) lo (hi + 1) a0 (hi - 1) l1 with ⟨bE, cE, l2⟩
  rw [hr] at heq
  dsimp only at heq
  obtain ⟨hp1, hp2, hp3, hp4, hp5f, hp6, hp7, hp8⟩ :=
    partLoop_spec sc lo hi pv (hi + 1) a0 (hi - 1) l1 bE cE l2 hr
      (by omega) (by omega) hs1 hs2 (le_refl _) (by omega) rfl
      (fun k hk1 hk2 => le_of_lt (hstrict1 k hk1 hk2))
      (fun k hk1 hk2 => absurd hk2 (by omega))
  have hl2len : l2.length = l.length := by rw [hp4, hl1len]
  have hil2 : hi ≤ l2.length := by omega
  have hframe2 : gFrame l l2 lo hi :=
    gFrame_trans l l1 l2 lo hi hframe1
      (gFrame_mono l1 l2 lo hi a0 (hi - 1) hp5f (by omega) (by omega))
  have hlast2 : gV sc l2 (hi - 1) ≤ pv := by
    rw [gV_frame sc l1 l2 a0 (hi - 1) (hi - 1) hp5f (Or.inr (le_refl _))]
    exact hmed0
  have hstrict2 : ∀ k, lo + 1 ≤ k → k < a0 → pv < gV sc l2 k := by
    intro k hk1 hk2
    rw [gV_frame sc l1 l2 a0 (hi - 1) k hp5f (Or.inl hk2)]
    exact hstrict1 k hk1 hk2
  by_cases hcond : (!decide (hi - cE < 5) && decide (hi - cE < (hi - lo) / 4)) = true
  · -- duplicate tests branch
    rw [if_pos hcond] at heq
    dsimp only at heq
    rw [Bool.and_eq_true, Bool.not_eq_true', decide_eq_false_iff_not, decide_eq_true_iff] at hcond
    obtain ⟨h5, h4⟩ := hcond
    have hcE1 : cE + 5 ≤ hi := by omega
    have hcE2 : lo + 10 ≤ cE := by omega
    have hQ4base : ∀ k, cE ≤ k → k < hi → gV sc l2 k ≤ pv := by
      intro k hk1 hk2
      by_cases hklast : k < hi - 1
      · exact le_of_lt (hp8 k hk1 hklast)
      · rw [show k = hi - 1 by omega]
        exact hlast2
    have hltconv : ∀ (lx : List α) (k : Nat), lx.length = l.length → k < hi →
        gV sc lx lo = pv → ltAt (scLess sc) lx k lo = false → gV sc lx k ≤ pv := by
      intro lx k hlx hk hlo hf
      rw [ltAt_eq_gV sc lx k lo (by omega) (by omega), hlo] at hf
      exact le_of_not_lt (of_decide_eq_false hf)
    by_cases t1 : (!ltAt (scLess sc) l2 lo (hi - 1)) = true
    · rw [if_pos t1] at heq
      dsimp only at heq
      rw [Bool.not_eq_true'] at t1
      have hhiv : gV sc l2 (hi - 1) = pv := by
        have h := t1
        rw [ltAt_eq_gV sc l2 lo (hi - 1) (by omega) (by omega), hp6] at h
        exact le_antisymm hlast2 (le_of_not_lt (of_decide_eq_false h))
      have hcEv : gV sc l2 cE < pv := hp8 cE (le_refl _) (by omega)
      have hcEl : cE < l2.length := by omega
      have hhil : hi - 1 < l2.length := by omega
      set lA := lswap l2 cE (hi - 1) with hlAdef
      have hlAlen : lA.length = l.length := by rw [hlAdef, lswap_length, hl2len]
      have hUmid : ∀ k, bE ≤ k → k < cE + 1 → gV sc lA k = pv := by
        intro k hk1 hk2
        have hk : k = cE := by omega
        rw [hlAdef, hk, gV_lswap sc l2 cE (hi - 1) cE hcEl hhil,
          if_neg (by omega : cE ≠ hi - 1), if_pos rfl]
        exact hhiv
      have hUright : ∀ k, cE + 1 ≤ k → k < hi → gV sc lA k ≤ pv := by
        intro k hk1 hk2
        rw [hlAdef, gV_lswap sc l2 cE (hi - 1) k hcEl hhil]
        by_cases hk : k = hi - 1
        · rw [if_pos hk]
          exact le_of_lt hcEv
        · rw [if_neg hk, if_neg (by omega : k ≠ cE)]
          exact hQ4base k (by omega) hk2
      have hUleft : ∀ k, lo + 1 ≤ k → k < bE → pv ≤ gV sc lA k := by
        intro k hk1 hk2
        rw [hlAdef, gV_lswap sc l2 cE (hi - 1) k hcEl hhil,
          if_neg (by omega : k ≠ hi - 1), if_neg (by omega : k ≠ cE)]
        exact hp7 k hk1 hk2
      have hUstrict : ∀ k, lo + 1 ≤ k → k < a0 → pv < gV sc lA k := by
        intro k hk1 hk2
        rw [hlAdef, gV_lswap sc l2 cE (hi - 1) k hcEl hhil,
          if_neg (by omega : k ≠ hi - 1), if_neg (by omega : k ≠ cE)]
        exact hstrict2 k hk1 hk2
      have hUlo : gV sc lA lo = pv := by
        rw [hlAdef, gV_lswap sc l2 cE (hi - 1) lo hcEl hhil,
          if_neg (by omega : lo ≠ hi - 1), if_neg (by omega : lo ≠ cE)]
        exact hp6
      have hUframe : gFrame l lA lo hi := by
        rw [hlAdef]
        exact gFrame_trans l l2 _ lo hi hframe2
          (gFrame_lswap l2 lo hi cE (hi - 1) (by omega) (by omega) (by omega) (by omega))
      by_cases t2 : (!ltAt (scLess sc) lA (bE - 1) lo) = true
      · rw [if_pos t2] at heq
        dsimp only at heq
        rw [Bool.not_eq_true'] at t2
        have ht2v : gV sc lA (bE - 1) ≤ pv := hltconv lA (bE - 1) hlAlen (by omega) hUlo t2
        have ha0bE : a0 ≤ bE - 1 := by
          by_contra hcon
          have hstr : pv < gV sc lA (bE - 1) := hUstrict (bE - 1) (by omega) (by omega)
          linarith
        have hVmid : ∀ k, bE - 1 ≤ k → k < cE + 1 → gV sc lA k = pv := by
          intro k hk1 hk2
          by_cases hk : k = bE - 1
          · rw [hk]
            exact le_antisymm ht2v (hUleft (bE - 1) (by omega) (by omega))
          · exact hUmid k (by omega) hk2
        by_cases t3 : (!ltAt (scLess sc) lA m lo) = true
        · rw [if_pos t3] at heq
          dsimp only at heq
          rw [Bool.not_eq_true'] at t3
          have hmlt : m < bE - 1 - 1 := by omega
          have ht3v : gV sc lA m ≤ pv := hltconv lA m hlAlen (by omega) hUlo t3
          have hma0 : a0 ≤ m := by
            by_contra hcon
            have hstr : pv < gV sc lA m := hUstrict m (by omega) (by omega)
            linarith
          have hmv : gV sc lA m = pv := le_antisymm ht3v (hUleft m (by omega) (by omega))
          have hb2v : pv ≤ gV sc lA (bE - 1 - 1) := hUleft (bE - 1 - 1) (by omega) (by omega)
          have hml : m < lA.length := by omega
          have hbl : bE - 1 - 1 < lA.length := by omega
          set l3 := lswap lA m (bE - 1 - 1) with hl3def
          rcases habl : (if decide (1 < 1 + 1 + 1) = true then
              protLoop (scLess sc) lo (hi + 1) a0 (bE - 1 - 1) l3
            else (a0, bE - 1 - 1, l3)) with ⟨aX, b4, l4⟩
          rw [habl] at heq
          dsimp only at heq
          refine doPivot_assemble sc l l3 lo hi a0 (bE - 1 - 1) (cE + 1)
            (decide (1 < 1 + 1 + 1)) pv aX b4 l4 mlo mhi lF habl heq
            (by rw [hl3def, lswap_length]; omega) (by rw [hl3def, lswap_length]; omega)
            hs1 (by omega) (by omega) (by omega) ?_ ?_ ?_ ?_ ?_
          · rw [hl3def]
            exact gFrame_trans l lA _ lo hi hUframe
              (gFrame_lswap lA lo hi m (bE - 1 - 1) (by omega) (by omega) (by omega) (by omega))
          · intro k hk1 hk2
            rw [hl3def, gV_lswap sc lA m (bE - 1 - 1) k hml hbl,
              if_neg (by omega : k ≠ bE - 1 - 1)]
            by_cases hkm : k = m
            · rw [if_pos hkm]
              exact hb2v
            · rw [if_neg hkm]
              exact hUleft k hk1 (by omega)
          · intro k hk1 hk2
            rw [hl3def, gV_lswap sc lA m (bE - 1 - 1) k hml hbl]
            by_cases hkb : k = bE - 1 - 1
            · rw [if_pos hkb]
              exact hmv
            · rw [if_neg hkb, if_neg (by omega : k ≠ m)]
              exact hVmid k (by omega) hk2
          · intro k hk1 hk2
            rw [hl3def, gV_lswap sc lA m (bE - 1 - 1) k hml hbl,
              if_neg (by omega : k ≠ bE - 1 - 1), if_neg (by omega : k ≠ m)]
            exact hUright k hk1 hk2
          · rw [hl3def, gV_lswap sc lA m (bE - 1 - 1) lo hml hbl,
              if_neg (by omega : lo ≠ bE - 1 - 1), if_neg (by omega : lo ≠ m)]
            exact hUlo
        · rw [if_neg t3] at heq
          dsimp only at heq
          rcases habl : (if decide (1 < 1 + 1) = true then
              protLoop (scLess sc) lo (hi + 1) a0 (bE - 1) lA
            else (a0, bE - 1, lA)) with ⟨aX, b4, l4⟩
          rw [habl] at heq
          dsimp only at heq
          exact doPivot_assemble sc l lA lo hi a0 (bE - 1) (cE + 1)
            (decide (1 < 1 + 1)) pv aX b4 l4 mlo mhi lF habl heq
            (by omega) hlAlen hs1 ha0bE (by omega) (by omega) hUframe
            (fun k hk1 hk2 => hUleft k hk1 (by omega)) hVmid hUright hUlo
      · rw [if_neg t2] at heq
        dsimp only at heq
        by_cases t3 : (!ltAt (scLess sc) lA m lo) = true
        · rw [if_pos t3] at heq
          dsimp only at heq
          rw [Bool.not_eq_true'] at t3
          have hmlt : m < bE - 1 := by omega
          have ht3v : gV sc lA m ≤ pv := hltconv lA m hlAlen (by omega) hUlo t3
          have hma0 : a0 ≤ m := by
            by_contra hcon
            have hstr : pv < gV sc lA m := hUstrict m (by omega) (by omega)
            linarith
          have hmv : gV sc lA m = pv := le_antisymm ht3v (hUleft m (by omega) (by omega))
          have hb1v : pv ≤ gV sc lA (bE - 1) := hUleft (bE - 1) (by omega) (by omega)
          have hml : m < lA.length := by omega
          have hbl : bE - 1 < lA.length := by omega
          set l3 := lswap lA m (bE - 1) with hl3def
          rcases habl : (if decide (1 < 1 + 1) = true then
              protLoop (scLess sc) lo (hi + 1) a0 (bE - 1) l3
            else (a0, bE - 1, l3)) with ⟨aX, b4, l4⟩
          rw [habl] at heq
          dsimp only at heq
          refine doPivot_assemble sc l l3 lo hi a0 (bE - 1) (cE + 1)
            (decide (1 < 1 + 1)) pv aX b4 l4 mlo mhi lF habl heq
            (by rw [hl3def, lswap_length]; omega) (by rw [hl3def, lswap_length]; omega)
            hs1 (by omega) (by omega) (by omega) ?_ ?_ ?_ ?_ ?_
          · rw [hl3def]
            exact gFrame_trans l lA _ lo hi hUframe
              (gFrame_lswap lA lo hi m (bE - 1) (by omega) (by omega) (by omega) (by omega))
          · intro k hk1 hk2
            rw [hl3def, gV_lswap sc lA m (bE - 1) k hml hbl,
              if_neg (by omega : k ≠ bE - 1)]
            by_cases hkm : k = m
            · rw [if_pos hkm]
              exact hb1v
            · rw [if_neg hkm]
              exact hUleft k hk1 (by omega)
          · intro k hk1 hk2
            rw [hl3def, gV_lswap sc lA m (bE - 1) k hml hbl]
            by_cases hkb : k = bE - 1
            · rw [if_pos hkb]
              exact hmv
            · rw [if_neg hkb, if_neg (by omega : k ≠ m)]
              exact hUmid k (by omega) hk2
          · intro k hk1 hk2
            rw [hl3def, gV_lswap sc lA m (bE - 1) k hml hbl,
              if_neg (by omega : k ≠ bE - 1), if_neg (by omega : k ≠ m)]
            exact hUright k hk1 hk2
          · rw [hl3def, gV_lswap sc lA m (bE - 1) lo hml hbl,
              if_neg (by omega : lo ≠ bE - 1), if_neg (by omega : lo ≠ m)]
            exact hUlo
        · rw [if_neg t3] at heq
          dsimp only at heq
          rcases habl : (if decide (1 < 1) = true then
              protLoop (scLess sc) lo (hi + 1) a0 bE lA
            else (a0, bE, lA)) with ⟨aX, b4, l4⟩
          rw [habl] at heq
          dsimp only at heq
          exact doPivot_assemble sc l lA lo hi a0 bE (cE + 1)
            (decide (1 < 1)) pv aX b4 l4 mlo mhi lF habl heq
            (by omega) hlAlen hs1 hp1 (by omega) (by omega) hUframe
            hUleft hUmid hUright hUlo
    · rw [if_neg t1] at heq
      dsimp only at heq
      have hmid0 : ∀ k, bE ≤ k → k < cE → gV sc l2 k = pv := by
        intro k hk1 hk2
        exact absurd hk2 (by omega)
      by_cases t2 : (!ltAt (scLess sc) l2 (bE - 1) lo) = true
      · rw [if_pos t2] at heq
        dsimp only at heq
        rw [Bool.not_eq_true'] at t2
        have ht2v : gV sc l2 (bE - 1) ≤ pv := hltconv l2 (bE - 1) hl2len (by omega) hp6 t2
        have ha0bE : a0 ≤ bE - 1 := by
          by_contra hcon
          have hstr : pv < gV sc l2 (bE - 1) := hstrict2 (bE - 1) (by omega) (by omega)
          linarith
        have hVmid : ∀ k, bE - 1 ≤ k → k < cE → gV sc l2 k = pv := by
          intro k hk1 hk2
          have hk : k = bE - 1 := by omega
          rw [hk]
          exact le_antisymm ht2v (hp7 (bE - 1) (by omega) (by omega))
        by_cases t3 : (!ltAt (scLess sc) l2 m lo) = true
        · rw [if_pos t3] at heq
          dsimp only at heq
          rw [Bool.not_eq_true'] at t3
          have hmlt : m < bE - 1 - 1 := by omega
          have ht3v : gV sc l2 m ≤ pv := hltconv l2 m hl2len (by omega) hp6 t3
          have hma0 : a0 ≤ m := by
            by_contra hcon
            have hstr : pv < gV sc l2 m := hstrict2 m (by omega) (by omega)
            linarith
          have hmv : gV sc l2 m = pv := le_antisymm ht3v (hp7 m (by omega) (by omega))
          have hb2v : pv ≤ gV sc l2 (bE - 1 - 1) := hp7 (bE - 1 - 1) (by omega) (by omega)
          have hml : m < l2.length := by omega
          have hbl : bE - 1 - 1 < l2.length := by omega
          set l3 := lswap l2 m (bE - 1 - 1) with hl3def
          rcases habl : (if decide (1 < 0 + 1 + 1) = true then
              protLoop (scLess sc) lo (hi + 1) a0 (bE - 1 - 1) l3
            else (a0, bE - 1 - 1, l3)) with ⟨aX, b4, l4⟩
          rw [habl] at heq
          dsimp only at heq
          refine doPivot_assemble sc l l3 lo hi a0 (bE - 1 - 1) cE
            (decide (1 < 0 + 1 + 1)) pv aX b4 l4 mlo mhi lF habl heq
            (by rw [hl3def, lswap_length]; omega) (by rw [hl3def, lswap_length]; omega)
            hs1 (by omega) (by omega) (by omega) ?_ ?_ ?_ ?_ ?_
          · rw [hl3def]
            exact gFrame_trans l l2 _ lo hi hframe2
              (gFrame_lswap l2 lo hi m (bE - 1 - 1) (by omega) (by omega) (by omega) (by omega))
          · intro k hk1 hk2
            rw [hl3def, gV_lswap sc l2 m (bE - 1 - 1) k hml hbl,
              if_neg (by omega : k ≠ bE - 1 - 1)]
            by_cases hkm : k = m
            · rw [if_pos hkm]
              exact hb2v
            · rw [if_neg hkm]
              exact hp7 k hk1 (by omega)
          · intro k hk1 hk2
            rw [hl3def, gV_lswap sc l2 m (bE - 1 - 1) k hml hbl]
            by_cases hkb : k = bE - 1 - 1
            · rw [if_pos hkb]
              exact hmv
            · rw [if_neg hkb, if_neg (by omega : k ≠ m)]
              exact hVmid k (by omega) hk2
          · intro k hk1 hk2
            rw [hl3def, gV_lswap sc l2 m (bE - 1 - 1) k hml hbl,
              if_neg (by omega : k ≠ bE - 1 - 1), if_neg (by omega : k ≠ m)]
            exact hQ4base k hk1 hk2
          · rw [hl3def, gV_lswap sc l2 m (bE - 1 - 1) lo hml hbl,
              if_neg (by omega : lo ≠ bE - 1 - 1), if_neg (by omega : lo ≠ m)]
            exact hp6
        · rw [if_neg t3] at heq
          dsimp only at heq
          rcases habl : (if decide (1 < 0 + 1) = true then
              protLoop (scLess sc) lo (hi + 1) a0 (bE - 1) l2
            else (a0, bE - 1, l2)) with ⟨aX, b4, l4⟩
          rw [habl] at heq
          dsimp only at heq
          exact doPivot_assemble sc l l2 lo hi a0 (bE - 1) cE
            (decide (1 < 0 + 1)) pv aX b4 l4 mlo mhi lF habl heq
            hil2 hl2len hs1 ha0bE (by omega) (by omega) hframe2
            (fun k hk1 hk2 => hp7 k hk1 (by omega)) hVmid hQ4base hp6
      · rw [if_neg t2] at heq
        dsimp only at heq
        by_cases t3 : (!ltAt (scLess sc) l2 m lo) = true
        · rw [if_pos t3] at heq
          dsimp only at heq
          rw [Bool.not_eq_true'] at t3
          have hmlt : m < bE - 1 := by omega
          have ht3v : gV sc l2 m ≤ pv := hltconv l2 m hl2len (by omega) hp6 t3
          have hma0 : a0 ≤ m := by
            by_contra hcon
            have hstr : pv < gV sc l2 m := hstrict2 m (by omega) (by omega)
            linarith
          have hmv : gV sc l2 m = pv := le_antisymm ht3v (hp7 m (by omega) (by omega))
          have hb1v : pv ≤ gV sc l2 (bE - 1) := hp7 (bE - 1) (by omega) (by omega)
          have hml : m < l2.length := by omega
          have hbl : bE - 1 < l2.length := by omega
          set l3 := lswap l2 m (bE - 1) with hl3def
          rcases habl : (if decide (1 < 0 + 1) = true then
              protLoop (scLess sc) lo (hi + 1) a0 (bE - 1) l3
            else (a0, bE - 1, l3)) with ⟨aX, b4, l4⟩
          rw [habl] at heq
          dsimp only at heq
          refine doPivot_assemble sc l l3 lo hi a0 (bE - 1) cE
            (decide (1 < 0 + 1)) pv aX b4 l4 mlo mhi lF habl heq
            (by rw [hl3def, lswap_length]; omega) (by rw [hl3def, lswap_length]; omega)
            hs1 (by omega) (by omega) (by omega) ?_ ?_ ?_ ?_ ?_
          · rw [hl3def]
            exact gFrame_trans l l2 _ lo hi hframe2
              (gFrame_lswap l2 lo hi m (bE - 1) (by omega) (by omega) (by omega) (by omega))
          · intro k hk1 hk2
            rw [hl3def, gV_lswap sc l2 m (bE - 1) k hml hbl,
              if_neg (by omega : k ≠ bE - 1)]
            by_cases hkm : k = m
            · rw [if_pos hkm]
              exact hb1v
            · rw [if_neg hkm]
              exact hp7 k hk1 (by omega)
          · intro k hk1 hk2
            rw [hl3def, gV_lswap sc l2 m (bE - 1) k hml hbl]
            by_cases hkb : k = bE - 1
            · rw [if_pos hkb]
              exact hmv
            · rw [if_neg hkb, if_neg (by omega : k ≠ m)]
              exact hmid0 k (by omega) hk2
          · intro k hk1 hk2
            rw [hl3def, gV_lswap sc l2 m (bE - 1) k hml hbl,
              if_neg (by omega : k ≠ bE - 1), if_neg (by omega : k ≠ m)]
            exact hQ4base k hk1 hk2
          · rw [hl3def, gV_lswap sc l2 m (bE - 1) lo hml hbl,
              if_neg (by omega : lo ≠ bE - 1), if_neg (by omega : lo ≠ m)]
            exact hp6
        · rw [if_neg t3] at heq
          dsimp only at heq
          rcases habl : (if decide (1 < 0) = true then
              protLoop (scLess sc) lo (hi + 1) a0 bE l2
            else (a0, bE, l2)) with ⟨aX, b4, l4⟩
          rw [habl] at heq
          dsimp only at heq
          exact doPivot_assemble sc l l2 lo hi a0 bE cE
            (decide (1 < 0)) pv aX b4 l4 mlo mhi lF habl heq
            hil2 hl2len hs1 hp1 (by omega) (by omega) hframe2
            hp7 hmid0 hQ4base hp6
  · -- no duplicate tests: state is (bE, cE, l2, protect0)
    rw [if_neg hcond] at heq
    dsimp only at heq
    rcases habl : (if decide (hi - cE < 5) = true then protLoop (scLess sc) lo (hi + 1) a0 bE l2
        else (a0, bE, l2)) with ⟨aX, b4, l4⟩
    rw [habl] at heq
    dsimp only at heq
    rw [Prod.mk.injEq, Prod.mk.injEq] at heq
    obtain ⟨e1, e2, e3⟩ := heq
    subst e1; subst e2; subst e3
    obtain ⟨g1, g2, g3, g4, g5, g6, g7, g8⟩ :=
      doPivot_final sc lo hi a0 bE cE l2 (decide (hi - cE < 5)) pv aX b4 l4 habl
        hil2 hs1 hp1 (by omega) (by omega) hp7
        (fun k hk1 hk2 => absurd hk2 (by omega))
        (by
          intro k hk1 hk2
          by_cases hklast : k < hi - 1
          · exact le_of_lt (hp8 k (by omega) hklast)
          · rw [show k = hi - 1 by omega]
            exact hlast2)
        hp6
    refine ⟨g1, by omega, by omega, by rw [g4, hl2len], ?_, pv, g6, g7, g8⟩
    exact gFrame_trans l l2 (lswap l4 lo (b4 - 1)) lo hi hframe2 g5

theorem siftDown_heap (sc : α → ℚ) (first hi r0 : Nat) :
    ∀ fuel root l,
      first + hi ≤ l.length → r0 ≤ root → hi - root < fuel →
      (∀ p c2, r0 ≤ p → c2 < hi → (c2 = 2 * p + 1 ∨ c2 = 2 * p + 2) → p ≠ root →
        gV sc l (first + p) ≤ gV sc l (first + c2)) →
      (∀ c2, c2 < hi → (c2 = 2 * root + 1 ∨ c2 = 2 * root + 2) →
        ∀ pp, r0 ≤ pp → (root = 2 * pp + 1 ∨ root = 2 * pp + 2) →
          gV sc l (first + pp) ≤ gV sc l (first + c2)) →
      heapOrd sc first (siftDown (scLess sc) first hi fuel root l) r0 hi ∧
      gFrame l (siftDown (scLess sc) first hi fuel root l) first (first + hi) ∧
      (siftDown (scLess sc) first hi fuel root l).length = l.length := by
  intro fuel
  induction fuel with
  | zero => intro root l h1 h2 h3; exact absurd h3 (by omega)
  | succ fuel ih =>
    intro root l hlen hr0 hfuel hA hB
    have hexp : siftDown (scLess sc) first hi (fuel + 1) root l =
        if hi ≤ 2 * root + 1 then l
        else
          if !ltAt (scLess sc) l (first + root)
              (first + (if 2 * root + 1 + 1 < hi &&
                  ltAt (scLess sc) l (first + (2 * root + 1)) (first + (2 * root + 1) + 1)
                then 2 * root + 1 + 1 else 2 * root + 1)) then l
          else siftDown (scLess sc) first hi fuel
            (if 2 * root + 1 + 1 < hi &&
                ltAt (scLess sc) l (first + (2 * root + 1)) (first + (2 * root + 1) + 1)
              then 2 * root + 1 + 1 else 2 * root + 1)
            (lswap l (first + root)
              (first + (if 2 * root + 1 + 1 < hi &&
                  ltAt (scLess sc) l (first + (2 * root + 1)) (first + (2 * root + 1) + 1)
                then 2 * root + 1 + 1 else 2 * root + 1))) := rfl
    by_cases hleaf : hi ≤ 2 * root + 1
    · rw [hexp, if_pos hleaf]
      refine ⟨?_, gFrame_refl _ _ _, rfl⟩
      intro p c2 hp hc2 hcc
      by_cases hpr : p = root
      · exact absurd hc2 (by omega)
      · exact hA p c2 hp hc2 hcc hpr
    · rw [hexp, if_neg hleaf]
      set child := (if 2 * root + 1 + 1 < hi &&
          ltAt (scLess sc) l (first + (2 * root + 1)) (first + (2 * root + 1) + 1)
        then 2 * root + 1 + 1 else 2 * root + 1) with hchild
      have hchildRange : child = 2 * root + 1 ∨ child = 2 * root + 2 := by
        rw [hchild]
        split
        · right; omega
        · left; rfl
      have hchildLt : child < hi := by
        rw [hchild]
        split
        · rename_i h
          rw [Bool.and_eq_true, decide_eq_true_iff] at h
          omega
        · omega
      have hi1 : first + (2 * root + 1) < l.length := by omega
      have hchildMin1 : gV sc l (first + child) ≤ gV sc l (first + (2 * root + 1)) := by
        rw [hchild]
        split
        · rename_i h
          rw [Bool.and_eq_true, decide_eq_true_iff] at h
          obtain ⟨hlt, hcomp⟩ := h
          rw [ltAt_eq_gV sc l (first + (2 * root + 1)) (first + (2 * root + 1) + 1)
            hi1 (by omega)] at hcomp
          have := of_decide_eq_true hcomp
          rw [show first + (2 * root + 1 + 1) = first + (2 * root + 1) + 1 by omega]
          exact le_of_lt this
        · exact le_refl _
      have hchildMin2 : 2 * root + 2 < hi →
          gV sc l (first + child) ≤ gV sc l (first + (2 * root + 2)) := by
        intro h2
        rw [hchild]
        split
        · rw [show first + (2 * root + 1 + 1) = first + (2 * root + 2) by omega]
        · rename_i h
          have hfalse : ltAt (scLess sc) l (first + (2 * root + 1))
              (first + (2 * root + 1) + 1) = false := by
            rcases Bool.eq_false_or_eq_true
              (ltAt (scLess sc) l (first + (2 * root + 1)) (first + (2 * root + 1) + 1)) with hf | hf
            · rw [Bool.and_eq_true, decide_eq_true_iff] at h
              exact absurd ⟨by omega, hf⟩ h
            · exact hf
          rw [ltAt_eq_gV sc l (first + (2 * root + 1)) (first + (2 * root + 1) + 1)
            hi1 (by omega)] at hfalse
          have := le_of_not_lt (of_decide_eq_false hfalse)
          rw [show first + (2 * root + 2) = first + (2 * root + 1) + 1 by omega]
          exact this
      have hrc : root < child := by omega
      have hrootl : first + root < l.length := by omega
      have hchildl : first + child < l.length := by omega
      by_cases htest : (!ltAt (scLess sc) l (first + root) (first + child)) = true
      · rw [if_pos htest]
        rw [Bool.not_eq_true'] at htest
        have hroot_le : gV sc l (first + root) ≤ gV sc l (first + child) := by
          rw [ltAt_eq_gV sc l (first + root) (first + child) hrootl hchildl] at htest
          exact le_of_not_lt (of_decide_eq_false htest)
        refine ⟨?_, gFrame_refl _ _ _, rfl⟩
        intro p c2 hp hc2 hcc
        by_cases hpr : p = root
        · subst hpr
          rcases hcc with h | h
          · rw [h]
            exact hroot_le.trans hchildMin1
          · rw [h]
            exact hroot_le.trans (hchildMin2 (by omega))
        · exact hA p c2 hp hc2 hcc hpr
      · rw [if_neg htest]
        have ht : ltAt (scLess sc) l (first + root) (first + child) = true := by
          rcases Bool.eq_false_or_eq_true (ltAt (scLess sc) l (first + root) (first + child)) with hf | hf
          · exact hf
          · exact absurd (by rw [hf]; rfl) htest
        have hswap_lt : gV sc l (first + child) < gV sc l (first + root) := by
          rw [ltAt_eq_gV sc l (first + root) (first + child) hrootl hchildl] at ht
          exact of_decide_eq_true ht
        have hval : ∀ k, gV sc (lswap l (first + root) (first + child)) k =
            if k = first + child then gV sc l (first + root)
            else if k = first + root then gV sc l (first + child) else gV sc l k :=
          fun k => gV_lswap sc l (first + root) (first + child) k hrootl hchildl
        obtain ⟨ih1, ih2, ih3⟩ :=
          ih child (lswap l (first + root) (first + child))
            (by rw [lswap_length]; exact hlen) (by omega) (by omega)
            (by
              intro p c2 hp hc2 hcc hpc
              by_cases hpr : p = root
              · subst hpr
                rw [hval, hval, if_neg (by omega : first + p ≠ first + child), if_pos rfl]
                by_cases hc2c : c2 = child
                · rw [if_pos (by omega : first + c2 = first + child)]
                  exact le_of_lt hswap_lt
                · rw [if_neg (by omega : first + c2 ≠ first + child),
                    if_neg (by omega : first + c2 ≠ first + p)]
                  rcases hcc with h | h
                  · rw [h]
                    exact hchildMin1
                  · rw [h]
                    exact hchildMin2 (by omega)
              · by_cases hc2r : c2 = root
                · rw [hval, hval, if_neg (by omega : first + p ≠ first + child),
                    if_neg (by omega : first + p ≠ first + root),
                    if_neg (by omega : first + c2 ≠ first + child),
                    if_pos (by omega : first + c2 = first + root)]
                  exact hB child hchildLt hchildRange p hp (by omega)
                · by_cases hc2c : c2 = child
                  · have hpro : p = root := by
                      rcases hchildRange with h1 | h1 <;> rcases hcc with h2 | h2 <;> omega
                    exact absurd hpro hpr
                  · rw [hval, hval, if_neg (by omega : first + p ≠ first + child),
                      if_neg (by omega : first + p ≠ first + root),
                      if_neg (by omega : first + c2 ≠ first + child),
                      if_neg (by omega : first + c2 ≠ first + root)]
                    exact hA p c2 hp hc2 hcc hpr)
            (by
              intro c2 hc2 hcc pp hpp hcp
              have hppr : pp = root := by
                rcases hchildRange with h1 | h1 <;> rcases hcp with h2 | h2 <;> omega
              subst hppr
              have hc2big : child < c2 := by omega
              rw [hval, hval, if_neg (by omega : first + pp ≠ first + child), if_pos rfl,
                if_neg (by omega : first + c2 ≠ first + child),
                if_neg (by omega : first + c2 ≠ first + pp)]
              exact hA child c2 (by omega) hc2 hcc (by omega))
        refine ⟨ih1, ?_, by rw [ih3, lswap_length]⟩
        exact gFrame_trans l (lswap l (first + root) (first + child)) _ first (first + hi)
          (gFrame_lswap l first (first + hi) (first + root) (first + child)
            (by omega) (by omega) (by omega) (by omega)) ih2

theorem heapify_spec (sc : α → ℚ) (first hi : Nat) :
    ∀ n (l : List α), first + hi ≤ l.length →
      heapOrd sc first l n hi →
      heapOrd sc first
        ((List.range n).foldr (fun i l => siftDown (scLess sc) first hi (hi + 1) i l) l) 0 hi ∧
      gFrame l ((List.range n).foldr (fun i l => siftDown (scLess sc) first hi (hi + 1) i l) l)
        first (first + hi) ∧
      ((List.range n).foldr (fun i l => siftDown (scLess sc) first hi (hi + 1) i l) l).length
        = l.length := by
  intro n
  induction n with
  | zero =>
    intro l hlen hheap
    simp only [List.range_zero, List.foldr_nil]
    exact ⟨fun p c2 hp hc2 hcc => hheap p c2 (Nat.zero_le _) hc2 hcc, gFrame_refl _ _ _, by trivial⟩
  | succ n ih =>
    intro l hlen hheap
    rw [List.range_succ, List.foldr_append]
    simp only [List.foldr_cons, List.foldr_nil]
    obtain ⟨h1, h2, h3⟩ :=
      siftDown_heap sc first hi n (hi + 1) n l hlen (le_refl _) (by omega)
        (fun p c2 hp hc2 hcc hpn => hheap p c2 (by omega) hc2 hcc)
        (fun c2 hc2 hcc pp hpp hcp => absurd hcp (by omega))
    obtain ⟨j1, j2, j3⟩ :=
      ih (siftDown (scLess sc) first hi (hi + 1) n l) (by omega) h1
    exact ⟨j1, gFrame_trans l _ _ first (first + hi) h2 j2, by rw [j3, h3]⟩

theorem heapOrd_min (sc : α → ℚ) (first hi : Nat) (l : List α)
    (h : heapOrd sc first l 0 hi) :
    ∀ k, k < hi → gV sc l first ≤ gV sc l (first + k) := by
  intro k
  induction k using Nat.strong_induction_on with
  | _ k ih =>
    intro hk
    rcases Nat.eq_zero_or_pos k with h0 | h0
    · subst h0
      rw [Nat.add_zero]
    · have hpar := h ((k - 1) / 2) k (Nat.zero_le _) hk (by omega)
      exact ((ih ((k - 1) / 2) (by omega)) (by omega)).trans hpar

theorem extract_spec (sc : α → ℚ) (first b hi0 : Nat) :
    ∀ n (l : List α), n ≤ hi0 → hi0 ≤ b → first + hi0 ≤ l.length →
      heapOrd sc first l 0 n →
      (∀ p q, n ≤ p → p ≤ q → q < hi0 → gV sc l (first + q) ≤ gV sc l (first + p)) →
      (∀ p q, p < n → n ≤ q → q < hi0 → gV sc l (first + q) ≤ gV sc l (first + p)) →
      (∀ p q, p ≤ q → q < hi0 →
        gV sc ((List.range n).foldr
          (fun i l => siftDown (scLess sc) first i (b + 1) 0 (lswap l first (first + i))) l)
          (first + q) ≤
        gV sc ((List.range n).foldr
          (fun i l => siftDown (scLess sc) first i (b + 1) 0 (lswap l first (first + i))) l)
          (first + p)) ∧
      gFrame l ((List.range n).foldr
        (fun i l => siftDown (scLess sc) first i (b + 1) 0 (lswap l first (first + i))) l)
        first (first + n) ∧
      ((List.range n).foldr
        (fun i l => siftDown (scLess sc) first i (b + 1) 0 (lswap l first (first + i))) l).length
        = l.length := by
  intro n
  induction n with
  | zero =>
    intro l hn hb hlen hheap hsuf hcross
    simp only [List.range_zero, List.foldr_nil]
    exact ⟨fun p q hpq hq => hsuf p q (Nat.zero_le _) hpq hq, gFrame_refl _ _ _, by trivial⟩
  | succ n ih =>
    intro l hn hb hlen hheap hsuf hcross
    rw [List.range_succ, List.foldr_append]
    simp only [List.foldr_cons, List.foldr_nil]
    have hfl : first < l.length := by omega
    have hfnl : first + n < l.length := by omega
    have hmin : ∀ k, k < n + 1 → gV sc l first ≤ gV sc l (first + k) :=
      heapOrd_min sc first (n + 1) l hheap
    have hval : ∀ k, gV sc (lswap l first (first + n)) k =
        if k = first + n then gV sc l first
        else if k = first then gV sc l (first + n) else gV sc l k :=
      fun k => gV_lswap sc l first (first + n) k hfl hfnl
    set l2 := lswap l first (first + n) with hl2def
    obtain ⟨h1, h2, h3⟩ :=
      siftDown_heap sc first n 0 (b + 1) 0 l2
        (by rw [hl2def, lswap_length]; omega) (le_refl _) (by omega)
        (by
          intro p c2 hp hc2 hcc hpn
          rw [hval, hval, if_neg (by omega : first + p ≠ first + n),
            if_neg (by omega : first + p ≠ first),
            if_neg (by omega : first + c2 ≠ first + n),
            if_neg (by omega : first + c2 ≠ first)]
          exact hheap p c2 (Nat.zero_le _) (by omega) hcc)
        (fun c2 hc2 hcc pp hpp hcp => absurd hcp (by omega))
    set step := siftDown (scLess sc) first n (b + 1) 0 l2 with hstepdef
    -- values at suffix positions are untouched by the siftDown
    have huntouched : ∀ q, n ≤ q → gV sc step (first + q) = gV sc l2 (first + q) := by
      intro q hq
      exact gV_frame sc l2 step first (first + n) (first + q) h2 (Or.inr (by omega))
    have hqval : ∀ q, n ≤ q → q < hi0 → gV sc step (first + q) ≤ gV sc l first := by
      intro q hq1 hq2
      rw [huntouched q hq1, hval]
      by_cases hqn : q = n
      · rw [if_pos (by omega : first + q = first + n)]
      · rw [if_neg (by omega : first + q ≠ first + n), if_neg (by omega : first + q ≠ first)]
        have := hcross 0 q (by omega) (by omega) hq2
        rw [Nat.add_zero] at this
        exact this
    -- every prefix position of step scores at least the old root
    have hlow0 : ∀ k, first ≤ k → k < first + n → gV sc l first ≤ gV sc l2 k := by
      intro k hk1 hk2
      rw [hval]
      by_cases hkn : k = first + n
      · omega
      · rw [if_neg hkn]
        by_cases hkf : k = first
        · rw [if_pos hkf]
          exact hmin n (by omega)
        · rw [if_neg hkf]
          have : k = first + (k - first) := by omega
          rw [this]
          exact hmin (k - first) (by omega)
    have hlow : ∀ k, first ≤ k → k < first + n → gV sc l first ≤ gV sc step k := by
      have := seg_bound_transfer sc (fun v => gV sc l first ≤ v) l2 step first (first + n)
        (by omega) (by rw [hl2def, lswap_length]; omega)
        (by rw [hstepdef]; exact siftDown_perm (scLess sc) first n (b + 1) 0 l2) h2 hlow0
      intro k hk1 hk2
      exact this k hk1 hk2
    obtain ⟨j1, j2, j3⟩ :=
      ih step (by omega) hb (by rw [hstepdef, h3, hl2def, lswap_length]; exact hlen) h1
        (by
          intro p q hp hpq hq
          rw [huntouched q (by omega), huntouched p hp, hval, hval]
          by_cases hpn : p = n
          · rw [if_pos (by omega : first + p = first + n)]
            by_cases hqn : q = n
            · rw [if_pos (by omega : first + q = first + n)]
            · rw [if_neg (by omega : first + q ≠ first + n), if_neg (by omega : first + q ≠ first)]
              have := hcross 0 q (by omega) (by omega) hq
              rw [Nat.add_zero] at this
              exact this
          · rw [if_neg (by omega : first + p ≠ first + n), if_neg (by omega : first + p ≠ first),
              if_neg (by omega : first + q ≠ first + n), if_neg (by omega : first + q ≠ first)]
            exact hsuf p q (by omega) hpq hq)
        (by
          intro p q hp hq1 hq2
          exact (hqval q hq1 hq2).trans (hlow (first + p) (by omega) (by omega)))
    refine ⟨j1, ?_, by rw [j3, hstepdef, h3, hl2def, lswap_length]⟩
    refine gFrame_trans l l2 _ first (first + (n + 1)) ?_
      (gFrame_trans l2 step _ first (first + (n + 1))
        (gFrame_mono l2 step first (first + (n + 1)) first (first + n) h2 (le_refl _) (by omega))
        (gFrame_mono step _ first (first + (n + 1)) first (first + n) j2 (le_refl _) (by omega)))
    rw [hl2def]
    exact gFrame_lswap l first (first + (n + 1)) first (first + n)
      (le_refl _) (by omega) (by omega) (by omega)

theorem heapSortGo_spec (sc : α → ℚ) (l : List α) (a b : Nat)
    (hb : b ≤ l.length) (hab : a ≤ b) :
    gSorted sc (heapSortGo (scLess sc) l a b) a b ∧
    gFrame l (heapSortGo (scLess sc) l a b) a b ∧
    (heapSortGo (scLess sc) l a b).length = l.length := by
  unfold heapSortGo
  dsimp only
  obtain ⟨k1, k2, k3⟩ :=
    heapify_spec sc a (b - a) ((b - a - 1) / 2 + 1) l (by omega)
      (fun p c2 hp hc2 hcc => absurd hc2 (by omega))
  set lh := (List.range ((b - a - 1) / 2 + 1)).foldr
    (fun i l => siftDown (scLess sc) a (b - a) (b - a + 1) i l) l with hlh
  set le2 := (List.range (b - a)).foldr
    (fun i l => siftDown (scLess sc) a i (b + 1) 0 (lswap l a (a + i))) lh with hle2
  obtain ⟨j1, j2, j3⟩ :=
    extract_spec sc a b (b - a) (b - a) lh (le_refl _) (by omega) (by omega) k1
      (fun p q hp hpq hq => absurd (by omega : p < p) (lt_irrefl p))
      (fun p q hp hq1 hq2 => absurd (by omega : q < q) (lt_irrefl q))
  refine ⟨?_, ?_, by rw [j3, k3]⟩
  · intro p q hp hpq hq
    have := j1 (p - a) (q - a) (by omega) (by omega)
    rw [show a + (q - a) = q by omega, show a + (p - a) = p by omega] at this
    exact this
  · have hfa : gFrame l lh a b := by
      have := gFrame_mono l lh a b a (a + (b - a)) k2 (le_refl _) (by omega)
      exact this
    have hfb : gFrame lh le2 a b :=
      gFrame_mono lh le2 a b a (a + (b - a)) j2 (le_refl _) (by omega)
    exact gFrame_trans l lh le2 a b hfa hfb

theorem gSorted_of_SortedRange (sc : α → ℚ) (l : List α) (a b : Nat)
    (hb : b ≤ l.length) (h : SortedRange sc l a b) : gSorted sc l a b := by
  intro p q hap hpq hq
  have hpl : p < l.length := by omega
  have hql : q < l.length := by omega
  have hp : l[p]? = some (l.get ⟨p, hpl⟩) := by rw [List.getElem?_eq_getElem hpl]; rfl
  have hq2 : l[q]? = some (l.get ⟨q, hql⟩) := by rw [List.getElem?_eq_getElem hql]; rfl
  rw [gV_eq_of_getElem? sc l p _ hp, gV_eq_of_getElem? sc l q _ hq2]
  exact h p q _ _ hap hpq hq hp hq2

theorem insInner_frame (less : α → α → Bool) (a : Nat) :
    ∀ (j : Nat) (l : List α) (k : Nat), k < a ∨ j < k → (insInner less a j l)[k]? = l[k]? := by
  intro j
  induction j with
  | zero => intro l k hk; rfl
  | succ j ih =>
    intro l k hk
    have hexp : insInner less a (j + 1) l =
        if a < j + 1 && ltAt less l (j + 1) j then insInner less a j (lswap l (j + 1) j)
        else l := rfl
    by_cases hc : (decide (a < j + 1) && ltAt less l (j + 1) j) = true
    · rw [hexp, if_pos hc]
      rw [Bool.and_eq_true, decide_eq_true_iff] at hc
      rw [ih (lswap l (j + 1) j) k (by omega)]
      exact lswap_getElem?_ne l (j + 1) j k (by omega) (by omega)
    · rw [hexp, if_neg hc]

theorem foldl_frame (f : List α → Nat → List α) (a b : Nat) (P : Nat → Prop)
    (h : ∀ (l : List α) i, P i → gFrame l (f l i) a b) :
    ∀ (idxs : List Nat), (∀ i ∈ idxs, P i) →
      ∀ l, gFrame l (idxs.foldl f l) a b := by
  intro idxs
  induction idxs with
  | nil => intro _ l; exact gFrame_refl l a b
  | cons i idxs ih =>
    intro hmem l
    rw [List.foldl_cons]
    exact gFrame_trans l (f l i) _ a b (h l i (hmem i (List.mem_cons_self i idxs)))
      (ih (fun j hj => hmem j (List.mem_cons_of_mem i hj)) (f l i))

theorem insertionSortGo_frame (less : α → α → Bool) (l : List α) (a b : Nat) :
    gFrame l (insertionSortGo less l a b) a b := by
  unfold insertionSortGo
  refine foldl_frame (fun l i => insInner less a i l) a b
    (fun i => a + 1 ≤ i ∧ i < b) ?_ (List.range' (a + 1) (b - (a + 1))) ?_ l
  · intro l2 i hi k hk
    exact insInner_frame less a i l2 k (by omega)
  · intro i hi
    rw [List.mem_range'_1] at hi
    omega

theorem shellPass_frame (less : α → α → Bool) (a b : Nat) (l : List α) :
    gFrame l (shellPass less a b l) a b := by
  unfold shellPass
  refine foldl_frame (fun l i => if ltAt less l i (i - 6) then lswap l i (i - 6) else l) a b
    (fun i => a + 6 ≤ i ∧ i < b) ?_ (List.range' (a + 6) (b - (a + 6))) ?_ l
  · intro l2 i hi k hk
    exact condSwap_frame less l2 i (i - 6) k (by omega) (by omega)
  · intro i hi
    rw [List.mem_range'_1] at hi
    omega

theorem gSorted_combine (sc : α → ℚ) (lO : List α) (a mlo mhi b : Nat) (pv : ℚ)
    (h1 : a ≤ mlo) (h2 : mlo ≤ mhi) (h3 : mhi ≤ b)
    (f1 : ∀ k, a ≤ k → k < mlo → pv ≤ gV sc lO k)
    (f2 : ∀ k, mlo ≤ k → k < mhi → gV sc lO k = pv)
    (f3 : ∀ k, mhi ≤ k → k < b → gV sc lO k ≤ pv)
    (f4 : gSorted sc lO a mlo) (f5 : gSorted sc lO mhi b) :
    gSorted sc lO a b := by
  intro p q hap hpq hq
  by_cases hp1 : p < mlo
  · by_cases hq1 : q < mlo
    · exact f4 p q hap hpq hq1
    · by_cases hq2 : q < mhi
      · rw [f2 q (by omega) hq2]
        exact f1 p hap hp1
      · exact (f3 q (by omega) hq).trans (f1 p hap hp1)
  · by_cases hp2 : p < mhi
    · by_cases hq2 : q < mhi
      · rw [f2 q (by omega) hq2, f2 p (by omega) hp2]
      · rw [f2 p (by omega) hp2]
        exact f3 q (by omega) hq
    · exact f5 p q (by omega) hpq hq

theorem quickSortGo_sorted (sc : α → ℚ) :
    ∀ fuel (l : List α) (a b maxD : Nat), b ≤ l.length → maxD < fuel →
      gSorted sc (quickSortGo (scLess sc) fuel l a b maxD) a b ∧
      gFrame l (quickSortGo (scLess sc) fuel l a b maxD) a b ∧
      (quickSortGo (scLess sc) fuel l a b maxD).length = l.length := by
  intro fuel
  induction fuel with
  | zero => intro l a b maxD h1 h2; exact absurd h2 (by omega)
  | succ fuel ih =>
    intro l a b maxD hb hfd
    rcases hdp : doPivot (scLess sc) l a b with ⟨mlo, mhi, lP⟩
    have hexp : quickSortGo (scLess sc) (fuel + 1) l a b maxD =
        if 12 < b - a then
          if maxD = 0 then heapSortGo (scLess sc) l a b
          else
            if (doPivot (scLess sc) l a b).1 - a < b - (doPivot (scLess sc) l a b).2.1 then
              quickSortGo (scLess sc) fuel
                (quickSortGo (scLess sc) fuel (doPivot (scLess sc) l a b).2.2 a
                  (doPivot (scLess sc) l a b).1 (maxD - 1))
                (doPivot (scLess sc) l a b).2.1 b (maxD - 1)
            else
              quickSortGo (scLess sc) fuel
                (quickSortGo (scLess sc) fuel (doPivot (scLess sc) l a b).2.2
                  (doPivot (scLess sc) l a b).2.1 b (maxD - 1))
                a (doPivot (scLess sc) l a b).1 (maxD - 1)
        else if 1 < b - a then insertionSortGo (scLess sc) (shellPass (scLess sc) a b l) a b
        else l := rfl
    rw [hdp] at hexp
    dsimp only at hexp
    by_cases h12 : 12 < b - a
    · by_cases hmd : maxD = 0
      · rw [hexp, if_pos h12, if_pos hmd]
        exact heapSortGo_spec sc l a b hb (by omega)
      · rw [hexp, if_pos h12, if_neg hmd]
        obtain ⟨d1, d2, d3, d4, d5, pv, dL, dM, dR⟩ := doPivot_spec sc l a b mlo mhi lP hdp hb h12
        have hmlolen : mlo ≤ lP.length := by omega
        by_cases hside : mlo - a < b - mhi
        · rw [if_pos hside]
          obtain ⟨i1a, i1b, i1c⟩ := ih lP a mlo (maxD - 1) hmlolen (by omega)
          set lE := quickSortGo (scLess sc) fuel lP a mlo (maxD - 1) with hlE
          have hblen : b ≤ lE.length := by omega
          obtain ⟨i2a, i2b, i2c⟩ := ih lE mhi b (maxD - 1) hblen (by omega)
          set lO := quickSortGo (scLess sc) fuel lE mhi b (maxD - 1) with hlO
          have hper1 : lE.Perm lP := by
            rw [hlE]
            exact quickSortGo_perm (scLess sc) fuel lP a mlo (maxD - 1)
          have hper2 : lO.Perm lE := by
            rw [hlO]
            exact quickSortGo_perm (scLess sc) fuel lE mhi b (maxD - 1)
          have hf1E : ∀ k, a ≤ k → k < mlo → pv ≤ gV sc lE k :=
            seg_bound_transfer sc (fun v => pv ≤ v) lP lE a mlo d1 hmlolen hper1 i1b dL
          have hf1 : ∀ k, a ≤ k → k < mlo → pv ≤ gV sc lO k := by
            intro k hk1 hk2
            rw [gV_frame sc lE lO mhi b k i2b (Or.inl (by omega))]
            exact hf1E k hk1 hk2
          have hf2 : ∀ k, mlo ≤ k → k < mhi → gV sc lO k = pv := by
            intro k hk1 hk2
            rw [gV_frame sc lE lO mhi b k i2b (Or.inl hk2),
              gV_frame sc lP lE a mlo k i1b (Or.inr hk1)]
            exact dM k hk1 hk2
          have hf3E : ∀ k, mhi ≤ k → k < b → gV sc lE k ≤ pv := by
            intro k hk1 hk2
            rw [gV_frame sc lP lE a mlo k i1b (Or.inr (by omega))]
            exact dR k hk1 hk2
          have hf3 : ∀ k, mhi ≤ k → k < b → gV sc lO k ≤ pv :=
            seg_bound_transfer sc (fun v => v ≤ pv) lE lO mhi b (by omega) hblen hper2 i2b hf3E
          have hs4 : gSorted sc lO a mlo := by
            intro p q hap hpq hq
            rw [gV_frame sc lE lO mhi b p i2b (Or.inl (by omega)),
              gV_frame sc lE lO mhi b q i2b (Or.inl (by omega))]
            exact i1a p q hap hpq hq
          refine ⟨gSorted_combine sc lO a mlo mhi b pv d1 d2 d3 hf1 hf2 hf3 hs4 i2a, ?_, ?_⟩
          · exact gFrame_trans l lP lO a b d5
              (gFrame_trans lP lE lO a b
                (gFrame_mono lP lE a b a mlo i1b (le_refl _) (by omega))
                (gFrame_mono lE lO a b mhi b i2b (by omega) (le_refl _)))
          · rw [i2c, i1c]
            exact d4
        · rw [if_neg hside]
          obtain ⟨i1a, i1b, i1c⟩ := ih lP mhi b (maxD - 1) (by omega) (by omega)
          set lE := quickSortGo (scLess sc) fuel lP mhi b (maxD - 1) with hlE
          have hmlolen2 : mlo ≤ lE.length := by omega
          obtain ⟨i2a, i2b, i2c⟩ := ih lE a mlo (maxD - 1) hmlolen2 (by omega)
          set lO := quickSortGo (scLess sc) fuel lE a mlo (maxD - 1) with hlO
          have hper1 : lE.Perm lP := by
            rw [hlE]
            exact quickSortGo_perm (scLess sc) fuel lP mhi b (maxD - 1)
          have hper2 : lO.Perm lE := by
            rw [hlO]
            exact quickSortGo_perm (scLess sc) fuel lE a mlo (maxD - 1)
          have hf3E : ∀ k, mhi ≤ k → k < b → gV sc lE k ≤ pv :=
            seg_bound_transfer sc (fun v => v ≤ pv) lP lE mhi b d3 (by omega) hper1 i1b dR
          have hf3 : ∀ k, mhi ≤ k → k < b → gV sc lO k ≤ pv := by
            intro k hk1 hk2
            rw [gV_frame sc lE lO a mlo k i2b (Or.inr (by omega))]
            exact hf3E k hk1 hk2
          have hf2 : ∀ k, mlo ≤ k → k < mhi → gV sc lO k = pv := by
            intro k hk1 hk2
            rw [gV_frame sc lE lO a mlo k i2b (Or.inr hk1),
              gV_frame sc lP lE mhi b k i1b (Or.inl hk2)]
            exact dM k hk1 hk2
          have hf1E : ∀ k, a ≤ k → k < mlo → pv ≤ gV sc lE k := by
            intro k hk1 hk2
            rw [gV_frame sc lP lE mhi b k i1b (Or.inl (by omega))]
            exact dL k hk1 hk2
          have hf1 : ∀ k, a ≤ k → k < mlo → pv ≤ gV sc lO k :=
            seg_bound_transfer sc (fun v => pv ≤ v) lE lO a mlo d1 hmlolen2 hper2 i2b hf1E
          have hs5 : gSorted sc lO mhi b := by
            intro p q hap hpq hq
            rw [gV_frame sc lE lO a mlo p i2b (Or.inr (by omega)),
              gV_frame sc lE lO a mlo q i2b (Or.inr (by omega))]
            exact i1a p q hap hpq hq
          refine ⟨gSorted_combine sc lO a mlo mhi b pv d1 d2 d3 hf1 hf2 hf3 i2a hs5, ?_, ?_⟩
          · exact gFrame_trans l lP lO a b d5
              (gFrame_trans lP lE lO a b
                (gFrame_mono lP lE a b mhi b i1b (by omega) (le_refl _))
                (gFrame_mono lE lO a b a mlo i2b (le_refl _) (by omega)))
          · rw [i2c, i1c]
            exact d4
    · rw [hexp, if_neg h12]
      by_cases h1 : 1 < b - a
      · rw [if_pos h1]
        have hshlen : (shellPass (scLess sc) a b l).length = l.length :=
          (shellPass_perm (scLess sc) a b l).length_eq
        have hinslen : (insertionSortGo (scLess sc) (shellPass (scLess sc) a b l) a b).length
            = l.length := by
          rw [(insertionSortGo_perm (scLess sc) (shellPass (scLess sc) a b l) a b).length_eq,
            hshlen]
        refine ⟨?_, ?_, hinslen⟩
        · exact gSorted_of_SortedRange sc _ a b (by rw [hinslen]; exact hb)
            (insertionSortGo_sorted sc _ a b (by rw [hshlen]; exact hb))
        · exact gFrame_trans l (shellPass (scLess sc) a b l) _ a b
            (shellPass_frame (scLess sc) a b l)
            (insertionSortGo_frame (scLess sc) (shellPass (scLess sc) a b l) a b)
      · rw [if_neg h1]
        refine ⟨?_, gFrame_refl l a b, rfl⟩
        intro p q hap hpq hq
        have hpq2 : p = q := by omega
        rw [hpq2]

theorem sortGo_sorted (sc : α → ℚ) (l : List α) :
    gSorted sc (sortGo (scLess sc) l) 0 l.length := by
  unfold sortGo
  exact (quickSortGo_sorted sc (goMaxDepth l.length + 1) l 0 l.length (goMaxDepth l.length)
    (le_refl _) (by omega)).1

end GoSort

namespace Zoekt

/-- Claim C2 counterexample: sortMatchesByScore does not keep equal-Score
elements in input order — on ex8 the subsequence of Score-9 matches comes
out as line numbers [7, 2, 3, 4, 5] (and the Score-3 ones as [6, 1]),
because Go's sort.Sort runs an unstable ShellSort gap-6 pass.  A stable
sort would leave both filtered subsequences unchanged. -/
theorem sortMatchesByScore_unstable :
    (sortMatchesByScore ex8).filter (fun m => m.Score == 9) ≠
      ex8.filter (fun m => m.Score == 9) := by decide

/-- Claim C2 (amended): for every input, sortMatchesByScore and
sortFilesByScore produce a permutation of the input whose Score field is
non-increasing; equal-Score elements do not in general keep their input
order (see the counterexample), because sort.Sort is not stable. -/
theorem sortByScore_spec :
    (∀ ms : List Match,
      (sortMatchesByScore ms).Perm ms ∧
      (∀ (p q : Nat) (x y : Match), p ≤ q →
        (sortMatchesByScore ms)[p]? = some x →
        (sortMatchesByScore ms)[q]? = some y →
        y.Score ≤ x.Score)) ∧
    (∀ fs : List FileMatch,
      (sortFilesByScore fs).Perm fs ∧
      (∀ (p q : Nat) (x y : FileMatch), p ≤ q →
        (sortFilesByScore fs)[p]? = some x →
        (sortFilesByScore fs)[q]? = some y →
        y.Score ≤ x.Score)) := by
  constructor
  · intro ms
    constructor
    · exact GoSort.sortGo_perm matchLess ms
    · intro p q x y hpq hp hq
      unfold sortMatchesByScore at hp hq
      have hp2 : (GoSort.sortGo (GoSort.scLess Match.Score) ms)[p]? = some x := hp
      have hq2 : (GoSort.sortGo (GoSort.scLess Match.Score) ms)[q]? = some y := hq
      have hqlen : q < ms.length := by
        have h1 := (List.getElem?_eq_some.1 hq).1
        have h2 := (GoSort.sortGo_perm matchLess ms).length_eq
        omega
      have hsorted := GoSort.sortGo_sorted Match.Score ms p q (Nat.zero_le _) hpq hqlen
      rw [GoSort.gV_eq_of_getElem? Match.Score _ q y hq2,
        GoSort.gV_eq_of_getElem? Match.Score _ p x hp2] at hsorted
      exact hsorted
  · intro fs
    constructor
    · exact GoSort.sortGo_perm fileLess fs
    · intro p q x y hpq hp hq
      unfold sortFilesByScore at hp hq
      have hp2 : (GoSort.sortGo (GoSort.scLess FileMatch.Score) fs)[p]? = some x := hp
      have hq2 : (GoSort.sortGo (GoSort.scLess FileMatch.Score) fs)[q]? = some y := hq
      have hqlen : q < fs.length := by
        have h1 := (List.getElem?_eq_some.1 hq).1
        have h2 := (GoSort.sortGo_perm fileLess fs).length_eq
        omega
      have hsorted := GoSort.sortGo_sorted FileMatch.Score fs p q (Nat.zero_le _) hpq hqlen
      rw [GoSort.gV_eq_of_getElem? FileMatch.Score _ q y hq2,
        GoSort.gV_eq_of_getElem? FileMatch.Score _ p x hp2] at hsorted
      exact hsorted

/-- Witness for the amended C2 theorem: on ex8 the sort permutes the input
and places a Score-9 element before the final Score-3 element. -/
theorem sortByScore_spec_witness :
    (sortMatchesByScore ex8).Perm ex8 ∧
    (mkM 3 1).Score ≤ (mkM 9 7).Score :=
  ⟨(sortByScore_spec.1 ex8).1,
   (sortByScore_spec.1 ex8).2 0 7 (mkM 9 7) (mkM 3 1)
     (by omega) (by decide) (by decide)⟩

end Zoekt
